import Mathlib

/-!
# Abelian SDK demo: coin tracking and unsigned-transaction assembly

A shallow embedding of the core of `demo-sdk.go` (`DemoSDKTrackCoins`,
`DemoSDKMakeUnsignedRawTx`, `DemoSDKMakeUnsignedRawTxWithMemo`) and of the helpers of
`common.go` they use.

Conventions of the embedding:

* `int64` values are integers, every arithmetic result is reduced by `wrap64`
  (two's complement wrap-around);
* the ledger client (`core.AbecRPCClient`) and the `core` package are external
  collaborators, passed as records of functions; a failing call returns `Except.error`;
* `demoCheck(err)` panics on a non-nil error: the enclosing operation ends with
  `Except.error`, nothing after the failing call is executed;
* byte strings are lists of byte values.
-/

namespace AbelDemo

/-! ## Machine integers -/

/-- Two's complement reduction of an integer to the `int64` range. -/
def wrap64 (x : Int) : Int :=
  (x + 9223372036854775808) % 18446744073709551616 - 9223372036854775808

/-- Membership in the `int64` range. -/
def IsInt64 (x : Int) : Prop :=
  -9223372036854775808 ≤ x ∧ x < 9223372036854775808

instance (x : Int) : Decidable (IsInt64 x) := by
  unfold IsInt64; infer_instance

/-- Go `a + b` on `int64`. -/
def add64 (a b : Int) : Int := wrap64 (a + b)

/-- Go `a - b` on `int64`. -/
def sub64 (a b : Int) : Int := wrap64 (a - b)

/-- Go `a / b` on `int64` for `b ≠ 0`: the quotient truncated toward zero. -/
def div64 (a b : Int) : Int := wrap64 (Int.tdiv a b)

/-- Go `a % b` on `int64` for `b ≠ 0`: the remainder of the truncated division. -/
def rem64 (a b : Int) : Int := wrap64 (Int.tmod a b)

/-! ## Data model -/

/-- Byte strings (`core.Bytes`, `[]byte`). -/
abbrev Bytes := List Nat

/-- Error values; `demoCheck` panics with them. -/
abbrev Err := String

deriving instance DecidableEq for Except

/-- The fields of `DemoAccount` (common.go) read by the tracking and spending paths. -/
structure DemoAccount where
  SerialNoSecretKey : Bytes
  ViewSecretKey : Bytes
  AbelAddress : Bytes
  ShortAbelAddress : Bytes
  Fingerprint : Bytes
deriving DecidableEq

/-- Mirror of `core.CoinID`; `Index` is a `uint8`. -/
structure CoinID where
  TxHash : Bytes
  Index : Nat
deriving DecidableEq

/-- Mirror of `core.Coin` as filled in by `DemoSDKTrackCoins`. -/
structure Coin where
  ID : CoinID
  OwnerShortAddress : Bytes
  OwnerAddress : Bytes
  Value : Int
  SerialNumber : Option Bytes
  TxVoutData : Bytes
  BlockHash : Bytes
  BlockHeight : Int
deriving DecidableEq

/-- Mirror of `core.TxInDesc` as filled in by `DemoSDKMakeUnsignedRawTx`. -/
structure TxInDesc where
  TxOutData : Bytes
  CoinValue : Int
  Owner : Bytes
  Height : Int
  TxHash : Bytes
  TxOutIndex : Nat
deriving DecidableEq

/-- Mirror of `core.TxOutDesc`. -/
structure TxOutDesc where
  AbelAddress : Bytes
  CoinValue : Int
deriving DecidableEq

/-- Mirror of `core.TxBlockDesc`, built by `core.NewTxBlockDesc(binData, height)`. -/
structure TxBlockDesc where
  BinData : Bytes
  Height : Int
deriving DecidableEq

/-- Go `map[int64]*core.TxBlockDesc`: at most one entry per key. -/
abbrev RingBlockMap := List (Int × TxBlockDesc)

/-- Go `m[k] = v`: insert, replacing an entry under the same key. -/
def RingBlockMap.set (m : RingBlockMap) (k : Int) (v : TxBlockDesc) : RingBlockMap :=
  (k, v) :: m.filter (fun e => decide (e.1 ≠ k))

/-- Go `m[k]` with the presence flag. -/
def RingBlockMap.get? (m : RingBlockMap) (k : Int) : Option TxBlockDesc :=
  (m.find? (fun e => decide (e.1 = k))).map Prod.snd

/-- Mirror of `core.TxDesc` as built by `core.NewTxDesc`. -/
structure TxDesc where
  TxInDescs : List TxInDesc
  TxOutDescs : List TxOutDesc
  TxFee : Int
  TxRingBlockDescs : RingBlockMap
deriving DecidableEq

/-- One entry of `tx.Vout`. -/
structure TxVout where
  Script : String
deriving DecidableEq

/-- One entry of `tx.Vin`. -/
structure TxVin where
  SerialNumber : String
deriving DecidableEq

/-- The part of a block returned by `GetBlock` that the demo reads. -/
structure Block where
  TxHashes : List String
deriving DecidableEq

/-- The part of a transaction returned by `GetRawTx` that the demo reads. -/
structure Tx where
  Vin : List TxVin
  Vout : List TxVout
deriving DecidableEq

/-- The ledger collaborator (`core.AbecRPCClient`), read-only. -/
structure AbecRPCClient where
  GetBlockHash : Int → Except Err String
  GetBlock : String → Except Err Block
  GetRawTx : String → Except Err Tx
  GetBlockBytesByHeight : Int → Except Err Bytes
  GetEstimatedTxFee : Int

/-- The functions of the external package `core` used by the two paths. -/
structure Core where
  MakeBytesFromHexString : String → Bytes
  DecodeCoinAddressFromTxOutData : Bytes → Except Err Bytes
  Fingerprint : Bytes → Bytes
  DecodeValueFromTxOutData : Bytes → Bytes → Except Err Int
  GetRingBlockHeights : Int → List Int
  GenerateUnsignedRawTx : TxDesc → Except Err Bytes
  DecodeCoinSerialNumbers : List CoinID → List Bytes → RingBlockMap → Except Err (List Bytes)

/-! ## common.go -/

/-- The helper `contains` of common.go: linear search. -/
def contains (slice : List Int) (v : Int) : Bool :=
  match slice with
  | [] => false
  | elem :: rest => if elem = v then true else contains rest v

/-! ## Value distribution (demo-sdk.go 433-453 and 604-624) -/

/-- The loop `for _, txInDesc := range txInDescsToSpend` accumulating `totalCoinValue`. -/
def totalCoinValue (txInDescsToSpend : List TxInDesc) : Int :=
  txInDescsToSpend.foldl (fun total txInDesc => add64 total txInDesc.CoinValue) 0

/-- The loop `for i, receiverAccount := range receiverAccounts` from index `i` on; `n` is
`len(receiverAccounts)`. -/
def fillTxOutDescs (coinValuePerReceiver spendableCoinValue : Int) (n : Nat) :
    Nat → List DemoAccount → List TxOutDesc
  | _, [] => []
  | i, receiverAccount :: rest =>
    { AbelAddress := receiverAccount.AbelAddress,
      CoinValue :=
        if i = n - 1 then add64 coinValuePerReceiver (rem64 spendableCoinValue n)
        else coinValuePerReceiver } ::
      fillTxOutDescs coinValuePerReceiver spendableCoinValue n (i + 1) rest

/-- Lines 439-453: `spendableCoinValue`, `coinValuePerReceiver` and the `txOutDescs`.
The division panics when there is no receiver. -/
def calcTxOutDescs (totalCoinValue estimatedTxFee : Int) (receiverAccounts : List DemoAccount) :
    Except Err (List TxOutDesc) :=
  let spendableCoinValue := sub64 totalCoinValue estimatedTxFee
  if receiverAccounts.length = 0 then
    .error "runtime error: integer divide by zero"
  else
    let coinValuePerReceiver := div64 spendableCoinValue receiverAccounts.length
    .ok (fillTxOutDescs coinValuePerReceiver spendableCoinValue receiverAccounts.length
      0 receiverAccounts)

/-- Sum of the values of an output list. -/
def sumOut (txOutDescs : List TxOutDesc) : Int :=
  (txOutDescs.map (fun d => d.CoinValue)).sum

/-- Sum of the values of an input list, as a mathematical integer. -/
def sumIn (txInDescs : List TxInDesc) : Int :=
  (txInDescs.map (fun d => d.CoinValue)).sum

/-! ## Ring blocks (demo-sdk.go 254-275, 460-478 and 631-649) -/

/-- The loop `for _, ringBlockHeight := range ringBlockHeights` appending every height
that `allRingBlockHeights` does not contain yet. -/
def appendMissing (allRingBlockHeights ringBlockHeights : List Int) : List Int :=
  ringBlockHeights.foldl
    (fun all ringBlockHeight =>
      if !contains all ringBlockHeight then all ++ [ringBlockHeight] else all)
    allRingBlockHeights

/-- Tracking path, lines 255-266: a coin whose block height is not collected yet
contributes its own height and then its ring block heights; a coin whose block height is
already collected contributes nothing. -/
def coinRingBlockHeights (core : Core) (allCoins : List Coin) : List Int :=
  allCoins.foldl
    (fun all coin =>
      if !contains all coin.BlockHeight then
        appendMissing (all ++ [coin.BlockHeight]) (core.GetRingBlockHeights coin.BlockHeight)
      else all)
    []

/-- Spending path, lines 461-469 (and 632-640): every input contributes its ring block
heights. -/
def txRingBlockHeights (core : Core) (txInDescsToSpend : List TxInDesc) : List Int :=
  txInDescsToSpend.foldl
    (fun all txInDesc => appendMissing all (core.GetRingBlockHeights txInDesc.Height))
    []

/-- The loop `for _, ringBlockHeight := range allRingBlockHeights` (lines 269-275,
472-478): one `GetBlockBytesByHeight` call per element, stopped by the first failure.
The first component records the heights passed to `GetBlockBytesByHeight`, in call
order. -/
def fetchRingBlocks (client : AbecRPCClient) :
    List Int → List Int → RingBlockMap → List Int × Except Err RingBlockMap
  | [], requested, allRingBlocks => (requested, .ok allRingBlocks)
  | ringBlockHeight :: rest, requested, allRingBlocks =>
    match client.GetBlockBytesByHeight ringBlockHeight with
    | .error e => (requested ++ [ringBlockHeight], .error e)
    | .ok ringBlockBytes =>
      fetchRingBlocks client rest (requested ++ [ringBlockHeight])
        (allRingBlocks.set ringBlockHeight
          { BinData := ringBlockBytes, Height := ringBlockHeight })

/-- Tracking path, lines 254-275: the ring block map for the coins found. -/
def collectCoinRingBlocks (client : AbecRPCClient) (core : Core) (allCoins : List Coin) :
    List Int × Except Err RingBlockMap :=
  fetchRingBlocks client (coinRingBlockHeights core allCoins) [] []

/-- Spending path, lines 460-478: the ring block map for the inputs to spend. -/
def collectTxRingBlocks (client : AbecRPCClient) (core : Core)
    (txInDescsToSpend : List TxInDesc) : List Int × Except Err RingBlockMap :=
  fetchRingBlocks client (txRingBlockHeights core txInDescsToSpend) [] []

/-! ## Transaction assembly (demo-sdk.go 429-485) -/

/-- Lines 429-481 of `DemoSDKMakeUnsignedRawTx`: fee, value distribution, ring blocks
and `core.NewTxDesc`; the result is the descriptor handed to
`core.GenerateUnsignedRawTx`. -/
def assembleTxDesc (client : AbecRPCClient) (core : Core) (txInDescsToSpend : List TxInDesc)
    (receiverAccounts : List DemoAccount) : Except Err TxDesc :=
  let estimatedTxFee := client.GetEstimatedTxFee
  match calcTxOutDescs (totalCoinValue txInDescsToSpend) estimatedTxFee receiverAccounts with
  | .error e => .error e
  | .ok txOutDescs =>
    match (collectTxRingBlocks client core txInDescsToSpend).2 with
    | .error e => .error e
    | .ok allRingBlocks =>
      .ok { TxInDescs := txInDescsToSpend, TxOutDescs := txOutDescs,
            TxFee := estimatedTxFee, TxRingBlockDescs := allRingBlocks }

/-- Lines 429-483: the unsigned raw transaction is whatever `core.GenerateUnsignedRawTx`
returns for the assembled descriptor. -/
def makeUnsignedRawTx (client : AbecRPCClient) (core : Core)
    (txInDescsToSpend : List TxInDesc) (receiverAccounts : List DemoAccount) :
    Except Err Bytes :=
  match assembleTxDesc client core txInDescsToSpend receiverAccounts with
  | .error e => .error e
  | .ok txDesc => core.GenerateUnsignedRawTx txDesc

/-! ## Coin scan (demo-sdk.go 196-233) -/

/-- The heights visited by `for height := begin; height <= end; height++`, for `end` below
the largest `int64` (where `height++` does not wrap). -/
def heightRange (scanHeightBegin scanHeightEnd : Int) : List Int :=
  (List.range (scanHeightEnd + 1 - scanHeightBegin).toNat).map
    (fun (k : Nat) => scanHeightBegin + (k : Int))

/-- The statement `accountCoins[i] = append(accountCoins[i], coin)`. -/
def appendCoin : List (List Coin) → Nat → Coin → List (List Coin)
  | [], _, _ => []
  | coins :: rest, 0, coin => (coins ++ [coin]) :: rest
  | coins :: rest, i + 1, coin => coins :: appendCoin rest i coin

/-- The coin literal of lines 218-227; `uint8(txIndex)` keeps the low eight bits. -/
def mkCoin (core : Core) (trackedAccount : DemoAccount) (txHash : String) (txIndex : Nat)
    (txoValue : Int) (voutData : Bytes) (blockHash : String) (height : Int) : Coin :=
  { ID := { TxHash := core.MakeBytesFromHexString txHash, Index := txIndex % 256 },
    OwnerShortAddress := trackedAccount.ShortAbelAddress,
    OwnerAddress := trackedAccount.AbelAddress,
    Value := txoValue,
    SerialNumber := none,
    TxVoutData := voutData,
    BlockHash := core.MakeBytesFromHexString blockHash,
    BlockHeight := height }

/-- The loop `for i, trackedAccount := range trackedAccounts` (lines 213-230) from index
`i` on, for one output with decoded fingerprint `fingerprint`. -/
def scanAccounts (core : Core) (height : Int) (blockHash txHash : String) (txIndex : Nat)
    (voutData fingerprint : Bytes) :
    Nat → List DemoAccount → List (List Coin) → Except Err (List (List Coin))
  | _, [], accountCoins => .ok accountCoins
  | i, trackedAccount :: rest, accountCoins =>
    if fingerprint = trackedAccount.Fingerprint then
      match core.DecodeValueFromTxOutData voutData trackedAccount.ViewSecretKey with
      | .error e => .error e
      | .ok txoValue =>
        scanAccounts core height blockHash txHash txIndex voutData fingerprint (i + 1) rest
          (appendCoin accountCoins i
            (mkCoin core trackedAccount txHash txIndex txoValue voutData blockHash height))
    else
      scanAccounts core height blockHash txHash txIndex voutData fingerprint (i + 1) rest
        accountCoins

/-- The loop `for txIndex, vout := range tx.Vout` (lines 208-231) from index `txIndex`
on. -/
def scanVouts (core : Core) (trackedAccounts : List DemoAccount) (height : Int)
    (blockHash txHash : String) :
    Nat → List TxVout → List (List Coin) → Except Err (List (List Coin))
  | _, [], accountCoins => .ok accountCoins
  | txIndex, vout :: rest, accountCoins =>
    match core.DecodeCoinAddressFromTxOutData (core.MakeBytesFromHexString vout.Script) with
    | .error e => .error e
    | .ok coinAddress =>
      match scanAccounts core height blockHash txHash txIndex
          (core.MakeBytesFromHexString vout.Script) (core.Fingerprint coinAddress)
          0 trackedAccounts accountCoins with
      | .error e => .error e
      | .ok accountCoins2 =>
        scanVouts core trackedAccounts height blockHash txHash (txIndex + 1) rest accountCoins2

/-- The loop `for _, txHash := range block.TxHashes` (lines 204-232). -/
def scanTxs (client : AbecRPCClient) (core : Core) (trackedAccounts : List DemoAccount)
    (height : Int) (blockHash : String) :
    List String → List (List Coin) → Except Err (List (List Coin))
  | [], accountCoins => .ok accountCoins
  | txHash :: rest, accountCoins =>
    match client.GetRawTx txHash with
    | .error e => .error e
    | .ok tx =>
      match scanVouts core trackedAccounts height blockHash txHash 0 tx.Vout accountCoins with
      | .error e => .error e
      | .ok accountCoins2 =>
        scanTxs client core trackedAccounts height blockHash rest accountCoins2

/-- The loop `for height := scanHeightBegin; height <= scanHeightEnd; height++`
(lines 198-233) over the heights still to visit. -/
def scanHeights (client : AbecRPCClient) (core : Core) (trackedAccounts : List DemoAccount) :
    List Int → List (List Coin) → Except Err (List (List Coin))
  | [], accountCoins => .ok accountCoins
  | height :: rest, accountCoins =>
    match client.GetBlockHash height with
    | .error e => .error e
    | .ok blockHash =>
      match client.GetBlock blockHash with
      | .error e => .error e
      | .ok block =>
        match scanTxs client core trackedAccounts height blockHash block.TxHashes
            accountCoins with
        | .error e => .error e
        | .ok accountCoins2 => scanHeights client core trackedAccounts rest accountCoins2

/-- Lines 196-233 of `DemoSDKTrackCoins`: `accountCoins` starts as one empty list per
tracked account and is filled by the scan of the height range. -/
def scanCoins (client : AbecRPCClient) (core : Core) (trackedAccounts : List DemoAccount)
    (scanHeightBegin scanHeightEnd : Int) : Except Err (List (List Coin)) :=
  scanHeights client core trackedAccounts (heightRange scanHeightBegin scanHeightEnd)
    (List.replicate trackedAccounts.length [])

/-! ## The outputs of a height range, in processing order

The enumeration below follows the processing order of the design: blocks in ascending
height, transactions in the order of the block, outputs in index order. It reads the ledger
only and leaves out what the ledger does not serve. -/

/-- An output of the ledger together with its position. -/
structure LedgerOutput where
  height : Int
  blockHash : String
  txPos : Nat
  txHash : String
  txIndex : Nat
  script : String
deriving DecidableEq

/-- The outputs of one transaction from output index `txIndex` on. -/
def voutOutputs (height : Int) (blockHash : String) (txPos : Nat) (txHash : String) :
    Nat → List TxVout → List LedgerOutput
  | _, [] => []
  | txIndex, vout :: rest =>
    { height := height, blockHash := blockHash, txPos := txPos, txHash := txHash,
      txIndex := txIndex, script := vout.Script } ::
      voutOutputs height blockHash txPos txHash (txIndex + 1) rest

/-- The outputs of the transactions of one block from position `txPos` on. -/
def txOutputs (client : AbecRPCClient) (height : Int) (blockHash : String) :
    Nat → List String → List LedgerOutput
  | _, [] => []
  | txPos, txHash :: rest =>
    (match client.GetRawTx txHash with
      | .error _ => []
      | .ok tx => voutOutputs height blockHash txPos txHash 0 tx.Vout) ++
      txOutputs client height blockHash (txPos + 1) rest

/-- The outputs of the block at one height. -/
def blockOutputs (client : AbecRPCClient) (height : Int) : List LedgerOutput :=
  match client.GetBlockHash height with
  | .error _ => []
  | .ok blockHash =>
    match client.GetBlock blockHash with
    | .error _ => []
    | .ok block => txOutputs client height blockHash 0 block.TxHashes

/-- The outputs of the blocks at the given heights. -/
def ledgerOutputs (client : AbecRPCClient) : List Int → List LedgerOutput
  | [] => []
  | height :: rest => blockOutputs client height ++ ledgerOutputs client rest

/-- The payload of an output: `core.MakeBytesFromHexString(vout.Script)`. -/
def LedgerOutput.voutData (core : Core) (o : LedgerOutput) : Bytes :=
  core.MakeBytesFromHexString o.script

/-- The fingerprint decoded from the payload of an output equals, byte for byte, the
fingerprint of the account. -/
def fingerprintMatches (core : Core) (a : DemoAccount) (o : LedgerOutput) : Bool :=
  match core.DecodeCoinAddressFromTxOutData (o.voutData core) with
  | .error _ => false
  | .ok coinAddress => decide (core.Fingerprint coinAddress = a.Fingerprint)

/-- The value decrypted from the payload of an output with the view key of the account
(`0` when the decryption fails). -/
def decryptedValue (core : Core) (a : DemoAccount) (o : LedgerOutput) : Int :=
  match core.DecodeValueFromTxOutData (o.voutData core) a.ViewSecretKey with
  | .error _ => 0
  | .ok txoValue => txoValue

/-- The coin of account `a` for output `o`. -/
def coinFor (core : Core) (a : DemoAccount) (o : LedgerOutput) : Coin :=
  mkCoin core a o.txHash o.txIndex (decryptedValue core a o) (o.voutData core) o.blockHash
    o.height

/-- The coins of account `a` among the given outputs: one coin per output whose fingerprint
matches, in the order of the outputs. -/
def expectedCoins (core : Core) (a : DemoAccount) (outs : List LedgerOutput) : List Coin :=
  (outs.filter (fun o => fingerprintMatches core a o)).map (coinFor core a)

/-- The ledger serves the whole range: the block hash and the block of every height, and
every transaction listed by these blocks. -/
def RangeServed (client : AbecRPCClient) (heights : List Int) : Prop :=
  ∀ height ∈ heights, ∃ blockHash block,
    client.GetBlockHash height = .ok blockHash ∧ client.GetBlock blockHash = .ok block ∧
    ∀ txHash ∈ block.TxHashes, ∃ tx, client.GetRawTx txHash = .ok tx

/-- The position of an output in the ledger: height, position of the transaction in the
block, index of the output in the transaction. -/
def LedgerOutput.position (o : LedgerOutput) : Int × Nat × Nat :=
  (o.height, o.txPos, o.txIndex)

/-- The `CoinID` given to the coin of an output (lines 219): decoded transaction hash and
`uint8(txIndex)`. -/
def coinIDFor (core : Core) (o : LedgerOutput) : CoinID :=
  { TxHash := core.MakeBytesFromHexString o.txHash, Index := o.txIndex % 256 }

/-- The owner fingerprint of an output decodes, and the value decrypts under the view key of
every listed account whose fingerprint matches. -/
def DecodesWell (core : Core) (accounts : List DemoAccount) (o : LedgerOutput) : Prop :=
  (∃ coinAddress, core.DecodeCoinAddressFromTxOutData (o.voutData core) = .ok coinAddress) ∧
  ∀ a ∈ accounts, fingerprintMatches core a o = true →
    ∃ txoValue, core.DecodeValueFromTxOutData (o.voutData core) a.ViewSecretKey = .ok txoValue

/-- Processing order of the outputs: ascending height, then position of the transaction in
the block, then output index. -/
def LedgerOutput.before (o1 o2 : LedgerOutput) : Prop :=
  o1.height < o2.height ∨
  (o1.height = o2.height ∧
    (o1.txPos < o2.txPos ∨ (o1.txPos = o2.txPos ∧ o1.txIndex < o2.txIndex)))

/-! ## Coin search of the spending path (demo-sdk.go 339-345 and 369-404) -/

/-- The statement `senderTxInDescs[i] = append(senderTxInDescs[i], txoDesc)`. -/
def appendTxInDesc : List (List TxInDesc) → Nat → TxInDesc → List (List TxInDesc)
  | [], _, _ => []
  | descs :: rest, 0, txoDesc => (descs ++ [txoDesc]) :: rest
  | descs :: rest, i + 1, txoDesc => descs :: appendTxInDesc rest i txoDesc

/-- The `TxInDesc` literal of lines 391-398; `uint8(txIndex)` keeps the low eight bits. -/
def mkTxInDesc (core : Core) (senderAccount : DemoAccount) (txHash : String) (txIndex : Nat)
    (txoValue : Int) (voutData : Bytes) (height : Int) : TxInDesc :=
  { TxOutData := voutData,
    CoinValue := txoValue,
    Owner := senderAccount.ShortAbelAddress,
    Height := height,
    TxHash := core.MakeBytesFromHexString txHash,
    TxOutIndex := txIndex % 256 }

/-- The loop `for i, senderAccount := range senderAccounts` (lines 386-401) from index `i`
on. -/
def searchAccounts (core : Core) (height : Int) (txHash : String) (txIndex : Nat)
    (voutData fingerprint : Bytes) :
    Nat → List DemoAccount → List (List TxInDesc) → Except Err (List (List TxInDesc))
  | _, [], senderTxInDescs => .ok senderTxInDescs
  | i, senderAccount :: rest, senderTxInDescs =>
    if fingerprint = senderAccount.Fingerprint then
      match core.DecodeValueFromTxOutData voutData senderAccount.ViewSecretKey with
      | .error e => .error e
      | .ok txoValue =>
        searchAccounts core height txHash txIndex voutData fingerprint (i + 1) rest
          (appendTxInDesc senderTxInDescs i
            (mkTxInDesc core senderAccount txHash txIndex txoValue voutData height))
    else
      searchAccounts core height txHash txIndex voutData fingerprint (i + 1) rest
        senderTxInDescs

/-- The loop `for txIndex, vout := range tx.Vout` (lines 381-402) from index `txIndex`
on. -/
def searchVouts (core : Core) (senderAccounts : List DemoAccount) (height : Int)
    (txHash : String) :
    Nat → List TxVout → List (List TxInDesc) → Except Err (List (List TxInDesc))
  | _, [], senderTxInDescs => .ok senderTxInDescs
  | txIndex, vout :: rest, senderTxInDescs =>
    match core.DecodeCoinAddressFromTxOutData (core.MakeBytesFromHexString vout.Script) with
    | .error e => .error e
    | .ok coinAddress =>
      match searchAccounts core height txHash txIndex
          (core.MakeBytesFromHexString vout.Script) (core.Fingerprint coinAddress)
          0 senderAccounts senderTxInDescs with
      | .error e => .error e
      | .ok senderTxInDescs2 =>
        searchVouts core senderAccounts height txHash (txIndex + 1) rest senderTxInDescs2

/-- The loop `for _, txHash := range block.TxHashes` (lines 377-403). -/
def searchTxs (client : AbecRPCClient) (core : Core) (senderAccounts : List DemoAccount)
    (height : Int) :
    List String → List (List TxInDesc) → Except Err (List (List TxInDesc))
  | [], senderTxInDescs => .ok senderTxInDescs
  | txHash :: rest, senderTxInDescs =>
    match client.GetRawTx txHash with
    | .error e => .error e
    | .ok tx =>
      match searchVouts core senderAccounts height txHash 0 tx.Vout senderTxInDescs with
      | .error e => .error e
      | .ok senderTxInDescs2 => searchTxs client core senderAccounts height rest senderTxInDescs2

/-- The loop `for height := scanHeightBegin; height <= scanHeightEnd; height++`
(lines 371-404) over the heights still to visit. -/
def searchHeights (client : AbecRPCClient) (core : Core) (senderAccounts : List DemoAccount) :
    List Int → List (List TxInDesc) → Except Err (List (List TxInDesc))
  | [], senderTxInDescs => .ok senderTxInDescs
  | height :: rest, senderTxInDescs =>
    match client.GetBlockHash height with
    | .error e => .error e
    | .ok blockHash =>
      match client.GetBlock blockHash with
      | .error e => .error e
      | .ok block =>
        match searchTxs client core senderAccounts height block.TxHashes senderTxInDescs with
        | .error e => .error e
        | .ok senderTxInDescs2 => searchHeights client core senderAccounts rest senderTxInDescs2

/-- The coin search of `DemoSDKMakeUnsignedRawTx`: the range check of lines 343-345
(`demoExitOnError`) followed by the search of lines 369-404. -/
def searchTxInDescs (client : AbecRPCClient) (core : Core) (senderAccounts : List DemoAccount)
    (scanHeightBegin scanHeightEnd : Int) : Except Err (List (List TxInDesc)) :=
  if scanHeightBegin > scanHeightEnd ∨ scanHeightBegin < 0 then
    .error "invalid block range"
  else
    searchHeights client core senderAccounts (heightRange scanHeightBegin scanHeightEnd)
      (List.replicate senderAccounts.length [])

/-! ## Serial numbers (demo-sdk.go 242-253 and 277-284) -/

/-- The three arrays `allCoins`, `coinIDs` and `serialNoSecretKeys`. -/
structure SerialBatch where
  allCoins : List Coin
  coinIDs : List CoinID
  serialNoSecretKeys : List Bytes
deriving DecidableEq

/-- The loop `for _, coin := range coins` (lines 248-252) for the coin list of account
index `i`; `trackedAccounts[i]` panics when the index is out of range. -/
def appendAccountCoins (trackedAccounts : List DemoAccount) (i : Nat) :
    List Coin → SerialBatch → Except Err SerialBatch
  | [], batch => .ok batch
  | coin :: rest, batch =>
    match trackedAccounts[i]? with
    | none => .error "index out of range"
    | some trackedAccount =>
      appendAccountCoins trackedAccounts i rest
        { allCoins := batch.allCoins ++ [coin],
          coinIDs := batch.coinIDs ++ [coin.ID],
          serialNoSecretKeys := batch.serialNoSecretKeys ++ [trackedAccount.SerialNoSecretKey] }

/-- The loop `for i, coins := range accountCoins` (lines 247-253) from index `i` on. -/
def prepareSerialBatchFrom (trackedAccounts : List DemoAccount) :
    Nat → List (List Coin) → SerialBatch → Except Err SerialBatch
  | _, [], batch => .ok batch
  | i, coins :: rest, batch =>
    match appendAccountCoins trackedAccounts i coins batch with
    | .error e => .error e
    | .ok batch2 => prepareSerialBatchFrom trackedAccounts (i + 1) rest batch2

/-- Lines 242-253: the batch handed to `core.DecodeCoinSerialNumbers`. -/
def prepareSerialBatch (trackedAccounts : List DemoAccount) (accountCoins : List (List Coin)) :
    Except Err SerialBatch :=
  prepareSerialBatchFrom trackedAccounts 0 accountCoins
    { allCoins := [], coinIDs := [], serialNoSecretKeys := [] }

/-- The loop `for i, coin := range allCoins` (lines 282-284) from index `i` on:
`coin.SerialNumber = core.AsBytes(coinSerialNumbers[i])`; the index panics when fewer serial
numbers than coins were returned. -/
def assignSerialNumbers (coinSerialNumbers : List Bytes) : Nat → List Coin → Except Err (List Coin)
  | _, [] => .ok []
  | i, coin :: rest =>
    match coinSerialNumbers[i]? with
    | none => .error "index out of range"
    | some serialNumber =>
      match assignSerialNumbers coinSerialNumbers (i + 1) rest with
      | .error e => .error e
      | .ok rest2 => .ok ({ coin with SerialNumber := some serialNumber } :: rest2)

/-- Every coin of the per-account lists paired with the tracked account in whose list it
stands, in list order. -/
def ownedCoins (trackedAccounts : List DemoAccount) (accountCoins : List (List Coin)) :
    List (Coin × DemoAccount) :=
  (accountCoins.zip trackedAccounts).flatMap (fun p => p.1.map (fun coin => (coin, p.2)))

/-! ## Spend tracking (demo-sdk.go 291-315) -/

/-- Go `bytes.Equal(coin.SerialNumber, serialNumber)`; a nil slice equals an empty one. -/
def bytesEqual (a : Option Bytes) (b : Bytes) : Bool :=
  decide (a.getD [] = b)

/-- The counter `totalSpentCoins` and the lines `Coin ... was spent by tx ...` printed so
far, each recorded as the coin and the transaction hash. -/
structure SpendState where
  totalSpentCoins : Nat
  reports : List (Coin × String)
deriving DecidableEq

/-- The loop `for _, coin := range allCoins` (lines 306-311) for one input. -/
def markSpent (serialNumber : Bytes) (txHash : String) : List Coin → SpendState → SpendState
  | [], s => s
  | coin :: rest, s =>
    if bytesEqual coin.SerialNumber serialNumber then
      markSpent serialNumber txHash rest
        { totalSpentCoins := s.totalSpentCoins + 1, reports := s.reports ++ [(coin, txHash)] }
    else
      markSpent serialNumber txHash rest s

/-- The loop `for _, vin := range tx.Vin` (lines 303-312). -/
def trackVins (core : Core) (allCoins : List Coin) (txHash : String) :
    List TxVin → SpendState → SpendState
  | [], s => s
  | vin :: rest, s =>
    trackVins core allCoins txHash rest
      (markSpent (core.MakeBytesFromHexString vin.SerialNumber) txHash allCoins s)

/-- The loop `for _, txHash := range block.TxHashes` (lines 299-313). -/
def trackTxs (client : AbecRPCClient) (core : Core) (allCoins : List Coin) :
    List String → SpendState → Except Err SpendState
  | [], s => .ok s
  | txHash :: rest, s =>
    match client.GetRawTx txHash with
    | .error e => .error e
    | .ok tx => trackTxs client core allCoins rest (trackVins core allCoins txHash tx.Vin s)

/-- The loop `for height := trackHeightBegin; height <= trackHeightEnd; height++`
(lines 293-314) over the heights still to visit. -/
def trackHeights (client : AbecRPCClient) (core : Core) (allCoins : List Coin) :
    List Int → SpendState → Except Err SpendState
  | [], s => .ok s
  | height :: rest, s =>
    match client.GetBlockHash height with
    | .error e => .error e
    | .ok blockHash =>
      match client.GetBlock blockHash with
      | .error e => .error e
      | .ok block =>
        match trackTxs client core allCoins block.TxHashes s with
        | .error e => .error e
        | .ok s2 => trackHeights client core allCoins rest s2

/-- Lines 291-315: spend tracking of the coins over the track height range. -/
def trackSpentCoins (client : AbecRPCClient) (core : Core) (allCoins : List Coin)
    (trackHeightBegin trackHeightEnd : Int) : Except Err SpendState :=
  trackHeights client core allCoins (heightRange trackHeightBegin trackHeightEnd)
    { totalSpentCoins := 0, reports := [] }

/-! ## The tracking path as a whole (demo-sdk.go 196-315) -/

/-- What `DemoSDKTrackCoins` has computed when it ends normally. -/
structure TrackResult where
  accountCoins : List (List Coin)
  coinSerialNumbers : List Bytes
  allCoins : List Coin
  allRingBlocks : RingBlockMap
  totalSpentCoins : Nat
  reports : List (Coin × String)
deriving DecidableEq

/-- Lines 196-315 of `DemoSDKTrackCoins`: scan, batch preparation, ring blocks, serial
numbers, spend tracking; every `demoCheck` failure and every panic ends the operation. -/
def trackCoins (client : AbecRPCClient) (core : Core) (trackedAccounts : List DemoAccount)
    (scanHeightBegin scanHeightEnd trackHeightBegin trackHeightEnd : Int) :
    Except Err TrackResult :=
  match scanCoins client core trackedAccounts scanHeightBegin scanHeightEnd with
  | .error e => .error e
  | .ok accountCoins =>
    match prepareSerialBatch trackedAccounts accountCoins with
    | .error e => .error e
    | .ok batch =>
      match (collectCoinRingBlocks client core batch.allCoins).2 with
      | .error e => .error e
      | .ok allRingBlocks =>
        match core.DecodeCoinSerialNumbers batch.coinIDs batch.serialNoSecretKeys
            allRingBlocks with
        | .error e => .error e
        | .ok coinSerialNumbers =>
          match assignSerialNumbers coinSerialNumbers 0 batch.allCoins with
          | .error e => .error e
          | .ok allCoins =>
            match trackSpentCoins client core allCoins trackHeightBegin trackHeightEnd with
            | .error e => .error e
            | .ok s =>
              .ok { accountCoins := accountCoins,
                    coinSerialNumbers := coinSerialNumbers,
                    allCoins := allCoins,
                    allRingBlocks := allRingBlocks,
                    totalSpentCoins := s.totalSpentCoins,
                    reports := s.reports }

/-! ## The inputs of a height range, in processing order -/

/-- An input of the ledger together with its position. -/
structure LedgerInput where
  height : Int
  txPos : Nat
  txHash : String
  vinIndex : Nat
  serialNumber : String
deriving DecidableEq

/-- The inputs of one transaction from input index `vinIndex` on. -/
def vinInputs (height : Int) (txPos : Nat) (txHash : String) :
    Nat → List TxVin → List LedgerInput
  | _, [] => []
  | vinIndex, vin :: rest =>
    { height := height, txPos := txPos, txHash := txHash, vinIndex := vinIndex,
      serialNumber := vin.SerialNumber } ::
      vinInputs height txPos txHash (vinIndex + 1) rest

/-- The inputs of the transactions of one block from position `txPos` on. -/
def txInputs (client : AbecRPCClient) (height : Int) : Nat → List String → List LedgerInput
  | _, [] => []
  | txPos, txHash :: rest =>
    (match client.GetRawTx txHash with
      | .error _ => []
      | .ok tx => vinInputs height txPos txHash 0 tx.Vin) ++
      txInputs client height (txPos + 1) rest

/-- The inputs of the block at one height. -/
def blockInputs (client : AbecRPCClient) (height : Int) : List LedgerInput :=
  match client.GetBlockHash height with
  | .error _ => []
  | .ok blockHash =>
    match client.GetBlock blockHash with
    | .error _ => []
    | .ok block => txInputs client height 0 block.TxHashes

/-- The inputs of the blocks at the given heights. -/
def ledgerInputs (client : AbecRPCClient) : List Int → List LedgerInput
  | [] => []
  | height :: rest => blockInputs client height ++ ledgerInputs client rest

/-- The serial number carried by an input: `core.MakeBytesFromHexString(vin.SerialNumber)`. -/
def LedgerInput.serialBytes (core : Core) (inp : LedgerInput) : Bytes :=
  core.MakeBytesFromHexString inp.serialNumber

/-- The input carries a serial number equal, byte for byte, to the serial number of the
coin. -/
def carries (core : Core) (inp : LedgerInput) (coin : Coin) : Bool :=
  bytesEqual coin.SerialNumber (inp.serialBytes core)

/-- The pairs of an input and a tracked coin with equal serial numbers, inputs in
processing order and, for one input, coins in list order; each pair is recorded as the
coin and the hash of the transaction of the input. -/
def spentPairs (core : Core) (allCoins : List Coin) (inputs : List LedgerInput) :
    List (Coin × String) :=
  inputs.flatMap (fun inp =>
    (allCoins.filter (fun coin => carries core inp coin)).map (fun coin => (coin, inp.txHash)))

/-- The state after the pairs `l` have been counted and reported. -/
def SpendState.add (s : SpendState) (l : List (Coin × String)) : SpendState :=
  { totalSpentCoins := s.totalSpentCoins + l.length, reports := s.reports ++ l }

/-! ## The ledger calls of the coin scan -/

/-- A call to the ledger collaborator. -/
inductive LedgerCall where
  | getBlockHash (height : Int)
  | getBlock (blockHash : String)
  | getRawTx (txHash : String)
deriving DecidableEq

/-- The ledger answers the call with an error. -/
def LedgerCall.failed (client : AbecRPCClient) : LedgerCall → Bool
  | .getBlockHash height =>
    match client.GetBlockHash height with
    | .error _ => true
    | .ok _ => false
  | .getBlock blockHash =>
    match client.GetBlock blockHash with
    | .error _ => true
    | .ok _ => false
  | .getRawTx txHash =>
    match client.GetRawTx txHash with
    | .error _ => true
    | .ok _ => false

/-- The ledger answers `GetBlockBytesByHeight` for the height with an error. -/
def blockBytesFailed (client : AbecRPCClient) (height : Int) : Bool :=
  match client.GetBlockBytesByHeight height with
  | .error _ => true
  | .ok _ => false

/-- The loop `scanTxs` together with the ledger calls it issues, in call order. -/
def scanTxsTraced (client : AbecRPCClient) (core : Core) (trackedAccounts : List DemoAccount)
    (height : Int) (blockHash : String) :
    List String → List (List Coin) → List LedgerCall × Except Err (List (List Coin))
  | [], accountCoins => ([], .ok accountCoins)
  | txHash :: rest, accountCoins =>
    match client.GetRawTx txHash with
    | .error e => ([.getRawTx txHash], .error e)
    | .ok tx =>
      match scanVouts core trackedAccounts height blockHash txHash 0 tx.Vout accountCoins with
      | .error e => ([.getRawTx txHash], .error e)
      | .ok accountCoins2 =>
        (.getRawTx txHash ::
          (scanTxsTraced client core trackedAccounts height blockHash rest accountCoins2).1,
         (scanTxsTraced client core trackedAccounts height blockHash rest accountCoins2).2)

/-- The loop `scanHeights` together with the ledger calls it issues, in call order. -/
def scanHeightsTraced (client : AbecRPCClient) (core : Core)
    (trackedAccounts : List DemoAccount) :
    List Int → List (List Coin) → List LedgerCall × Except Err (List (List Coin))
  | [], accountCoins => ([], .ok accountCoins)
  | height :: rest, accountCoins =>
    match client.GetBlockHash height with
    | .error e => ([.getBlockHash height], .error e)
    | .ok blockHash =>
      match client.GetBlock blockHash with
      | .error e => ([.getBlockHash height, .getBlock blockHash], .error e)
      | .ok block =>
        match (scanTxsTraced client core trackedAccounts height blockHash block.TxHashes
            accountCoins).2 with
        | .error e =>
          (.getBlockHash height :: .getBlock blockHash ::
            (scanTxsTraced client core trackedAccounts height blockHash block.TxHashes
              accountCoins).1, .error e)
        | .ok accountCoins2 =>
          (.getBlockHash height :: .getBlock blockHash ::
            ((scanTxsTraced client core trackedAccounts height blockHash block.TxHashes
              accountCoins).1 ++
             (scanHeightsTraced client core trackedAccounts rest accountCoins2).1),
           (scanHeightsTraced client core trackedAccounts rest accountCoins2).2)

/-- The coin scan of `DemoSDKTrackCoins` together with the ledger calls it issues. -/
def scanCoinsTraced (client : AbecRPCClient) (core : Core) (trackedAccounts : List DemoAccount)
    (scanHeightBegin scanHeightEnd : Int) :
    List LedgerCall × Except Err (List (List Coin)) :=
  scanHeightsTraced client core trackedAccounts (heightRange scanHeightBegin scanHeightEnd)
    (List.replicate trackedAccounts.length [])

/-- Fail-fast: a call that the ledger answers with an error is the last call issued, and the
operation ends with an error. -/
def FailFast {κ α : Type} (failed : κ → Bool) (calls : List κ) (result : Except Err α) : Prop :=
  ∀ (pre : List κ) (c : κ) (post : List κ), calls = pre ++ c :: post → failed c = true →
    post = [] ∧ ∃ err, result = .error err

/-- Lines 481-483: `core.NewTxDesc` on the given inputs, outputs, fee and ring blocks,
followed by `core.GenerateUnsignedRawTx`. -/
def generateUnsignedRawTx (core : Core) (txInDescsToSpend : List TxInDesc)
    (txOutDescs : List TxOutDesc) (estimatedTxFee : Int) (allRingBlocks : RingBlockMap) :
    Except Err Bytes :=
  core.GenerateUnsignedRawTx
    { TxInDescs := txInDescsToSpend, TxOutDescs := txOutDescs, TxFee := estimatedTxFee,
      TxRingBlockDescs := allRingBlocks }

/-- Lines 481-485: `core.NewTxDesc`, `core.GenerateUnsignedRawTx`, `demoCheck(err)` and
`os.WriteFile(outputPath, unsignedRawTx.Bytes, 0644)` followed by `demoCheck(err)`.
`file` is the content of the output path before the call (`none` when it does not exist);
`writeFile` is the file system: the error it reports, if any, and the content it leaves.
It is not reached when the serializer fails. -/
def writeUnsignedRawTx (core : Core)
    (writeFile : Bytes → Option Bytes → Option Err × Option Bytes)
    (txInDescsToSpend : List TxInDesc) (txOutDescs : List TxOutDesc) (estimatedTxFee : Int)
    (allRingBlocks : RingBlockMap) (file : Option Bytes) : Except Err Bytes × Option Bytes :=
  match generateUnsignedRawTx core txInDescsToSpend txOutDescs estimatedTxFee allRingBlocks with
  | .error e => (.error e, file)
  | .ok unsignedRawTx =>
    match writeFile unsignedRawTx file with
    | (some e, written) => (.error e, written)
    | (none, written) => (.ok unsignedRawTx, written)

/-! ## The builder behind `core.GenerateUnsignedRawTx`

The package `abelian.info/sdk/core` is imported by demo-sdk.go and its code is not among
the sources: only the calls of lines 481-482 are. The definitions of this section follow
the description of the builder in the specification. -/

/-- Modelled from the spec: the ring-context heights an input requires; what is missing is
the code of `core.GenerateUnsignedRawTx`, which reads the ring-block map. The
specification: "For each coin, compute its own height plus the externally defined set of
ring participant heights via the pure function `RingHeightsFor(height)`". -/
def requiredRingHeights (ringHeightsFor : Int → List Int) (txInDesc : TxInDesc) : List Int :=
  txInDesc.Height :: ringHeightsFor txInDesc.Height

/-- Modelled from the spec: `core.GenerateUnsignedRawTx` of package `abelian.info/sdk/core`,
applied to the descriptor of `core.NewTxDesc`. The specification: "Building fails with
`RangeError` if any input's required ring-context height is absent from `ringBlocks`. The
result is handed to the external crypto collaborator for serialization into an opaque
unsigned-transaction byte buffer". `serialize` is that collaborator
(`SerializeUnsignedTransaction(TransactionDescriptor) -> bytes`). -/
def specGenerateUnsignedRawTx (ringHeightsFor : Int → List Int) (serialize : TxDesc → Bytes)
    (txDesc : TxDesc) : Except Err Bytes :=
  if txDesc.TxInDescs.all (fun txInDesc =>
      (requiredRingHeights ringHeightsFor txInDesc).all (fun height =>
        (txDesc.TxRingBlockDescs.get? height).isSome))
  then .ok (serialize txDesc)
  else .error "RangeError"

/-- Modelled from the spec: the package `core` with `GenerateUnsignedRawTx` as the
specification describes it, over the ring-height selection of `core`; what is missing is
the code of `core.GenerateUnsignedRawTx`. -/
def specCore (core : Core) (serialize : TxDesc → Bytes) : Core :=
  { core with
    GenerateUnsignedRawTx := specGenerateUnsignedRawTx core.GetRingBlockHeights serialize }

/-! ## Correspondence of the two coin records -/

/-- The `TxInDesc` carrying the fields of a tracking-path coin: output payload, value, short
owner address, block height, transaction hash and output index. -/
def coinToTxInDesc (coin : Coin) : TxInDesc :=
  { TxOutData := coin.TxVoutData,
    CoinValue := coin.Value,
    Owner := coin.OwnerShortAddress,
    Height := coin.BlockHeight,
    TxHash := coin.ID.TxHash,
    TxOutIndex := coin.ID.Index }

/-! ## Input selection (demo-sdk.go 410-422) -/

/-- The loop `for _, txInDescs := range senderTxInDescs` (lines 413-419) from the `k`-th
call of `rand.Intn` on. The call `rand.Intn(n)` returns a value below `n`, modelled as
`randomValues k % n`, so that every sequence of results arises from some `randomValues`. -/
def pickTxInDescs (randomValues : Nat → Nat) :
    Nat → List (List TxInDesc) → List TxInDesc → Except Err (List TxInDesc)
  | _, [], txInDescsToSpend => .ok txInDescsToSpend
  | k, txInDescs :: rest, txInDescsToSpend =>
    if txInDescs.length = 0 then
      pickTxInDescs randomValues k rest txInDescsToSpend
    else
      match txInDescs[randomValues k % txInDescs.length]? with
      | none => .error "index out of range"
      | some txInDesc =>
        pickTxInDescs randomValues (k + 1) rest (txInDescsToSpend ++ [txInDesc])

/-- Lines 410-422: the picked inputs, or the exit of line 421 when nothing was picked. -/
def selectTxInDescs (randomValues : Nat → Nat) (senderTxInDescs : List (List TxInDesc)) :
    Except Err (List TxInDesc) :=
  match pickTxInDescs randomValues 0 senderTxInDescs [] with
  | .error e => .error e
  | .ok txInDescsToSpend =>
    if txInDescsToSpend.length = 0 then .error "failed to find any coin to spend"
    else .ok txInDescsToSpend

/-! ## Account loading (common.go 324-351) -/

/-- Mirror of `core.CryptoKeysAndAddress`, with keys and address as byte strings. -/
structure CryptoKeysAndAddress where
  SpendSecretKey : Bytes
  SerialNoSecretKey : Bytes
  ViewSecretKey : Bytes
  CryptoAddress : Bytes
deriving DecidableEq

/-- The slice expression `key.Bytes.Slice()[0 : key.Len()-32]` of lines 339-340; it panics
when the upper bound is negative. -/
def trimLast32 (key : Bytes) : Except Err Bytes :=
  if (key.length : Int) - 32 < 0 then .error "slice bounds out of range"
  else .ok (key.take (key.length - 32))

/-- Lines 338-343: the check of the view secret key. -/
def checkViewSecretKey (regenerated resource : Bytes) : Except Err Unit :=
  match trimLast32 regenerated with
  | .error e => .error e
  | .ok vskA =>
    match trimLast32 resource with
    | .error e => .error e
    | .ok vskB =>
      if vskA = vskB then .ok () else .error "crypto seed and view secret key mismatch"

/-- Lines 328-348 of `getDemoAccounts`: the four checks of the keys and address regenerated
from the crypto seed (`ckaa`) against the resource data, in source order. -/
def checkDemoAccount (ckaa resource : CryptoKeysAndAddress) : Except Err Unit :=
  if ckaa.SpendSecretKey ≠ resource.SpendSecretKey then
    .error "crypto seed and spend secret key mismatch"
  else if ckaa.SerialNoSecretKey ≠ resource.SerialNoSecretKey then
    .error "crypto seed and serial No. secret key mismatch"
  else
    match checkViewSecretKey ckaa.ViewSecretKey resource.ViewSecretKey with
    | .error e => .error e
    | .ok _ =>
      if ckaa.CryptoAddress ≠ resource.CryptoAddress then
        .error "crypto seed and crypto address mismatch"
      else .ok ()

/-! ## Packing of output data (common.go 44-53) -/

/-- How a call of `packToOutData` ends: with the returned error and nothing written, with a
runtime panic of an index expression, or with `nil`; `written` is the number of bytes,
counted from `&outData[0]`, up to which the `memcpy` calls have written. -/
inductive PackOutcome where
  | error (msg : String)
  | panic (written : Nat)
  | done (written : Nat)
deriving DecidableEq

/-- The function `packToOutData`: the size check, `memcpy` of the 4-byte size to
`&outData[0]`, `memcpy` of `size` bytes from `&data[0]` to `&outData[4]`. The index
expressions are bounds-checked by Go, the `memcpy` calls are not. -/
def packToOutData (data outData : Bytes) : PackOutcome :=
  if data.length > outData.length then .error "outData is too small"
  else if outData.length = 0 then .panic 0
  else if outData.length ≤ 4 then .panic 4
  else if data.length = 0 then .panic 4
  else .done (4 + data.length)

/-! ## Concrete ledgers and inputs for the examples -/

/-- A receiver account with a one-byte address. -/
def exReceiver (addr : Nat) : DemoAccount :=
  { SerialNoSecretKey := [], ViewSecretKey := [], AbelAddress := [addr],
    ShortAbelAddress := [], Fingerprint := [] }

/-- An input to spend with the given value and block height. -/
def exTxIn (value height : Int) : TxInDesc :=
  { TxOutData := [], CoinValue := value, Owner := [], Height := height, TxHash := [],
    TxOutIndex := 0 }

/-- A ledger that serves every block payload and estimates the given fee. -/
def exFeeClient (fee : Int) : AbecRPCClient :=
  { GetBlockHash := fun _ => .error "unknown height",
    GetBlock := fun _ => .error "unknown block",
    GetRawTx := fun _ => .error "unknown transaction",
    GetBlockBytesByHeight := fun _ => .ok [],
    GetEstimatedTxFee := fee }

/-- A `core` whose ring block heights are given by `ring` and whose serializer accepts
nothing. -/
def exRingCore (ring : Int → List Int) : Core :=
  { MakeBytesFromHexString := fun _ => [],
    DecodeCoinAddressFromTxOutData := fun _ => .error "no address",
    Fingerprint := fun a => a,
    DecodeValueFromTxOutData := fun _ _ => .error "no value",
    GetRingBlockHeights := ring,
    GenerateUnsignedRawTx := fun _ => .error "not serialized",
    DecodeCoinSerialNumbers := fun _ _ _ => .error "no serial numbers" }

/-- Ring block heights by groups of three consecutive heights. -/
def exGroupRing (h : Int) : List Int :=
  [h / 3 * 3, h / 3 * 3 + 1, h / 3 * 3 + 2]

/-! ## Vocabulary of the ring-block properties -/

/-- The map `m` has, under height `g`, the block descriptor built from the payload the
ledger serves for `g`. -/
def HasRingBlock (client : AbecRPCClient) (m : RingBlockMap) (g : Int) : Prop :=
  ∃ b, client.GetBlockBytesByHeight g = .ok b ∧ m.get? g = some { BinData := b, Height := g }

/-- A ring-height selection is closed when the ring heights of a ring height of `h` are
ring heights of `h`. -/
def RingClosed (ring : Int → List Int) : Prop :=
  ∀ h, ∀ g ∈ ring h, ∀ x ∈ ring g, x ∈ ring h

/-- A coin found at the given block height. -/
def exCoin (height : Int) : Coin :=
  { ID := { TxHash := [], Index := 0 }, OwnerShortAddress := [], OwnerAddress := [],
    Value := 1, SerialNumber := none, TxVoutData := [], BlockHash := [],
    BlockHeight := height }

/-- A ring-height selection that is not closed: height 1 has ring height 2, height 2 has
ring height 7. -/
def exChainRing (h : Int) : List Int :=
  if h = 1 then [2] else if h = 2 then [7] else []

/-- A ring-height selection that never lists the height itself. -/
def exNextRing (h : Int) : List Int := [h + 1]

/-- The ring block map with an empty payload under each of the given heights, the last
height of the list inserted first. -/
def exBlocks (heights : List Int) : RingBlockMap :=
  heights.map (fun h => (h, { BinData := [], Height := h }))

/-- A ledger with one block at every height from 0 to 9, each block listing the single
transaction `"t"`, whose outputs have the given scripts. -/
def exLedgerWith (scripts : List String) : AbecRPCClient :=
  { GetBlockHash := fun h => if 0 ≤ h ∧ h < 10 then .ok "h" else .error "unknown height",
    GetBlock := fun b => if b = "h" then .ok { TxHashes := ["t"] } else .error "unknown block",
    GetRawTx := fun t =>
      if t = "t" then .ok { Vin := [], Vout := scripts.map (fun s => { Script := s }) }
      else .error "unknown transaction",
    GetBlockBytesByHeight := fun _ => .ok [],
    GetEstimatedTxFee := 0 }

/-- The ledger whose transaction has the two outputs `"a"` and `"b"`. -/
def exLedger : AbecRPCClient := exLedgerWith ["a", "b"]

/-- A `core` that reads a script as its list of character codes, takes the payload as the
coin address and its first byte as the fingerprint, fails to decode the empty payload,
decrypts every payload to the value 5 under a non-empty view key, and gives the coin with
identifier `(hash, index)` the serial number `hash` with `index` added to every byte. -/
def exScanCore : Core :=
  { MakeBytesFromHexString := fun s => s.toList.map Char.toNat,
    DecodeCoinAddressFromTxOutData := fun d => if d = [] then .error "malformed" else .ok d,
    Fingerprint := fun a => a.take 1,
    DecodeValueFromTxOutData := fun _ k => if k = [] then .error "bad key" else .ok 5,
    GetRingBlockHeights := exGroupRing,
    GenerateUnsignedRawTx := fun _ => .error "not serialized",
    DecodeCoinSerialNumbers := fun coinIDs _ _ =>
      .ok (coinIDs.map (fun id => id.TxHash.map (fun x => x + id.Index))) }

/-- A tracked account with the given one-byte fingerprint and one-byte view key. -/
def exAccount (fingerprint key : Nat) : DemoAccount :=
  { SerialNoSecretKey := [], ViewSecretKey := [key], AbelAddress := [key],
    ShortAbelAddress := [key], Fingerprint := [fingerprint] }

/-- The output at index `txIndex` of the transaction of `exLedgerWith` in the block at
`height`. -/
def exOutput (height : Int) (txIndex : Nat) (script : String) : LedgerOutput :=
  { height := height, blockHash := "h", txPos := 0, txHash := "t", txIndex := txIndex,
    script := script }

/-- The ledger of `exLedgerWith` whose transaction `"t"` has, besides the outputs with the
given scripts, one input per given serial number. -/
def exSpendLedger (scripts serials : List String) : AbecRPCClient :=
  { GetBlockHash := fun h => if 0 ≤ h ∧ h < 10 then .ok "h" else .error "unknown height",
    GetBlock := fun b => if b = "h" then .ok { TxHashes := ["t"] } else .error "unknown block",
    GetRawTx := fun t =>
      if t = "t" then
        .ok { Vin := serials.map (fun s => { SerialNumber := s }),
              Vout := scripts.map (fun s => { Script := s }) }
      else .error "unknown transaction",
    GetBlockBytesByHeight := fun _ => .ok [],
    GetEstimatedTxFee := 0 }

/-- A tracked coin with the given serial number. -/
def exSerialCoin (serial : Bytes) : Coin :=
  { ID := { TxHash := serial, Index := 0 }, OwnerShortAddress := [], OwnerAddress := [],
    Value := 1, SerialNumber := some serial, TxVoutData := [], BlockHash := [],
    BlockHeight := 1 }

/-- A file system on which every write succeeds and replaces the content. -/
def exWriteFile (data : Bytes) (_file : Option Bytes) : Option Err × Option Bytes :=
  (none, some data)

/-- A serializer that returns the fee as a one-byte transaction. -/
def exSerialize (txDesc : TxDesc) : Bytes := [txDesc.TxFee.toNat]

/-! # Properties -/

/-! ## Machine integers: basic facts -/

theorem wrap64_of_isInt64 {x : Int} (h : IsInt64 x) : wrap64 x = x := by
  unfold IsInt64 at h
  unfold wrap64
  omega

theorem isInt64_wrap64 (x : Int) : IsInt64 (wrap64 x) := by
  unfold IsInt64 wrap64
  omega

theorem wrap64_add_wrap64_left (a b : Int) : wrap64 (wrap64 a + b) = wrap64 (a + b) := by
  unfold wrap64
  omega

theorem wrap64_sub_wrap64_left (a b : Int) : wrap64 (wrap64 a - b) = wrap64 (a - b) := by
  unfold wrap64
  omega

theorem wrap64_wrap64 (a : Int) : wrap64 (wrap64 a) = wrap64 a := by
  unfold wrap64
  omega

/-! ## Value distribution: auxiliary facts -/

theorem foldl_add64_eq (ins : List TxInDesc) (acc : Int) :
    ins.foldl (fun total txInDesc => add64 total txInDesc.CoinValue) (wrap64 acc)
      = wrap64 (acc + sumIn ins) := by
  induction ins generalizing acc with
  | nil => simp [sumIn]
  | cons d rest ih =>
    have e : sumIn (d :: rest) = d.CoinValue + sumIn rest := by simp [sumIn]
    have step : add64 (wrap64 acc) d.CoinValue = wrap64 (acc + d.CoinValue) :=
      wrap64_add_wrap64_left acc d.CoinValue
    rw [List.foldl_cons, step, ih (acc + d.CoinValue), e, add_assoc]

theorem totalCoinValue_eq (ins : List TxInDesc) : totalCoinValue ins = wrap64 (sumIn ins) := by
  have h := foldl_add64_eq ins 0
  have z : wrap64 0 = 0 := by decide
  rw [z, zero_add] at h
  exact h

theorem totalCoinValue_of_isInt64 {ins : List TxInDesc} (h : IsInt64 (sumIn ins)) :
    totalCoinValue ins = sumIn ins := by
  rw [totalCoinValue_eq, wrap64_of_isInt64 h]

theorem spendable_of_isInt64 {ins : List TxInDesc} {fee : Int} (h : IsInt64 (sumIn ins))
    (hd : IsInt64 (sumIn ins - fee)) : sub64 (totalCoinValue ins) fee = sumIn ins - fee := by
  rw [totalCoinValue_of_isInt64 h]
  exact wrap64_of_isInt64 hd

theorem isInt64_sub64 (a b : Int) : IsInt64 (sub64 a b) := isInt64_wrap64 _

/-- Bounds of truncated quotient and remainder by a positive divisor. -/
theorem tdiv_tmod_bounds (r n : Int) (hn : 0 < n) :
    (0 ≤ r → 0 ≤ Int.tdiv r n ∧ 0 ≤ Int.tmod r n ∧ Int.tdiv r n + Int.tmod r n ≤ r) ∧
    (r ≤ 0 → Int.tdiv r n ≤ 0 ∧ Int.tmod r n ≤ 0 ∧ r ≤ Int.tdiv r n + Int.tmod r n) := by
  have key := Int.tmod_add_tdiv r n
  constructor
  · intro hr
    have hq : 0 ≤ Int.tdiv r n := Int.tdiv_nonneg hr hn.le
    have hm : 0 ≤ Int.tmod r n := Int.tmod_nonneg n hr
    refine ⟨hq, hm, ?_⟩
    nlinarith [mul_nonneg (sub_nonneg.mpr (Int.add_one_le_iff.mpr hn)) hq]
  · intro hr
    have hneg : 0 ≤ -r := by omega
    have hq : 0 ≤ Int.tdiv (-r) n := Int.tdiv_nonneg hneg hn.le
    have hm : 0 ≤ Int.tmod (-r) n := Int.tmod_nonneg n hneg
    have key2 := Int.tmod_add_tdiv (-r) n
    rw [Int.neg_tdiv] at hq key2
    have hm2 : Int.tmod (-r) n = -(Int.tmod r n) := by
      have e1 : n * -(Int.tdiv r n) = -(n * Int.tdiv r n) := by ring
      rw [e1] at key2
      omega
    rw [hm2] at hm
    refine ⟨by omega, by omega, ?_⟩
    have hq2 : 0 ≤ -(Int.tdiv r n) := hq
    nlinarith [mul_nonneg (sub_nonneg.mpr (Int.add_one_le_iff.mpr hn)) hq2]

theorem isInt64_tdiv {r n : Int} (hr : IsInt64 r) (hn : 0 < n) : IsInt64 (Int.tdiv r n) := by
  have b := tdiv_tmod_bounds r n hn
  unfold IsInt64 at *
  rcases le_total 0 r with h | h
  · have := b.1 h; omega
  · have := b.2 h; omega

theorem isInt64_tmod {r n : Int} (hr : IsInt64 r) (hn : 0 < n) : IsInt64 (Int.tmod r n) := by
  have b := tdiv_tmod_bounds r n hn
  unfold IsInt64 at *
  rcases le_total 0 r with h | h
  · have := b.1 h; omega
  · have := b.2 h; omega

theorem isInt64_tdiv_add_tmod {r n : Int} (hr : IsInt64 r) (hn : 0 < n) :
    IsInt64 (Int.tdiv r n + Int.tmod r n) := by
  have b := tdiv_tmod_bounds r n hn
  unfold IsInt64 at *
  rcases le_total 0 r with h | h
  · have := b.1 h; omega
  · have := b.2 h; omega

theorem div64_eq {r n : Int} (hr : IsInt64 r) (hn : 0 < n) : div64 r n = Int.tdiv r n :=
  wrap64_of_isInt64 (isInt64_tdiv hr hn)

theorem rem64_eq {r n : Int} (hr : IsInt64 r) (hn : 0 < n) : rem64 r n = Int.tmod r n :=
  wrap64_of_isInt64 (isInt64_tmod hr hn)

theorem last_eq {r n : Int} (hr : IsInt64 r) (hn : 0 < n) :
    add64 (div64 r n) (rem64 r n) = Int.tdiv r n + Int.tmod r n := by
  rw [div64_eq hr hn, rem64_eq hr hn]
  exact wrap64_of_isInt64 (isInt64_tdiv_add_tmod hr hn)

theorem fillTxOutDescs_length (per r : Int) (n : Nat) (l : List DemoAccount) (i : Nat) :
    (fillTxOutDescs per r n i l).length = l.length := by
  induction l generalizing i with
  | nil => rfl
  | cons a rest ih => simp [fillTxOutDescs, ih]

theorem fillTxOutDescs_getElem? (per r : Int) (n : Nat) (l : List DemoAccount) (i k : Nat) :
    (fillTxOutDescs per r n i l)[k]? =
      (l[k]?).map (fun a =>
        ({ AbelAddress := a.AbelAddress,
           CoinValue := if i + k = n - 1 then add64 per (rem64 r n) else per } : TxOutDesc)) := by
  induction l generalizing i k with
  | nil => simp [fillTxOutDescs]
  | cons a rest ih =>
    cases k with
    | zero => simp [fillTxOutDescs]
    | succ k =>
      simp only [fillTxOutDescs, List.getElem?_cons_succ]
      rw [ih (i + 1) k]
      have e : i + 1 + k = i + (k + 1) := by omega
      rw [e]

theorem sumOut_fillTxOutDescs (per r : Int) (n : Nat) (l : List DemoAccount) (i : Nat)
    (hl : l ≠ []) (hi : i + l.length = n) :
    sumOut (fillTxOutDescs per r n i l)
      = per * ((l.length : Int) - 1) + add64 per (rem64 r n) := by
  induction l generalizing i with
  | nil => exact absurd rfl hl
  | cons a rest ih =>
    cases rest with
    | nil =>
      have hn : i = n - 1 := by simp at hi; omega
      simp [fillTxOutDescs, sumOut, hn]
    | cons b rest2 =>
      have hne : ¬ (i = n - 1) := by simp at hi; omega
      have hi2 : (i + 1) + (b :: rest2).length = n := by simp at hi ⊢; omega
      have ih2 := ih (i + 1) (by simp) hi2
      have e : sumOut (fillTxOutDescs per r n i (a :: b :: rest2))
          = per + sumOut (fillTxOutDescs per r n (i + 1) (b :: rest2)) := by
        simp [fillTxOutDescs, sumOut, hne]
      rw [e, ih2]
      simp only [List.length_cons]
      push_cast
      ring

/-- What the value distribution returns for a non-empty receiver list, in terms of the
program value `r = spendableCoinValue`. -/
theorem calcTxOutDescs_spec (total fee : Int) (receivers : List DemoAccount)
    (hr : receivers ≠ []) :
    ∃ outs, calcTxOutDescs total fee receivers = .ok outs ∧
      outs.length = receivers.length ∧
      sumOut outs = sub64 total fee ∧
      ∀ k : Nat, outs[k]? = (receivers[k]?).map (fun a =>
        ({ AbelAddress := a.AbelAddress,
           CoinValue :=
            if k = receivers.length - 1 then
              Int.tdiv (sub64 total fee) receivers.length
                + Int.tmod (sub64 total fee) receivers.length
            else Int.tdiv (sub64 total fee) receivers.length } : TxOutDesc)) := by
  have hlen : receivers.length ≠ 0 := by
    intro h; exact hr (List.length_eq_zero.mp h)
  have hpos : (0 : Int) < (receivers.length : Int) := by
    have : 0 < receivers.length := Nat.pos_of_ne_zero hlen
    exact_mod_cast this
  have hR : IsInt64 (sub64 total fee) := isInt64_sub64 total fee
  refine ⟨fillTxOutDescs (div64 (sub64 total fee) receivers.length) (sub64 total fee)
    receivers.length 0 receivers, by simp only [calcTxOutDescs, if_neg hlen],
    fillTxOutDescs_length _ _ _ _ _, ?_, ?_⟩
  · rw [sumOut_fillTxOutDescs _ _ _ _ _ hr (by simp), last_eq hR hpos, div64_eq hR hpos]
    have key := Int.tmod_add_tdiv (sub64 total fee) (receivers.length : Int)
    linear_combination key
  · intro k
    rw [fillTxOutDescs_getElem?, last_eq hR hpos, div64_eq hR hpos]
    simp

/-! ## C1: conservation of value -/

/-- C1 (as stated, refuted): conservation does not hold for all `int64` inputs. Two inputs
of value `2^62` each with fee `0` and one receiver: the `int64` total wraps to `-2^63`,
the single output is `-2^63`, while the inputs sum to `2^63`. -/
theorem conservation_fails_on_overflow :
    ¬ ∀ (ins : List TxInDesc) (fee : Int) (receivers : List DemoAccount),
        ins ≠ [] → receivers ≠ [] →
        (∀ d ∈ ins, 0 ≤ d.CoinValue ∧ IsInt64 d.CoinValue) → IsInt64 fee →
        ∀ outs, calcTxOutDescs (totalCoinValue ins) fee receivers = .ok outs →
          sumOut outs + fee = sumIn ins := by
  intro h
  have h1 := h [exTxIn 4611686018427387904 1, exTxIn 4611686018427387904 2] 0 [exReceiver 1]
    (by decide) (by decide) (by decide) (by decide)
    [{ AbelAddress := [1], CoinValue := -9223372036854775808 }] (by decide)
  revert h1
  decide

/-- C1 (amended): for every input list, fee and non-empty receiver list the value
distribution succeeds and the sum of the output values plus the fee equals the sum of the
input values modulo `2^64`; the equality is exact whenever the sum of the input values and
that sum minus the fee are representable in `int64`. -/
theorem conservation_of_value (ins : List TxInDesc) (fee : Int)
    (receivers : List DemoAccount) (hr : receivers ≠ []) :
    ∃ outs, calcTxOutDescs (totalCoinValue ins) fee receivers = .ok outs ∧
      wrap64 (sumOut outs + fee) = wrap64 (sumIn ins) ∧
      (IsInt64 (sumIn ins) → IsInt64 (sumIn ins - fee) → sumOut outs + fee = sumIn ins) := by
  obtain ⟨outs, hok, _, hsum, _⟩ := calcTxOutDescs_spec (totalCoinValue ins) fee receivers hr
  refine ⟨outs, hok, ?_, ?_⟩
  · rw [hsum, totalCoinValue_eq]
    unfold sub64 wrap64
    omega
  · intro hV hD
    rw [hsum, spendable_of_isInt64 hV hD]
    ring

/-- Instance of `conservation_of_value`: inputs 60 and 43, fee 3, three receivers. -/
theorem conservation_of_value_witness :
    calcTxOutDescs (totalCoinValue [exTxIn 60 1, exTxIn 43 2]) 3
        [exReceiver 1, exReceiver 2, exReceiver 3]
      = .ok [{ AbelAddress := [1], CoinValue := 33 }, { AbelAddress := [2], CoinValue := 33 },
             { AbelAddress := [3], CoinValue := 34 }] ∧
    sumOut [{ AbelAddress := [1], CoinValue := 33 }, { AbelAddress := [2], CoinValue := 33 },
            { AbelAddress := [3], CoinValue := 34 }] + 3
      = sumIn [exTxIn 60 1, exTxIn 43 2] := by
  obtain ⟨outs, hok, _, hex⟩ := conservation_of_value [exTxIn 60 1, exTxIn 43 2] 3
    [exReceiver 1, exReceiver 2, exReceiver 3] (by decide)
  have hval : calcTxOutDescs (totalCoinValue [exTxIn 60 1, exTxIn 43 2]) 3
        [exReceiver 1, exReceiver 2, exReceiver 3]
      = .ok [{ AbelAddress := [1], CoinValue := 33 }, { AbelAddress := [2], CoinValue := 33 },
             { AbelAddress := [3], CoinValue := 34 }] := by decide
  rw [hval] at hok
  cases hok
  exact ⟨hval, hex (by decide) (by decide)⟩

/-! ## C2: remainder policy -/

/-- C2 (as stated, refuted): with `V` the sum of the input values the receivers do not
always get `(V - F) / N`. Two inputs of value `2^62`, fee `0`, two receivers: the claim
gives the first receiver `2^63 / 2 = 2^62`, the code gives `-2^62` because the `int64`
total wraps to `-2^63`. -/
theorem remainder_policy_fails_on_overflow :
    ¬ ∀ (ins : List TxInDesc) (fee : Int) (receivers : List DemoAccount),
        receivers ≠ [] →
        (∀ d ∈ ins, 0 ≤ d.CoinValue ∧ IsInt64 d.CoinValue) → IsInt64 fee →
        ∀ outs, calcTxOutDescs (totalCoinValue ins) fee receivers = .ok outs →
          ∀ k : Nat, k + 1 < receivers.length →
            (outs[k]?).map (fun d => d.CoinValue)
              = some (Int.tdiv (sumIn ins - fee) receivers.length) := by
  intro h
  have h1 := h [exTxIn 4611686018427387904 1, exTxIn 4611686018427387904 2] 0
    [exReceiver 1, exReceiver 2] (by decide) (by decide) (by decide)
    [{ AbelAddress := [1], CoinValue := -4611686018427387904 },
     { AbelAddress := [2], CoinValue := -4611686018427387904 }] (by decide) 0 (by decide)
  revert h1
  decide

/-- C2 (amended): let `V` be the sum of the input values, `F` the fee, `R = V - F` and
`N >= 1` the number of receivers, and let `V` and `R` be representable in `int64`. Then the
value distribution succeeds with an output list of length `N` in receiver order, the output
at index `k` carries the address of receiver `k`, every receiver but the last gets the
quotient of `R` by `N` truncated toward zero, and the last receiver gets that quotient plus
the remainder of the truncated division; for `R >= 0` these are `R / N` and `R mod N`. -/
theorem remainder_policy (ins : List TxInDesc) (fee : Int) (receivers : List DemoAccount)
    (hr : receivers ≠ []) (hV : IsInt64 (sumIn ins)) (hR : IsInt64 (sumIn ins - fee)) :
    ∃ outs, calcTxOutDescs (totalCoinValue ins) fee receivers = .ok outs ∧
      outs.length = receivers.length ∧
      (∀ k : Nat, outs[k]? = (receivers[k]?).map (fun a =>
        ({ AbelAddress := a.AbelAddress,
           CoinValue :=
            if k = receivers.length - 1 then
              Int.tdiv (sumIn ins - fee) receivers.length
                + Int.tmod (sumIn ins - fee) receivers.length
            else Int.tdiv (sumIn ins - fee) receivers.length } : TxOutDesc))) ∧
      (0 ≤ sumIn ins - fee →
        Int.tdiv (sumIn ins - fee) receivers.length = (sumIn ins - fee) / receivers.length ∧
        Int.tmod (sumIn ins - fee) receivers.length = (sumIn ins - fee) % receivers.length) := by
  obtain ⟨outs, hok, hlen, _, hget⟩ :=
    calcTxOutDescs_spec (totalCoinValue ins) fee receivers hr
  rw [spendable_of_isInt64 hV hR] at hget
  refine ⟨outs, hok, hlen, hget, ?_⟩
  intro h0
  exact ⟨Int.tdiv_eq_ediv h0 (Int.ofNat_nonneg _), Int.tmod_eq_emod h0 (Int.ofNat_nonneg _)⟩

/-- Instance of `remainder_policy`: inputs 70 and 40, fee 3, four receivers; the outputs
are 26, 26, 26 and 29. -/
theorem remainder_policy_witness :
    ∃ outs, calcTxOutDescs (totalCoinValue [exTxIn 70 1, exTxIn 40 2]) 3
        [exReceiver 1, exReceiver 2, exReceiver 3, exReceiver 4] = .ok outs ∧
      outs[0]? = some { AbelAddress := [1], CoinValue := 26 } ∧
      outs[3]? = some { AbelAddress := [4], CoinValue := 29 } := by
  obtain ⟨outs, hok, _, hget, _⟩ := remainder_policy [exTxIn 70 1, exTxIn 40 2] 3
    [exReceiver 1, exReceiver 2, exReceiver 3, exReceiver 4] (by decide) (by decide) (by decide)
  refine ⟨outs, hok, ?_, ?_⟩
  · rw [hget 0]; decide
  · rw [hget 3]; decide

/-! ## C3: fee exceeding the input total -/

/-- C3 (as stated, refuted): with one input of value 5 and an estimated fee of 10 the
assembly does not fail: the output list `[-5]` is computed and the descriptor holding it is
what `makeUnsignedRawTx` passes to `core.GenerateUnsignedRawTx`. -/
theorem fee_above_total_is_assembled :
    sumIn [exTxIn 5 7] < (exFeeClient 10).GetEstimatedTxFee ∧
    assembleTxDesc (exFeeClient 10) (exRingCore exGroupRing) [exTxIn 5 7] [exReceiver 1]
      = .ok { TxInDescs := [exTxIn 5 7],
              TxOutDescs := [{ AbelAddress := [1], CoinValue := -5 }],
              TxFee := 10,
              TxRingBlockDescs := [(8, { BinData := [], Height := 8 }),
                                   (7, { BinData := [], Height := 7 }),
                                   (6, { BinData := [], Height := 6 })] } ∧
    makeUnsignedRawTx (exFeeClient 10) (exRingCore exGroupRing) [exTxIn 5 7] [exReceiver 1]
      = (exRingCore exGroupRing).GenerateUnsignedRawTx
          { TxInDescs := [exTxIn 5 7],
            TxOutDescs := [{ AbelAddress := [1], CoinValue := -5 }],
            TxFee := 10,
            TxRingBlockDescs := [(8, { BinData := [], Height := 8 }),
                                 (7, { BinData := [], Height := 7 }),
                                 (6, { BinData := [], Height := 6 })] } := by
  decide

/-- C3 (amended): the assembly has no funds check. When the estimated fee exceeds the sum of
the input values (both that sum and the difference representable in `int64`), there is at
least one receiver and the ring blocks are fetched, the value distribution still yields an
output list, whose values sum to `V - F < 0`; the descriptor built from it is produced, and
the result of the build is whatever `core.GenerateUnsignedRawTx` returns for that
descriptor. -/
theorem fee_above_total_reaches_serializer (client : AbecRPCClient) (core : Core)
    (ins : List TxInDesc) (receivers : List DemoAccount) (blocks : RingBlockMap)
    (hr : receivers ≠ []) (hV : IsInt64 (sumIn ins))
    (hR : IsInt64 (sumIn ins - client.GetEstimatedTxFee))
    (hfee : sumIn ins < client.GetEstimatedTxFee)
    (hfetch : (collectTxRingBlocks client core ins).2 = .ok blocks) :
    ∃ outs, calcTxOutDescs (totalCoinValue ins) client.GetEstimatedTxFee receivers = .ok outs ∧
      sumOut outs = sumIn ins - client.GetEstimatedTxFee ∧ sumOut outs < 0 ∧
      assembleTxDesc client core ins receivers
        = .ok { TxInDescs := ins, TxOutDescs := outs, TxFee := client.GetEstimatedTxFee,
                TxRingBlockDescs := blocks } ∧
      makeUnsignedRawTx client core ins receivers
        = core.GenerateUnsignedRawTx
            { TxInDescs := ins, TxOutDescs := outs, TxFee := client.GetEstimatedTxFee,
              TxRingBlockDescs := blocks } := by
  obtain ⟨outs, hok, _, hsum, _⟩ :=
    calcTxOutDescs_spec (totalCoinValue ins) client.GetEstimatedTxFee receivers hr
  rw [spendable_of_isInt64 hV hR] at hsum
  have hasm : assembleTxDesc client core ins receivers
      = .ok { TxInDescs := ins, TxOutDescs := outs, TxFee := client.GetEstimatedTxFee,
              TxRingBlockDescs := blocks } := by
    simp only [assembleTxDesc, hok, hfetch]
  refine ⟨outs, hok, hsum, by rw [hsum]; omega, hasm, ?_⟩
  simp only [makeUnsignedRawTx, hasm]

/-- Instance of `fee_above_total_reaches_serializer`: one input of value 5, fee 10. -/
theorem fee_above_total_reaches_serializer_witness :
    ∃ outs, calcTxOutDescs (totalCoinValue [exTxIn 5 7]) 10 [exReceiver 1] = .ok outs ∧
      sumOut outs = -5 ∧
      makeUnsignedRawTx (exFeeClient 10) (exRingCore exGroupRing) [exTxIn 5 7] [exReceiver 1]
        = (exRingCore exGroupRing).GenerateUnsignedRawTx
            { TxInDescs := [exTxIn 5 7], TxOutDescs := outs, TxFee := 10,
              TxRingBlockDescs := [(8, { BinData := [], Height := 8 }),
                                   (7, { BinData := [], Height := 7 }),
                                   (6, { BinData := [], Height := 6 })] } := by
  obtain ⟨outs, hok, hsum, _, _, hmk⟩ :=
    fee_above_total_reaches_serializer (exFeeClient 10) (exRingCore exGroupRing) [exTxIn 5 7]
      [exReceiver 1]
      [(8, { BinData := [], Height := 8 }), (7, { BinData := [], Height := 7 }),
       (6, { BinData := [], Height := 6 })]
      (by decide) (by decide) (by decide) (by decide) (by decide)
  exact ⟨outs, hok, hsum, hmk⟩

/-! ## Ring blocks: auxiliary facts -/

theorem contains_iff (l : List Int) (v : Int) : contains l v = true ↔ v ∈ l := by
  induction l with
  | nil => simp [contains]
  | cons a rest ih =>
    unfold contains
    by_cases h : a = v
    · simp [h]
    · have h2 : ¬ v = a := fun e => h e.symm
      simp [h, h2, ih]

theorem mem_appendMissing (hs all : List Int) (x : Int) :
    x ∈ appendMissing all hs ↔ x ∈ all ∨ x ∈ hs := by
  unfold appendMissing
  induction hs generalizing all with
  | nil => simp
  | cons g rest ih =>
    rw [List.foldl_cons, ih]
    by_cases hc : contains all g = true
    · have hm := (contains_iff all g).mp hc
      simp only [hc, Bool.not_true, Bool.false_eq_true, if_false, List.mem_cons]
      constructor
      · rintro (h | h)
        · exact Or.inl h
        · exact Or.inr (Or.inr h)
      · rintro (h | h | h)
        · exact Or.inl h
        · exact Or.inl (h ▸ hm)
        · exact Or.inr h
    · have hc2 : contains all g = false := by simpa using hc
      simp only [hc2, Bool.not_false, if_true, List.mem_append, List.mem_singleton,
        List.mem_cons]
      tauto

theorem nodup_appendMissing (hs all : List Int) (h : all.Nodup) :
    (appendMissing all hs).Nodup := by
  unfold appendMissing
  induction hs generalizing all with
  | nil => simpa using h
  | cons g rest ih =>
    rw [List.foldl_cons]
    apply ih
    by_cases hc : contains all g = true
    · simpa [hc] using h
    · have hc2 : contains all g = false := by simpa using hc
      have hn : g ∉ all := fun hm => hc ((contains_iff all g).mpr hm)
      simp only [hc2, Bool.not_false, if_true]
      rw [List.nodup_append]
      refine ⟨h, List.nodup_singleton g, ?_⟩
      intro x hx hx2
      rw [List.mem_singleton] at hx2
      exact hn (hx2 ▸ hx)

/-- One iteration of the tracking-path loop over `allCoins`. -/
theorem mem_coinStep (core : Core) (all : List Int) (c : Coin) (x : Int) :
    x ∈ (if !contains all c.BlockHeight then
          appendMissing (all ++ [c.BlockHeight]) (core.GetRingBlockHeights c.BlockHeight)
         else all)
      ↔ x ∈ all ∨ (c.BlockHeight ∉ all ∧
          (x = c.BlockHeight ∨ x ∈ core.GetRingBlockHeights c.BlockHeight)) := by
  by_cases hc : contains all c.BlockHeight = true
  · have hm := (contains_iff all c.BlockHeight).mp hc
    simp only [hc, Bool.not_true, Bool.false_eq_true, if_false]
    tauto
  · have hc2 : contains all c.BlockHeight = false := by simpa using hc
    have hn : c.BlockHeight ∉ all := fun hm => hc ((contains_iff all c.BlockHeight).mpr hm)
    simp only [hc2, Bool.not_false, if_true, mem_appendMissing, List.mem_append,
      List.mem_singleton]
    tauto

theorem coinFold_facts (core : Core) (coins : List Coin) (init : List Int) :
    (∀ x ∈ init, x ∈ coins.foldl (fun all coin =>
        if !contains all coin.BlockHeight then
          appendMissing (all ++ [coin.BlockHeight]) (core.GetRingBlockHeights coin.BlockHeight)
        else all) init) ∧
    (∀ c ∈ coins, c.BlockHeight ∈ coins.foldl (fun all coin =>
        if !contains all coin.BlockHeight then
          appendMissing (all ++ [coin.BlockHeight]) (core.GetRingBlockHeights coin.BlockHeight)
        else all) init) ∧
    (init.Nodup → (coins.foldl (fun all coin =>
        if !contains all coin.BlockHeight then
          appendMissing (all ++ [coin.BlockHeight]) (core.GetRingBlockHeights coin.BlockHeight)
        else all) init).Nodup) ∧
    (RingClosed core.GetRingBlockHeights →
      (∀ x ∈ init, ∀ y ∈ core.GetRingBlockHeights x, y ∈ init) →
      ∀ x ∈ coins.foldl (fun all coin =>
        if !contains all coin.BlockHeight then
          appendMissing (all ++ [coin.BlockHeight]) (core.GetRingBlockHeights coin.BlockHeight)
        else all) init, ∀ y ∈ core.GetRingBlockHeights x,
        y ∈ coins.foldl (fun all coin =>
        if !contains all coin.BlockHeight then
          appendMissing (all ++ [coin.BlockHeight]) (core.GetRingBlockHeights coin.BlockHeight)
        else all) init) := by
  induction coins generalizing init with
  | nil =>
    refine ⟨fun x hx => hx, ?_, fun h => h, fun _ h => h⟩
    intro c hc
    cases hc
  | cons c rest ih =>
    simp only [List.foldl_cons]
    obtain ⟨ih1, ih2, ih3, ih4⟩ := ih
      (if !contains init c.BlockHeight then
        appendMissing (init ++ [c.BlockHeight]) (core.GetRingBlockHeights c.BlockHeight)
       else init)
    refine ⟨?_, ?_, ?_, ?_⟩
    · intro x hx
      exact ih1 x ((mem_coinStep core init c x).mpr (Or.inl hx))
    · intro d hd
      rcases List.mem_cons.mp hd with rfl | hd
      · apply ih1
        rw [mem_coinStep]
        by_cases hm : d.BlockHeight ∈ init
        · exact Or.inl hm
        · exact Or.inr ⟨hm, Or.inl rfl⟩
      · exact ih2 d hd
    · intro hn
      apply ih3
      by_cases hc : contains init c.BlockHeight = true
      · simpa [hc] using hn
      · have hc2 : contains init c.BlockHeight = false := by simpa using hc
        have hnm : c.BlockHeight ∉ init :=
          fun hm => hc ((contains_iff init c.BlockHeight).mpr hm)
        simp only [hc2, Bool.not_false, if_true]
        apply nodup_appendMissing
        rw [List.nodup_append]
        refine ⟨hn, List.nodup_singleton _, ?_⟩
        intro x hx hx2
        rw [List.mem_singleton] at hx2
        exact hnm (hx2 ▸ hx)
    · intro hcl hinit
      apply ih4 hcl
      intro x hx y hy
      rw [mem_coinStep] at hx ⊢
      rcases hx with hx | ⟨hnm, hx | hx⟩
      · exact Or.inl (hinit x hx y hy)
      · subst hx
        exact Or.inr ⟨hnm, Or.inr hy⟩
      · exact Or.inr ⟨hnm, Or.inr (hcl _ x hx y hy)⟩

theorem mem_txRingFold (core : Core) (ins : List TxInDesc) (init : List Int) (x : Int) :
    x ∈ ins.foldl (fun all txInDesc =>
        appendMissing all (core.GetRingBlockHeights txInDesc.Height)) init
      ↔ x ∈ init ∨ ∃ d ∈ ins, x ∈ core.GetRingBlockHeights d.Height := by
  induction ins generalizing init with
  | nil => simp
  | cons d rest ih =>
    rw [List.foldl_cons, ih, mem_appendMissing]
    simp only [List.mem_cons, exists_eq_or_imp]
    tauto

theorem nodup_txRingFold (core : Core) (ins : List TxInDesc) (init : List Int)
    (h : init.Nodup) :
    (ins.foldl (fun all txInDesc =>
        appendMissing all (core.GetRingBlockHeights txInDesc.Height)) init).Nodup := by
  induction ins generalizing init with
  | nil => simpa using h
  | cons d rest ih =>
    rw [List.foldl_cons]
    exact ih _ (nodup_appendMissing _ _ h)

theorem find?_filter_ne (m : RingBlockMap) (k g : Int) (h : g ≠ k) :
    (m.filter (fun e => decide (e.1 ≠ k))).find? (fun e => decide (e.1 = g))
      = m.find? (fun e => decide (e.1 = g)) := by
  induction m with
  | nil => rfl
  | cons e rest ih =>
    rw [List.filter_cons]
    by_cases hk : e.1 = k
    · have d1 : decide (e.1 ≠ k) = false := decide_eq_false (not_not.mpr hk)
      have d2 : decide (e.1 = g) = false := decide_eq_false (fun hh => h (hh ▸ hk))
      rw [d1, List.find?_cons, d2]
      simpa using ih
    · have d1 : decide (e.1 ≠ k) = true := decide_eq_true hk
      rw [d1]
      simp only [if_true]
      rw [List.find?_cons, List.find?_cons, ih]

theorem get?_set (m : RingBlockMap) (k g : Int) (v : TxBlockDesc) :
    (m.set k v).get? g = if g = k then some v else m.get? g := by
  unfold RingBlockMap.set RingBlockMap.get?
  by_cases h : g = k
  · subst h
    simp [List.find?_cons]
  · have h2 : ¬ k = g := fun e => h e.symm
    rw [List.find?_cons]
    simp only [h2, decide_False, if_neg h]
    rw [find?_filter_ne m k g h]

theorem fetchRingBlocks_requested (client : AbecRPCClient) (hs req : List Int)
    (m : RingBlockMap) : ∃ k, (fetchRingBlocks client hs req m).1 = req ++ hs.take k := by
  induction hs generalizing req m with
  | nil => exact ⟨0, by simp [fetchRingBlocks]⟩
  | cons h rest ih =>
    unfold fetchRingBlocks
    cases hb : client.GetBlockBytesByHeight h with
    | error e => exact ⟨1, by simp⟩
    | ok b =>
      obtain ⟨k, hk⟩ := ih (req ++ [h]) (m.set h { BinData := b, Height := h })
      exact ⟨k + 1, by simp [hk]⟩

theorem fetchRingBlocks_ok (client : AbecRPCClient) (hs req : List Int)
    (m m2 : RingBlockMap) (hok : (fetchRingBlocks client hs req m).2 = .ok m2) :
    (fetchRingBlocks client hs req m).1 = req ++ hs ∧
    (∀ g ∈ hs, HasRingBlock client m2 g) ∧
    (∀ g, g ∉ hs → m2.get? g = m.get? g) := by
  induction hs generalizing req m with
  | nil =>
    simp only [fetchRingBlocks] at hok
    cases hok
    simp [fetchRingBlocks]
  | cons h rest ih =>
    unfold fetchRingBlocks at hok ⊢
    cases hb : client.GetBlockBytesByHeight h with
    | error e =>
      rw [hb] at hok
      cases hok
    | ok b =>
      rw [hb] at hok
      simp only at hok ⊢
      obtain ⟨i1, i2, i3⟩ := ih (req ++ [h]) (m.set h { BinData := b, Height := h }) hok
      refine ⟨by rw [i1]; simp, ?_, ?_⟩
      · intro g hg
        by_cases hr : g ∈ rest
        · exact i2 g hr
        · rcases List.mem_cons.mp hg with rfl | hg2
          · refine ⟨b, hb, ?_⟩
            rw [i3 g hr, get?_set]
            simp
          · exact absurd hg2 hr
      · intro g hg
        have hne : g ≠ h := fun e => hg (e ▸ List.mem_cons_self _ _)
        have hr : g ∉ rest := fun e => hg (List.mem_cons_of_mem _ e)
        rw [i3 g hr, get?_set, if_neg hne]

theorem nodup_take {l : List Int} (h : l.Nodup) (k : Nat) : (l.take k).Nodup :=
  List.Nodup.sublist (List.take_sublist k l) h

theorem exGroupRing_closed : RingClosed exGroupRing := by
  intro h g hg x hx
  simp only [exGroupRing, List.mem_cons, List.mem_singleton, List.not_mem_nil, or_false]
    at hg hx ⊢
  omega

/-! ## C4: ring context on the tracking path -/

/-- C4 (as stated, refuted): the claim fails for a ring-height selection that is not closed.
With ring heights `1 -> [2]`, `2 -> [7]` and coins at heights 1 and 2, the second coin is
skipped by the guard of line 257 (its height 2 was collected as a ring height of the first
coin), so height 7 is never collected and the map has no entry for it. -/
theorem ring_context_tracking_incomplete :
    ¬ ∀ (client : AbecRPCClient) (core : Core) (allCoins : List Coin) (m : RingBlockMap),
        (collectCoinRingBlocks client core allCoins).2 = .ok m →
        ∀ c ∈ allCoins, (m.get? c.BlockHeight).isSome = true ∧
          ∀ g ∈ core.GetRingBlockHeights c.BlockHeight, (m.get? g).isSome = true := by
  intro h
  have h1 := (h (exFeeClient 0) (exRingCore exChainRing) [exCoin 1, exCoin 2]
    (exBlocks [2, 1]) (by decide) (exCoin 2) (by decide)).2 7 (by decide)
  revert h1
  decide

/-- C4 (amended): when the ring-block collection of `DemoSDKTrackCoins` succeeds, the
resulting map has, for every coin of the list, an entry for the coin's own block height;
and if the ring-height selection is closed (the ring heights of a ring height of `h` are
ring heights of `h`), it has an entry for every height in `RingHeightsFor(coin.BlockHeight)`
of every coin. Each entry holds the payload served by the ledger for its height. -/
theorem ring_context_tracking (client : AbecRPCClient) (core : Core) (allCoins : List Coin)
    (m : RingBlockMap) (hok : (collectCoinRingBlocks client core allCoins).2 = .ok m) :
    (∀ c ∈ allCoins, HasRingBlock client m c.BlockHeight) ∧
    (RingClosed core.GetRingBlockHeights →
      ∀ c ∈ allCoins, ∀ g ∈ core.GetRingBlockHeights c.BlockHeight,
        HasRingBlock client m g) := by
  obtain ⟨_, hall, _⟩ := fetchRingBlocks_ok client _ [] [] m hok
  obtain ⟨_, f2, _, f4⟩ := coinFold_facts core allCoins []
  refine ⟨fun c hc => hall _ (f2 c hc), ?_⟩
  intro hcl c hc g hg
  apply hall
  exact f4 hcl (fun x hx => absurd hx (List.not_mem_nil x)) _ (f2 c hc) g hg

/-- Instance of `ring_context_tracking`: ring heights by groups of three, coins at heights
4, 5 and 7; the coin at height 5 is skipped by the guard and its ring heights are in the
map all the same. -/
theorem ring_context_tracking_witness :
    (collectCoinRingBlocks (exFeeClient 0) (exRingCore exGroupRing)
        [exCoin 4, exCoin 5, exCoin 7]).2 = .ok (exBlocks [8, 6, 7, 5, 3, 4]) ∧
    HasRingBlock (exFeeClient 0) (exBlocks [8, 6, 7, 5, 3, 4]) 5 ∧
    HasRingBlock (exFeeClient 0) (exBlocks [8, 6, 7, 5, 3, 4]) 3 :=
  ⟨by decide,
   (ring_context_tracking (exFeeClient 0) (exRingCore exGroupRing)
      [exCoin 4, exCoin 5, exCoin 7] (exBlocks [8, 6, 7, 5, 3, 4]) (by decide)).1
      (exCoin 5) (by decide),
   (ring_context_tracking (exFeeClient 0) (exRingCore exGroupRing)
      [exCoin 4, exCoin 5, exCoin 7] (exBlocks [8, 6, 7, 5, 3, 4]) (by decide)).2
      exGroupRing_closed (exCoin 5) (by decide) 3 (by decide)⟩

/-! ## C5: ring context on the spending path -/

/-- C5 (as stated, refuted): the spending path never appends an input's own height. With a
ring-height selection `h -> [h + 1]` and one input at height 1 the collected heights are
`[2]`, which does not contain 1. -/
theorem ring_context_spending_misses_own_height :
    ¬ ∀ (core : Core) (ins : List TxInDesc),
        ∀ d ∈ ins, d.Height ∈ txRingBlockHeights core ins ∧
          ∀ g ∈ core.GetRingBlockHeights d.Height, g ∈ txRingBlockHeights core ins := by
  intro h
  have h1 := (h (exRingCore exNextRing) [exTxIn 1 1] (exTxIn 1 1) (by decide)).1
  revert h1
  decide

/-- C5 (amended): for every list of inputs to spend, the heights collected for TxBuilder
are exactly the heights of `RingHeightsFor(input.Height)` over all inputs; when the fetch
succeeds the map has an entry for each of them and for no other height. An input's own
height is therefore collected exactly when it is a ring height of some input. -/
theorem ring_context_spending (client : AbecRPCClient) (core : Core) (ins : List TxInDesc) :
    (∀ g, g ∈ txRingBlockHeights core ins ↔
      ∃ d ∈ ins, g ∈ core.GetRingBlockHeights d.Height) ∧
    (∀ m, (collectTxRingBlocks client core ins).2 = .ok m →
      (∀ d ∈ ins, ∀ g ∈ core.GetRingBlockHeights d.Height, HasRingBlock client m g) ∧
      (∀ g, (∀ d ∈ ins, g ∉ core.GetRingBlockHeights d.Height) → m.get? g = none)) := by
  have hmem : ∀ g, g ∈ txRingBlockHeights core ins ↔
      ∃ d ∈ ins, g ∈ core.GetRingBlockHeights d.Height := by
    intro g
    unfold txRingBlockHeights
    rw [mem_txRingFold]
    simp
  refine ⟨hmem, ?_⟩
  intro m hok
  obtain ⟨_, hall, hnone⟩ := fetchRingBlocks_ok client _ [] [] m hok
  refine ⟨fun d hd g hg => hall g ((hmem g).mpr ⟨d, hd, hg⟩), ?_⟩
  intro g hg
  rw [hnone g]
  · rfl
  · intro hin
    obtain ⟨d, hd, hgd⟩ := (hmem g).mp hin
    exact hg d hd hgd

/-- Instance of `ring_context_spending`: ring heights by groups of three and one input at
height 7; the heights 6, 7, 8 are fetched, height 5 is not. -/
theorem ring_context_spending_witness :
    HasRingBlock (exFeeClient 0) (exBlocks [8, 7, 6]) 7 ∧
    RingBlockMap.get? (exBlocks [8, 7, 6]) 5 = none :=
  ⟨((ring_context_spending (exFeeClient 0) (exRingCore exGroupRing) [exTxIn 5 7]).2
      (exBlocks [8, 7, 6]) (by decide)).1 (exTxIn 5 7) (by decide) 7 (by decide),
   ((ring_context_spending (exFeeClient 0) (exRingCore exGroupRing) [exTxIn 5 7]).2
      (exBlocks [8, 7, 6]) (by decide)).2 5 (by decide)⟩

/-! ## C6: no duplicate fetch -/

/-- C6: on the tracking path and on the spending path the list of heights passed to
`GetBlockBytesByHeight` contains no height twice (also when a fetch fails), and when the
collection succeeds every collected height is fetched exactly once, however many coins or
inputs require it. -/
theorem no_duplicate_fetch (client : AbecRPCClient) (core : Core) (allCoins : List Coin)
    (ins : List TxInDesc) :
    (collectCoinRingBlocks client core allCoins).1.Nodup ∧
    (collectTxRingBlocks client core ins).1.Nodup ∧
    (∀ m, (collectCoinRingBlocks client core allCoins).2 = .ok m →
      ∀ g ∈ coinRingBlockHeights core allCoins,
        (collectCoinRingBlocks client core allCoins).1.count g = 1) ∧
    (∀ m, (collectTxRingBlocks client core ins).2 = .ok m →
      ∀ g ∈ txRingBlockHeights core ins,
        (collectTxRingBlocks client core ins).1.count g = 1) := by
  have n1 : (coinRingBlockHeights core allCoins).Nodup :=
    (coinFold_facts core allCoins []).2.2.1 List.nodup_nil
  have n2 : (txRingBlockHeights core ins).Nodup :=
    nodup_txRingFold core ins [] List.nodup_nil
  have r1 : (collectCoinRingBlocks client core allCoins).1.Nodup := by
    obtain ⟨k, hk⟩ := fetchRingBlocks_requested client (coinRingBlockHeights core allCoins) [] []
    unfold collectCoinRingBlocks
    rw [hk, List.nil_append]
    exact nodup_take n1 k
  have r2 : (collectTxRingBlocks client core ins).1.Nodup := by
    obtain ⟨k, hk⟩ := fetchRingBlocks_requested client (txRingBlockHeights core ins) [] []
    unfold collectTxRingBlocks
    rw [hk, List.nil_append]
    exact nodup_take n2 k
  refine ⟨r1, r2, ?_, ?_⟩
  · intro m hok g hg
    have e := (fetchRingBlocks_ok client _ [] [] m hok).1
    rw [List.nil_append] at e
    apply List.count_eq_one_of_mem r1
    unfold collectCoinRingBlocks
    rw [e]
    exact hg
  · intro m hok g hg
    have e := (fetchRingBlocks_ok client _ [] [] m hok).1
    rw [List.nil_append] at e
    apply List.count_eq_one_of_mem r2
    unfold collectTxRingBlocks
    rw [e]
    exact hg

/-- Instance of `no_duplicate_fetch`: three coins at height 4 and two inputs at height 7;
height 4 and height 6 are each fetched once. -/
theorem no_duplicate_fetch_witness :
    (collectCoinRingBlocks (exFeeClient 0) (exRingCore exGroupRing)
        [exCoin 4, exCoin 4, exCoin 4]).1.count 4 = 1 ∧
    (collectTxRingBlocks (exFeeClient 0) (exRingCore exGroupRing)
        [exTxIn 5 7, exTxIn 9 7]).1.count 6 = 1 :=
  ⟨(no_duplicate_fetch (exFeeClient 0) (exRingCore exGroupRing)
      [exCoin 4, exCoin 4, exCoin 4] [exTxIn 5 7, exTxIn 9 7]).2.2.1
      (exBlocks [5, 3, 4]) (by decide) 4 (by decide),
   (no_duplicate_fetch (exFeeClient 0) (exRingCore exGroupRing)
      [exCoin 4, exCoin 4, exCoin 4] [exTxIn 5 7, exTxIn 9 7]).2.2.2
      (exBlocks [8, 7, 6]) (by decide) 6 (by decide)⟩

/-! ## Coin scan: auxiliary facts -/

theorem appendCoin_append (pre post : List (List Coin)) (c : List Coin) (coin : Coin) :
    appendCoin (pre ++ c :: post) pre.length coin = pre ++ (c ++ [coin]) :: post := by
  induction pre with
  | nil => rfl
  | cons p rest ih =>
    show p :: appendCoin (rest ++ c :: post) rest.length coin
      = p :: (rest ++ (c ++ [coin]) :: post)
    rw [ih]

theorem zipWith_append_append (g1 g2 : DemoAccount → List Coin) (acc : List (List Coin))
    (accounts : List DemoAccount) :
    List.zipWith (fun c a => c ++ g2 a) (List.zipWith (fun c a => c ++ g1 a) acc accounts)
        accounts
      = List.zipWith (fun c a => c ++ (g1 a ++ g2 a)) acc accounts := by
  induction acc generalizing accounts with
  | nil => simp
  | cons c rest ih =>
    cases accounts with
    | nil => simp
    | cons a more => simp [ih, List.append_assoc]

theorem zipWith_append_nil (acc : List (List Coin)) (accounts : List DemoAccount)
    (h : acc.length = accounts.length) :
    List.zipWith (fun c (_ : DemoAccount) => c ++ ([] : List Coin)) acc accounts = acc := by
  induction acc generalizing accounts with
  | nil => simp
  | cons c rest ih =>
    cases accounts with
    | nil => simp at h
    | cons a more =>
      simp only [List.length_cons, Nat.succ.injEq] at h
      have ih2 := ih more h
      simp only [List.zipWith_cons_cons, List.append_nil] at ih2 ⊢
      rw [ih2]

theorem zipWith_replicate_nil (g : DemoAccount → List Coin) (accounts : List DemoAccount) :
    List.zipWith (fun c a => c ++ g a) (List.replicate accounts.length ([] : List Coin))
        accounts
      = accounts.map g := by
  induction accounts with
  | nil => simp
  | cons a more ih => simp [List.replicate_succ, ih]

theorem expectedCoins_append (core : Core) (a : DemoAccount) (xs ys : List LedgerOutput) :
    expectedCoins core a (xs ++ ys) = expectedCoins core a xs ++ expectedCoins core a ys := by
  simp [expectedCoins, List.filter_append]

theorem expectedCoins_nil (core : Core) (a : DemoAccount) : expectedCoins core a [] = [] := rfl

theorem scanAccounts_ok (core : Core) (o : LedgerOutput) (fp : Bytes)
    (rest : List DemoAccount) :
    ∀ (i : Nat) (pre post acc2 : List (List Coin)), pre.length = i →
      post.length = rest.length →
      scanAccounts core o.height o.blockHash o.txHash o.txIndex (o.voutData core) fp
        i rest (pre ++ post) = .ok acc2 →
      acc2 = pre ++ List.zipWith
          (fun c a => c ++ (if fp = a.Fingerprint then [coinFor core a o] else [])) post rest ∧
      ∀ a ∈ rest, fp = a.Fingerprint →
        ∃ v, core.DecodeValueFromTxOutData (o.voutData core) a.ViewSecretKey = .ok v := by
  induction rest with
  | nil =>
    intro i pre post acc2 _ hpost h
    have hp : post = [] := List.length_eq_zero.mp hpost
    subst hp
    simp only [scanAccounts] at h
    cases h
    simp
  | cons a more ih =>
    intro i pre post acc2 hi hpost h
    cases post with
    | nil => simp at hpost
    | cons c post2 =>
      simp only [List.length_cons, Nat.succ.injEq] at hpost
      subst hi
      unfold scanAccounts at h
      by_cases hfp : fp = a.Fingerprint
      · rw [if_pos hfp] at h
        cases hd : core.DecodeValueFromTxOutData (o.voutData core) a.ViewSecretKey with
        | error e =>
          rw [hd] at h
          cases h
        | ok v =>
          rw [hd] at h
          simp only at h
          rw [appendCoin_append] at h
          have hcoin : mkCoin core a o.txHash o.txIndex v (o.voutData core) o.blockHash o.height
              = coinFor core a o := by
            simp [coinFor, decryptedValue, hd]
          rw [hcoin] at h
          have e : pre ++ (c ++ [coinFor core a o]) :: post2
              = (pre ++ [c ++ [coinFor core a o]]) ++ post2 := by simp
          rw [e] at h
          obtain ⟨r1, r2⟩ := ih (pre.length + 1) (pre ++ [c ++ [coinFor core a o]]) post2 acc2
            (by simp) hpost h
          refine ⟨?_, ?_⟩
          · rw [r1]
            simp [hfp]
          · intro b hb hbf
            rcases List.mem_cons.mp hb with rfl | hb2
            · exact ⟨v, hd⟩
            · exact r2 b hb2 hbf
      · rw [if_neg hfp] at h
        have e : pre ++ c :: post2 = (pre ++ [c]) ++ post2 := by simp
        rw [e] at h
        obtain ⟨r1, r2⟩ := ih (pre.length + 1) (pre ++ [c]) post2 acc2 (by simp) hpost h
        refine ⟨?_, ?_⟩
        · rw [r1]
          simp [hfp]
        · intro b hb hbf
          rcases List.mem_cons.mp hb with rfl | hb2
          · exact absurd hbf hfp
          · exact r2 b hb2 hbf

theorem length_zipWith_coins (g : DemoAccount → List Coin) (acc : List (List Coin))
    (accounts : List DemoAccount) (h : acc.length = accounts.length) :
    (List.zipWith (fun c a => c ++ g a) acc accounts).length = accounts.length := by
  simp [List.length_zipWith, h]

theorem hit_eq_expectedCoins (core : Core) (a : DemoAccount) (o : LedgerOutput)
    (coinAddress : Bytes)
    (hdec : core.DecodeCoinAddressFromTxOutData (o.voutData core) = .ok coinAddress) :
    (if core.Fingerprint coinAddress = a.Fingerprint then [coinFor core a o] else [])
      = expectedCoins core a [o] := by
  by_cases hfp : core.Fingerprint coinAddress = a.Fingerprint
  · simp [expectedCoins, fingerprintMatches, hdec, hfp]
  · simp [expectedCoins, fingerprintMatches, hdec, hfp]

theorem scanVouts_ok (core : Core) (accounts : List DemoAccount) (height : Int)
    (blockHash : String) (txPos : Nat) (txHash : String) (vouts : List TxVout) :
    ∀ (k : Nat) (acc acc2 : List (List Coin)), acc.length = accounts.length →
      scanVouts core accounts height blockHash txHash k vouts acc = .ok acc2 →
      acc2 = List.zipWith (fun c a => c ++ expectedCoins core a
          (voutOutputs height blockHash txPos txHash k vouts)) acc accounts ∧
      ∀ o ∈ voutOutputs height blockHash txPos txHash k vouts, DecodesWell core accounts o := by
  induction vouts with
  | nil =>
    intro k acc acc2 hlen h
    simp only [scanVouts] at h
    cases h
    refine ⟨?_, ?_⟩
    · simp only [voutOutputs, expectedCoins_nil]
      exact (zipWith_append_nil acc accounts hlen).symm
    · intro o ho
      simp [voutOutputs] at ho
  | cons vout rest ih =>
    intro k acc acc2 hlen h
    unfold scanVouts at h
    cases hdec : core.DecodeCoinAddressFromTxOutData (core.MakeBytesFromHexString vout.Script)
      with
    | error e =>
      rw [hdec] at h
      cases h
    | ok coinAddress =>
      rw [hdec] at h
      simp only at h
      cases hacc : scanAccounts core height blockHash txHash k
          (core.MakeBytesFromHexString vout.Script) (core.Fingerprint coinAddress)
          0 accounts acc with
      | error e =>
        rw [hacc] at h
        cases h
      | ok acc1 =>
        rw [hacc] at h
        simp only at h
        obtain ⟨r1, r2⟩ := scanAccounts_ok core
          (⟨height, blockHash, txPos, txHash, k, vout.Script⟩ : LedgerOutput)
          (core.Fingerprint coinAddress) accounts 0 [] acc acc1 rfl hlen hacc
        have hfun : (fun (c : List Coin) (a : DemoAccount) =>
            c ++ (if core.Fingerprint coinAddress = a.Fingerprint then
              [coinFor core a (⟨height, blockHash, txPos, txHash, k, vout.Script⟩ :
                LedgerOutput)] else []))
            = (fun c a => c ++ expectedCoins core a
              [(⟨height, blockHash, txPos, txHash, k, vout.Script⟩ : LedgerOutput)]) := by
          funext c a
          exact congrArg (fun l => c ++ l) (hit_eq_expectedCoins core a
            (⟨height, blockHash, txPos, txHash, k, vout.Script⟩ : LedgerOutput)
            coinAddress hdec)
        rw [List.nil_append, hfun] at r1
        have hlen1 : acc1.length = accounts.length := by
          rw [r1]
          exact length_zipWith_coins _ acc accounts hlen
        obtain ⟨s1, s2⟩ := ih (k + 1) acc1 acc2 hlen1 h
        refine ⟨?_, ?_⟩
        · rw [s1, r1, zipWith_append_append]
          simp only [voutOutputs]
          congr 1
          funext c a
          rw [← expectedCoins_append]
          rfl
        · intro o ho
          simp only [voutOutputs, List.mem_cons] at ho
          rcases ho with rfl | ho
          · refine ⟨⟨coinAddress, hdec⟩, ?_⟩
            intro a ha hm
            apply r2 a ha
            simp only [fingerprintMatches, LedgerOutput.voutData, hdec, decide_eq_true_eq] at hm
            exact hm
          · exact s2 o ho

theorem scanTxs_ok (client : AbecRPCClient) (core : Core) (accounts : List DemoAccount)
    (height : Int) (blockHash : String) (hashes : List String) :
    ∀ (p : Nat) (acc acc2 : List (List Coin)), acc.length = accounts.length →
      scanTxs client core accounts height blockHash hashes acc = .ok acc2 →
      acc2 = List.zipWith (fun c a => c ++ expectedCoins core a
          (txOutputs client height blockHash p hashes)) acc accounts ∧
      ∀ o ∈ txOutputs client height blockHash p hashes, DecodesWell core accounts o := by
  induction hashes with
  | nil =>
    intro p acc acc2 hlen h
    simp only [scanTxs] at h
    cases h
    refine ⟨?_, ?_⟩
    · simp only [txOutputs, expectedCoins_nil]
      exact (zipWith_append_nil acc accounts hlen).symm
    · intro o ho
      simp [txOutputs] at ho
  | cons txHash rest ih =>
    intro p acc acc2 hlen h
    unfold scanTxs at h
    cases htx : client.GetRawTx txHash with
    | error e =>
      rw [htx] at h
      cases h
    | ok tx =>
      rw [htx] at h
      simp only at h
      cases hv : scanVouts core accounts height blockHash txHash 0 tx.Vout acc with
      | error e =>
        rw [hv] at h
        cases h
      | ok acc1 =>
        rw [hv] at h
        simp only at h
        obtain ⟨r1, r2⟩ := scanVouts_ok core accounts height blockHash p txHash tx.Vout 0
          acc acc1 hlen hv
        have hlen1 : acc1.length = accounts.length := by
          rw [r1]
          exact length_zipWith_coins _ acc accounts hlen
        obtain ⟨s1, s2⟩ := ih (p + 1) acc1 acc2 hlen1 h
        refine ⟨?_, ?_⟩
        · rw [s1, r1, zipWith_append_append]
          simp only [txOutputs, htx]
          congr 1
          funext c a
          rw [← expectedCoins_append]
        · intro o ho
          simp only [txOutputs, htx, List.mem_append] at ho
          rcases ho with ho | ho
          · exact r2 o ho
          · exact s2 o ho

theorem scanHeights_ok (client : AbecRPCClient) (core : Core) (accounts : List DemoAccount)
    (heights : List Int) :
    ∀ (acc acc2 : List (List Coin)), acc.length = accounts.length →
      scanHeights client core accounts heights acc = .ok acc2 →
      acc2 = List.zipWith (fun c a => c ++ expectedCoins core a
          (ledgerOutputs client heights)) acc accounts ∧
      ∀ o ∈ ledgerOutputs client heights, DecodesWell core accounts o := by
  induction heights with
  | nil =>
    intro acc acc2 hlen h
    simp only [scanHeights] at h
    cases h
    refine ⟨?_, ?_⟩
    · simp only [ledgerOutputs, expectedCoins_nil]
      exact (zipWith_append_nil acc accounts hlen).symm
    · intro o ho
      simp [ledgerOutputs] at ho
  | cons height rest ih =>
    intro acc acc2 hlen h
    unfold scanHeights at h
    cases hbh : client.GetBlockHash height with
    | error e =>
      rw [hbh] at h
      cases h
    | ok blockHash =>
      rw [hbh] at h
      simp only at h
      cases hb : client.GetBlock blockHash with
      | error e =>
        rw [hb] at h
        cases h
      | ok block =>
        rw [hb] at h
        simp only at h
        cases ht : scanTxs client core accounts height blockHash block.TxHashes acc with
        | error e =>
          rw [ht] at h
          cases h
        | ok acc1 =>
          rw [ht] at h
          simp only at h
          obtain ⟨r1, r2⟩ := scanTxs_ok client core accounts height blockHash block.TxHashes 0
            acc acc1 hlen ht
          have hlen1 : acc1.length = accounts.length := by
            rw [r1]
            exact length_zipWith_coins _ acc accounts hlen
          obtain ⟨s1, s2⟩ := ih acc1 acc2 hlen1 h
          refine ⟨?_, ?_⟩
          · rw [s1, r1, zipWith_append_append]
            simp only [ledgerOutputs, blockOutputs, hbh, hb]
            congr 1
            funext c a
            rw [← expectedCoins_append]
          · intro o ho
            simp only [ledgerOutputs, blockOutputs, hbh, hb, List.mem_append] at ho
            rcases ho with ho | ho
            · exact r2 o ho
            · exact s2 o ho

theorem scanTxs_served (client : AbecRPCClient) (core : Core) (accounts : List DemoAccount)
    (height : Int) (blockHash : String) (hashes : List String) :
    ∀ (acc acc2 : List (List Coin)),
      scanTxs client core accounts height blockHash hashes acc = .ok acc2 →
      ∀ txHash ∈ hashes, ∃ tx, client.GetRawTx txHash = .ok tx := by
  induction hashes with
  | nil =>
    intro acc acc2 _ t ht
    cases ht
  | cons txHash rest ih =>
    intro acc acc2 h t ht
    unfold scanTxs at h
    cases htx : client.GetRawTx txHash with
    | error e =>
      rw [htx] at h
      cases h
    | ok tx =>
      rw [htx] at h
      simp only at h
      cases hv : scanVouts core accounts height blockHash txHash 0 tx.Vout acc with
      | error e =>
        rw [hv] at h
        cases h
      | ok acc1 =>
        rw [hv] at h
        simp only at h
        rcases List.mem_cons.mp ht with rfl | ht2
        · exact ⟨tx, htx⟩
        · exact ih acc1 acc2 h t ht2

theorem scanHeights_served (client : AbecRPCClient) (core : Core)
    (accounts : List DemoAccount) (heights : List Int) :
    ∀ (acc acc2 : List (List Coin)),
      scanHeights client core accounts heights acc = .ok acc2 →
      RangeServed client heights := by
  induction heights with
  | nil =>
    intro acc acc2 _ x hx
    cases hx
  | cons height rest ih =>
    intro acc acc2 h x hx
    unfold scanHeights at h
    cases hbh : client.GetBlockHash height with
    | error e =>
      rw [hbh] at h
      cases h
    | ok blockHash =>
      rw [hbh] at h
      simp only at h
      cases hb : client.GetBlock blockHash with
      | error e =>
        rw [hb] at h
        cases h
      | ok block =>
        rw [hb] at h
        simp only at h
        cases ht : scanTxs client core accounts height blockHash block.TxHashes acc with
        | error e =>
          rw [ht] at h
          cases h
        | ok acc1 =>
          rw [ht] at h
          simp only at h
          rcases List.mem_cons.mp hx with rfl | hx2
          · exact ⟨blockHash, block, hbh, hb,
              scanTxs_served client core accounts x blockHash block.TxHashes acc acc1 ht⟩
          · exact ih acc1 acc2 h x hx2

/-- A successful scan returns, for every tracked account, the coins of that account among
the outputs of the height range, and every output of the range decodes well. -/
theorem scanCoins_ok (client : AbecRPCClient) (core : Core) (accounts : List DemoAccount)
    (b e : Int) (accountCoins : List (List Coin))
    (h : scanCoins client core accounts b e = .ok accountCoins) :
    accountCoins = accounts.map (fun a =>
        expectedCoins core a (ledgerOutputs client (heightRange b e))) ∧
    ∀ o ∈ ledgerOutputs client (heightRange b e), DecodesWell core accounts o := by
  obtain ⟨r1, r2⟩ := scanHeights_ok client core accounts (heightRange b e)
    (List.replicate accounts.length []) accountCoins (by simp) h
  refine ⟨?_, r2⟩
  rw [r1]
  have e1 : (fun (c : List Coin) (a : DemoAccount) =>
      c ++ expectedCoins core a (ledgerOutputs client (heightRange b e)))
      = (fun c a => c ++ (fun a => expectedCoins core a
          (ledgerOutputs client (heightRange b e))) a) := rfl
  rw [e1, zipWith_replicate_nil]

/-! ## Positions of the outputs of a height range -/

theorem mem_voutOutputs (height : Int) (blockHash : String) (txPos : Nat) (txHash : String)
    (vouts : List TxVout) :
    ∀ (k : Nat), ∀ o ∈ voutOutputs height blockHash txPos txHash k vouts,
      o.height = height ∧ o.txPos = txPos ∧ k ≤ o.txIndex := by
  induction vouts with
  | nil =>
    intro k o ho
    simp [voutOutputs] at ho
  | cons v rest ih =>
    intro k o ho
    simp only [voutOutputs, List.mem_cons] at ho
    rcases ho with rfl | ho
    · exact ⟨rfl, rfl, Nat.le_refl _⟩
    · obtain ⟨h1, h2, h3⟩ := ih (k + 1) o ho
      exact ⟨h1, h2, by omega⟩

theorem nodup_voutOutputs (height : Int) (blockHash : String) (txPos : Nat) (txHash : String)
    (vouts : List TxVout) :
    ∀ (k : Nat), ((voutOutputs height blockHash txPos txHash k vouts).map
      LedgerOutput.position).Nodup := by
  induction vouts with
  | nil =>
    intro k
    simp [voutOutputs]
  | cons v rest ih =>
    intro k
    simp only [voutOutputs, List.map_cons, List.nodup_cons]
    refine ⟨?_, ih (k + 1)⟩
    intro hmem
    obtain ⟨o, ho, hpos⟩ := List.mem_map.mp hmem
    obtain ⟨_, _, h3⟩ := mem_voutOutputs height blockHash txPos txHash rest (k + 1) o ho
    simp only [LedgerOutput.position, Prod.mk.injEq] at hpos
    omega

theorem mem_txOutputs (client : AbecRPCClient) (height : Int) (blockHash : String)
    (hashes : List String) :
    ∀ (p : Nat), ∀ o ∈ txOutputs client height blockHash p hashes,
      o.height = height ∧ p ≤ o.txPos := by
  induction hashes with
  | nil =>
    intro p o ho
    simp [txOutputs] at ho
  | cons t rest ih =>
    intro p o ho
    simp only [txOutputs, List.mem_append] at ho
    rcases ho with ho | ho
    · cases htx : client.GetRawTx t with
      | error e =>
        rw [htx] at ho
        simp at ho
      | ok tx =>
        rw [htx] at ho
        obtain ⟨h1, h2, _⟩ := mem_voutOutputs height blockHash p t tx.Vout 0 o ho
        exact ⟨h1, by omega⟩
    · obtain ⟨h1, h2⟩ := ih (p + 1) o ho
      exact ⟨h1, by omega⟩

theorem nodup_txOutputs (client : AbecRPCClient) (height : Int) (blockHash : String)
    (hashes : List String) :
    ∀ (p : Nat), ((txOutputs client height blockHash p hashes).map
      LedgerOutput.position).Nodup := by
  induction hashes with
  | nil =>
    intro p
    simp [txOutputs]
  | cons t rest ih =>
    intro p
    simp only [txOutputs, List.map_append]
    rw [List.nodup_append]
    refine ⟨?_, ih (p + 1), ?_⟩
    · cases htx : client.GetRawTx t with
      | error e => simp
      | ok tx => exact nodup_voutOutputs height blockHash p t tx.Vout 0
    · intro x hx1 hx2
      obtain ⟨o1, ho1, hp1⟩ := List.mem_map.mp hx1
      obtain ⟨o2, ho2, hp2⟩ := List.mem_map.mp hx2
      obtain ⟨_, h2⟩ := mem_txOutputs client height blockHash rest (p + 1) o2 ho2
      have h1 : o1.txPos = p := by
        cases htx : client.GetRawTx t with
        | error e =>
          rw [htx] at ho1
          simp at ho1
        | ok tx =>
          rw [htx] at ho1
          exact (mem_voutOutputs height blockHash p t tx.Vout 0 o1 ho1).2.1
      rw [← hp2] at hp1
      simp only [LedgerOutput.position, Prod.mk.injEq] at hp1
      omega

theorem blockOutputs_facts (client : AbecRPCClient) (hgt : Int) :
    (∀ o ∈ blockOutputs client hgt, o.height = hgt) ∧
    ((blockOutputs client hgt).map LedgerOutput.position).Nodup := by
  unfold blockOutputs
  cases hbh : client.GetBlockHash hgt with
  | error e => simp
  | ok blockHash =>
    simp only
    cases hb : client.GetBlock blockHash with
    | error e => simp
    | ok block =>
      simp only
      exact ⟨fun o ho => (mem_txOutputs client hgt blockHash block.TxHashes 0 o ho).1,
        nodup_txOutputs client hgt blockHash block.TxHashes 0⟩

theorem mem_ledgerOutputs (client : AbecRPCClient) (heights : List Int) :
    ∀ o ∈ ledgerOutputs client heights, o.height ∈ heights := by
  induction heights with
  | nil =>
    intro o ho
    simp [ledgerOutputs] at ho
  | cons hgt rest ih =>
    intro o ho
    simp only [ledgerOutputs, List.mem_append] at ho
    rcases ho with ho | ho
    · rw [(blockOutputs_facts client hgt).1 o ho]
      exact List.mem_cons_self _ _
    · exact List.mem_cons_of_mem _ (ih o ho)

theorem nodup_ledgerOutputs (client : AbecRPCClient) (heights : List Int)
    (hn : heights.Nodup) :
    ((ledgerOutputs client heights).map LedgerOutput.position).Nodup := by
  induction heights with
  | nil => simp [ledgerOutputs]
  | cons hgt rest ih =>
    obtain ⟨hnot, hrest⟩ := List.nodup_cons.mp hn
    simp only [ledgerOutputs, List.map_append]
    rw [List.nodup_append]
    refine ⟨(blockOutputs_facts client hgt).2, ih hrest, ?_⟩
    intro x hx1 hx2
    obtain ⟨o1, ho1, hp1⟩ := List.mem_map.mp hx1
    obtain ⟨o2, ho2, hp2⟩ := List.mem_map.mp hx2
    have h2 := mem_ledgerOutputs client rest o2 ho2
    have h1 : o1.height = hgt := (blockOutputs_facts client hgt).1 o1 ho1
    rw [← hp2] at hp1
    simp only [LedgerOutput.position, Prod.mk.injEq] at hp1
    apply hnot
    rw [← h1, hp1.1]
    exact h2

theorem nodup_heightRange (b e : Int) : (heightRange b e).Nodup := by
  unfold heightRange
  apply List.Nodup.map _ (List.nodup_range _)
  intro x y hxy
  simp only at hxy
  omega

theorem nodup_map_of_nodup_map {α β γ : Type} (f : α → β) (g : α → γ) (l : List α)
    (hf : (l.map f).Nodup) (hfg : ∀ x ∈ l, ∀ y ∈ l, g x = g y → f x = f y) :
    (l.map g).Nodup := by
  induction l with
  | nil => simp
  | cons x rest ih =>
    simp only [List.map_cons, List.nodup_cons] at hf ⊢
    refine ⟨?_, ih hf.2 (fun a ha c hc => hfg a (List.mem_cons_of_mem _ ha) c
      (List.mem_cons_of_mem _ hc))⟩
    intro hmem
    obtain ⟨y, hy, hgy⟩ := List.mem_map.mp hmem
    apply hf.1
    have := hfg x (List.mem_cons_self _ _) y (List.mem_cons_of_mem _ hy) hgy.symm
    rw [this]
    exact List.mem_map.mpr ⟨y, hy, rfl⟩

theorem fingerprint_eq_of_matches (core : Core) (a1 a2 : DemoAccount) (o : LedgerOutput)
    (h1 : fingerprintMatches core a1 o = true) (h2 : fingerprintMatches core a2 o = true) :
    a1.Fingerprint = a2.Fingerprint := by
  unfold fingerprintMatches at h1 h2
  cases hdec : core.DecodeCoinAddressFromTxOutData (o.voutData core) with
  | error e =>
    rw [hdec] at h1
    cases h1
  | ok coinAddress =>
    rw [hdec] at h1 h2
    simp only [decide_eq_true_eq] at h1 h2
    rw [← h1, ← h2]

theorem nodup_expected_ids (core : Core) (outs : List LedgerOutput)
    (hid : (outs.map (coinIDFor core)).Nodup) (accounts : List DemoAccount)
    (hfp : (accounts.map (fun a => a.Fingerprint)).Nodup) :
    (((accounts.map (fun a => expectedCoins core a outs)).flatten).map
      (fun c => c.ID)).Nodup := by
  induction accounts with
  | nil => simp
  | cons a rest ih =>
    obtain ⟨hnot, hrest⟩ := List.nodup_cons.mp hfp
    simp only [List.map_cons, List.flatten_cons, List.map_append]
    have hids : ∀ (a2 : DemoAccount), (expectedCoins core a2 outs).map (fun c => c.ID)
        = (outs.filter (fun o => fingerprintMatches core a2 o)).map (coinIDFor core) := by
      intro a2
      simp only [expectedCoins, List.map_map]
      rfl
    rw [List.nodup_append]
    refine ⟨?_, ih hrest, ?_⟩
    · rw [hids]
      exact List.Nodup.sublist (List.Sublist.map _ (List.filter_sublist _)) hid
    · intro x hx1 hx2
      rw [hids] at hx1
      obtain ⟨o1, ho1, hx1⟩ := List.mem_map.mp hx1
      obtain ⟨c, hc, hcx⟩ := List.mem_map.mp hx2
      obtain ⟨l, hl, hcl⟩ := List.mem_flatten.mp hc
      obtain ⟨a2, ha2, rfl⟩ := List.mem_map.mp hl
      have hx3 : x ∈ (expectedCoins core a2 outs).map (fun c => c.ID) :=
        List.mem_map.mpr ⟨c, hcl, hcx⟩
      rw [hids] at hx3
      obtain ⟨o2, ho2, hx2⟩ := List.mem_map.mp hx3
      obtain ⟨m1, f1⟩ := List.mem_filter.mp ho1
      obtain ⟨m2, f2⟩ := List.mem_filter.mp ho2
      have hoo : o1 = o2 := List.inj_on_of_nodup_map hid m1 m2 (hx1.trans hx2.symm)
      subst hoo
      apply hnot
      show a.Fingerprint ∈ List.map (fun a => a.Fingerprint) rest
      rw [fingerprint_eq_of_matches core a a2 o1 f1 f2]
      exact List.mem_map.mpr ⟨a2, ha2, rfl⟩

/-! ## C7: uniqueness of coin identifiers -/

/-- C7 (as stated, refuted): the same account listed twice among the tracked accounts. The
scan of height 3 returns one coin in each of the two lists, and both coins have the same
`CoinID`. -/
theorem coinID_shared_by_duplicate_account :
    ¬ ∀ (client : AbecRPCClient) (core : Core) (accounts : List DemoAccount) (b e : Int)
        (accountCoins : List (List Coin)),
        scanCoins client core accounts b e = .ok accountCoins →
        (accountCoins.flatten.map (fun c => c.ID)).Nodup := by
  intro h
  have h1 := h exLedger exScanCore [exAccount 97 1, exAccount 97 1] 3 3
    [[coinFor exScanCore (exAccount 97 1) (exOutput 3 0 "a")],
     [coinFor exScanCore (exAccount 97 1) (exOutput 3 0 "a")]] (by decide)
  revert h1
  decide

/-- C7 (amended): if the tracked accounts have pairwise distinct fingerprints, every decoded
transaction hash of the scanned range belongs to a single transaction position (height and
position in the block), and every output index of the range is below 256, then no two coins
returned by a successful scan, across all per-account lists, have the same `CoinID`. -/
theorem coinID_unique (client : AbecRPCClient) (core : Core) (accounts : List DemoAccount)
    (b e : Int) (accountCoins : List (List Coin))
    (h : scanCoins client core accounts b e = .ok accountCoins)
    (hfp : (accounts.map (fun a => a.Fingerprint)).Nodup)
    (hhash : ∀ o1 ∈ ledgerOutputs client (heightRange b e),
      ∀ o2 ∈ ledgerOutputs client (heightRange b e),
        core.MakeBytesFromHexString o1.txHash = core.MakeBytesFromHexString o2.txHash →
        o1.height = o2.height ∧ o1.txPos = o2.txPos)
    (hidx : ∀ o ∈ ledgerOutputs client (heightRange b e), o.txIndex < 256) :
    (accountCoins.flatten.map (fun c => c.ID)).Nodup := by
  obtain ⟨r1, _⟩ := scanCoins_ok client core accounts b e accountCoins h
  rw [r1]
  apply nodup_expected_ids core _ _ accounts hfp
  apply nodup_map_of_nodup_map LedgerOutput.position (coinIDFor core) _
    (nodup_ledgerOutputs client _ (nodup_heightRange b e))
  intro x hx y hy hxy
  simp only [coinIDFor, CoinID.mk.injEq] at hxy
  obtain ⟨hh, hp⟩ := hhash x hx y hy hxy.1
  have hi : x.txIndex = y.txIndex := by
    have e1 := Nat.mod_eq_of_lt (hidx x hx)
    have e2 := Nat.mod_eq_of_lt (hidx y hy)
    omega
  simp only [LedgerOutput.position, hh, hp, hi]

/-- Instance of `coinID_unique`: the scan of height 3 of the example ledger for the accounts
with fingerprints 97 and 98. -/
theorem coinID_unique_witness :
    (([[coinFor exScanCore (exAccount 97 1) (exOutput 3 0 "a")],
       [coinFor exScanCore (exAccount 98 2) (exOutput 3 1 "b")]] : List (List Coin)).flatten.map
      (fun c => c.ID)).Nodup :=
  coinID_unique exLedger exScanCore [exAccount 97 1, exAccount 98 2] 3 3
    [[coinFor exScanCore (exAccount 97 1) (exOutput 3 0 "a")],
     [coinFor exScanCore (exAccount 98 2) (exOutput 3 1 "b")]]
    (by decide) (by decide) (by decide) (by decide)

/-! ## C8: exact fingerprint matching -/

/-- C8: in a successful scan the ledger has served every block and transaction of the
height range, and the coin list of tracked account `i` is exactly the list of
coins built from the outputs of the height range whose decoded fingerprint equals the
fingerprint of account `i`, one coin per such output in processing order (so an output has
a coin in the list, exactly once, if and only if the fingerprints are equal). The
fingerprint of every output of the range decodes, the match is byte-for-byte equality with
the account fingerprint, and for a matching output the coin carries the value decrypted
with the view key of account `i`, the payload of the output and the height scanned. -/
theorem exact_fingerprint_matching (client : AbecRPCClient) (core : Core)
    (accounts : List DemoAccount) (b e : Int) (accountCoins : List (List Coin))
    (h : scanCoins client core accounts b e = .ok accountCoins) :
    RangeServed client (heightRange b e) ∧
    accountCoins.length = accounts.length ∧
    ∀ (i : Nat) (a : DemoAccount), accounts[i]? = some a →
      accountCoins[i]? = some
        (((ledgerOutputs client (heightRange b e)).filter
          (fun o => fingerprintMatches core a o)).map (coinFor core a)) ∧
      ∀ o ∈ ledgerOutputs client (heightRange b e),
        (∃ coinAddress,
          core.DecodeCoinAddressFromTxOutData (o.voutData core) = .ok coinAddress ∧
          (fingerprintMatches core a o = true ↔
            core.Fingerprint coinAddress = a.Fingerprint)) ∧
        (fingerprintMatches core a o = true →
          core.DecodeValueFromTxOutData (o.voutData core) a.ViewSecretKey
            = .ok (coinFor core a o).Value ∧
          (coinFor core a o).TxVoutData = o.voutData core ∧
          (coinFor core a o).BlockHeight = o.height) := by
  obtain ⟨r1, r2⟩ := scanCoins_ok client core accounts b e accountCoins h
  refine ⟨scanHeights_served client core accounts _ _ _ h, by rw [r1, List.length_map], ?_⟩
  intro i a hia
  refine ⟨?_, ?_⟩
  · rw [r1, List.getElem?_map, hia]
    rfl
  · intro o ho
    obtain ⟨⟨coinAddress, hdec⟩, hval⟩ := r2 o ho
    have ha : a ∈ accounts := List.mem_iff_getElem?.mpr ⟨i, hia⟩
    refine ⟨⟨coinAddress, hdec, ?_⟩, ?_⟩
    · simp [fingerprintMatches, hdec]
    · intro hm
      obtain ⟨v, hv⟩ := hval a ha hm
      refine ⟨?_, rfl, rfl⟩
      simp [coinFor, mkCoin, decryptedValue, hv]

/-- Instance of `exact_fingerprint_matching`: the scan of heights 3 to 4 of the example
ledger for the accounts with fingerprints 97 and 98. The first account owns the outputs
with script `"a"`, the second those with script `"b"`. -/
theorem exact_fingerprint_matching_witness :
    (some [coinFor exScanCore (exAccount 98 2) (exOutput 3 1 "b"),
           coinFor exScanCore (exAccount 98 2) (exOutput 4 1 "b")] : Option (List Coin))
      = some (((ledgerOutputs exLedger (heightRange 3 4)).filter
          (fun o => fingerprintMatches exScanCore (exAccount 98 2) o)).map
            (coinFor exScanCore (exAccount 98 2))) :=
  ((exact_fingerprint_matching exLedger exScanCore [exAccount 97 1, exAccount 98 2] 3 4
    [[coinFor exScanCore (exAccount 97 1) (exOutput 3 0 "a"),
      coinFor exScanCore (exAccount 97 1) (exOutput 4 0 "a")],
     [coinFor exScanCore (exAccount 98 2) (exOutput 3 1 "b"),
      coinFor exScanCore (exAccount 98 2) (exOutput 4 1 "b")]]
    (by decide)).2.2 1 (exAccount 98 2) (by decide)).1

/-! ## C9: fingerprint collisions -/

/-- C9 (as stated, refuted): two tracked accounts with the same fingerprint 97 and different
keys. The scan of height 3 succeeds, and the coin for the output with script `"a"` is
appended to the lists of both accounts. -/
theorem fingerprint_collision_not_reported :
    (exAccount 97 1).Fingerprint = (exAccount 97 2).Fingerprint ∧
    scanCoins exLedger exScanCore [exAccount 97 1, exAccount 97 2] 3 3
      = .ok [[coinFor exScanCore (exAccount 97 1) (exOutput 3 0 "a")],
             [coinFor exScanCore (exAccount 97 2) (exOutput 3 0 "a")]] := by
  decide

/-- C9 (amended): a fingerprint collision is not reported. In a successful scan, for every
output of the height range and every tracked account whose fingerprint equals the
fingerprint decoded from the output, the coin list of that account contains the coin of the
account for that output, however many tracked accounts match. -/
theorem fingerprint_collision_appends_to_all (client : AbecRPCClient) (core : Core)
    (accounts : List DemoAccount) (b e : Int) (accountCoins : List (List Coin))
    (h : scanCoins client core accounts b e = .ok accountCoins) :
    ∀ o ∈ ledgerOutputs client (heightRange b e),
      ∀ (i : Nat) (a : DemoAccount), accounts[i]? = some a →
        fingerprintMatches core a o = true →
        ∃ coins, accountCoins[i]? = some coins ∧ coinFor core a o ∈ coins := by
  obtain ⟨r1, _⟩ := scanCoins_ok client core accounts b e accountCoins h
  intro o ho i a hia hm
  refine ⟨expectedCoins core a (ledgerOutputs client (heightRange b e)), ?_, ?_⟩
  · rw [r1, List.getElem?_map, hia]
    rfl
  · unfold expectedCoins
    exact List.mem_map.mpr ⟨o, List.mem_filter.mpr ⟨ho, hm⟩, rfl⟩

/-- Instance of `fingerprint_collision_appends_to_all`: the second of two accounts with
fingerprint 97 has the coin for the output with script `"a"`. -/
theorem fingerprint_collision_appends_to_all_witness :
    ∃ coins,
      ([[coinFor exScanCore (exAccount 97 1) (exOutput 3 0 "a")],
        [coinFor exScanCore (exAccount 97 2) (exOutput 3 0 "a")]] : List (List Coin))[1]?
        = some coins ∧
      coinFor exScanCore (exAccount 97 2) (exOutput 3 0 "a") ∈ coins :=
  fingerprint_collision_appends_to_all exLedger exScanCore [exAccount 97 1, exAccount 97 2]
    3 3 _ (by decide) (exOutput 3 0 "a") (by decide) 1 (exAccount 97 2) (by decide)
    (by decide)

/-! ## C10: malformed payloads -/

/-- C10: if the owner fingerprint of some output of the height range fails to decode
(whether or not a tracked account would match), or the value of an output whose fingerprint
matches a tracked account fails to decrypt with the view key of that account, the scan
returns an error and no coin list. -/
theorem malformed_payload_aborts (client : AbecRPCClient) (core : Core)
    (accounts : List DemoAccount) (b e : Int)
    (hbad :
      (∃ o ∈ ledgerOutputs client (heightRange b e), ∃ err,
        core.DecodeCoinAddressFromTxOutData (o.voutData core) = .error err) ∨
      (∃ o ∈ ledgerOutputs client (heightRange b e), ∃ a ∈ accounts,
        fingerprintMatches core a o = true ∧ ∃ err,
          core.DecodeValueFromTxOutData (o.voutData core) a.ViewSecretKey = .error err)) :
    ∃ err, scanCoins client core accounts b e = .error err := by
  cases hs : scanCoins client core accounts b e with
  | error err => exact ⟨err, rfl⟩
  | ok accountCoins =>
    exfalso
    obtain ⟨_, r2⟩ := scanCoins_ok client core accounts b e accountCoins hs
    rcases hbad with ⟨o, ho, err, herr⟩ | ⟨o, ho, a, ha, hm, err, herr⟩
    · obtain ⟨⟨coinAddress, hdec⟩, _⟩ := r2 o ho
      rw [hdec] at herr
      cases herr
    · obtain ⟨v, hv⟩ := (r2 o ho).2 a ha hm
      rw [hv] at herr
      cases herr

/-- Instance of `malformed_payload_aborts`: an output with an empty script does not decode
and aborts the scan although no account is tracked. -/
theorem malformed_payload_aborts_witness :
    ∃ err, scanCoins (exLedgerWith ["a", ""]) exScanCore [] 3 3 = .error err :=
  malformed_payload_aborts (exLedgerWith ["a", ""]) exScanCore [] 3 3
    (Or.inl ⟨exOutput 3 1 "", by decide, "malformed", by decide⟩)

/-! ## C11: fail-fast on fetch failure -/

theorem failFast_nil {κ α : Type} (failed : κ → Bool) (result : Except Err α) :
    FailFast failed [] result := by
  intro pre c post h _
  cases pre <;> cases h

theorem failFast_cons {κ α : Type} (failed : κ → Bool) (c0 : κ) (calls : List κ)
    (result : Except Err α) (h0 : failed c0 = false) (h : FailFast failed calls result) :
    FailFast failed (c0 :: calls) result := by
  intro pre c post heq hf
  cases pre with
  | nil =>
    simp only [List.nil_append, List.cons.injEq] at heq
    rw [← heq.1, h0] at hf
    cases hf
  | cons p pre2 =>
    simp only [List.cons_append, List.cons.injEq] at heq
    exact h pre2 c post heq.2 hf

theorem failFast_single {κ α : Type} (failed : κ → Bool) (c0 : κ) (e : Err) :
    FailFast failed [c0] (.error e : Except Err α) := by
  intro pre c post heq _
  cases pre with
  | nil =>
    simp only [List.nil_append, List.cons.injEq] at heq
    exact ⟨heq.2.symm, e, rfl⟩
  | cons p pre2 =>
    simp only [List.cons_append, List.cons.injEq] at heq
    cases pre2 <;> cases heq.2

theorem failFast_append {κ α : Type} (failed : κ → Bool) (calls1 calls2 : List κ)
    (result : Except Err α) (h1 : ∀ c ∈ calls1, failed c = false)
    (h2 : FailFast failed calls2 result) : FailFast failed (calls1 ++ calls2) result := by
  induction calls1 with
  | nil => exact h2
  | cons c rest ih =>
    exact failFast_cons failed c _ result (h1 c (List.mem_cons_self _ _))
      (ih (fun d hd => h1 d (List.mem_cons_of_mem _ hd)))

theorem failFast_ok_all {κ α : Type} (failed : κ → Bool) (calls : List κ) (a : α)
    (h : FailFast failed calls (.ok a : Except Err α)) : ∀ c ∈ calls, failed c = false := by
  intro c hc
  obtain ⟨pre, post, heq⟩ := List.append_of_mem hc
  cases hf : failed c with
  | false => rfl
  | true =>
    obtain ⟨_, err, herr⟩ := h pre c post heq hf
    cases herr

theorem scanTxsTraced_facts (client : AbecRPCClient) (core : Core)
    (accounts : List DemoAccount) (height : Int) (blockHash : String)
    (hashes : List String) :
    ∀ (acc : List (List Coin)),
      (scanTxsTraced client core accounts height blockHash hashes acc).2
        = scanTxs client core accounts height blockHash hashes acc ∧
      FailFast (LedgerCall.failed client)
        (scanTxsTraced client core accounts height blockHash hashes acc).1
        (scanTxsTraced client core accounts height blockHash hashes acc).2 := by
  induction hashes with
  | nil =>
    intro acc
    exact ⟨rfl, failFast_nil _ _⟩
  | cons t rest ih =>
    intro acc
    unfold scanTxsTraced scanTxs
    cases htx : client.GetRawTx t with
    | error e => exact ⟨rfl, failFast_single _ _ e⟩
    | ok tx =>
      simp only
      have hok : LedgerCall.failed client (.getRawTx t) = false := by
        simp [LedgerCall.failed, htx]
      cases hv : scanVouts core accounts height blockHash t 0 tx.Vout acc with
      | error e =>
        refine ⟨rfl, ?_⟩
        intro pre c post heq hf
        cases pre with
        | nil =>
          simp only [List.nil_append, List.cons.injEq] at heq
          rw [← heq.1, hok] at hf
          cases hf
        | cons p pre2 =>
          simp only [List.cons_append, List.cons.injEq] at heq
          cases pre2 <;> cases heq.2
      | ok acc2 =>
        simp only
        exact ⟨(ih acc2).1, failFast_cons _ _ _ _ hok (ih acc2).2⟩

theorem scanHeightsTraced_facts (client : AbecRPCClient) (core : Core)
    (accounts : List DemoAccount) (heights : List Int) :
    ∀ (acc : List (List Coin)),
      (scanHeightsTraced client core accounts heights acc).2
        = scanHeights client core accounts heights acc ∧
      FailFast (LedgerCall.failed client)
        (scanHeightsTraced client core accounts heights acc).1
        (scanHeightsTraced client core accounts heights acc).2 := by
  induction heights with
  | nil =>
    intro acc
    exact ⟨rfl, failFast_nil _ _⟩
  | cons hgt rest ih =>
    intro acc
    unfold scanHeightsTraced scanHeights
    cases hbh : client.GetBlockHash hgt with
    | error e => exact ⟨rfl, failFast_single _ _ e⟩
    | ok blockHash =>
      simp only
      have hok1 : LedgerCall.failed client (.getBlockHash hgt) = false := by
        simp [LedgerCall.failed, hbh]
      cases hb : client.GetBlock blockHash with
      | error e =>
        exact ⟨rfl, failFast_cons _ _ _ _ hok1 (failFast_single _ _ e)⟩
      | ok block =>
        simp only
        have hok2 : LedgerCall.failed client (.getBlock blockHash) = false := by
          simp [LedgerCall.failed, hb]
        obtain ⟨t1, t2⟩ := scanTxsTraced_facts client core accounts hgt blockHash
          block.TxHashes acc
        rw [← t1]
        cases hr : (scanTxsTraced client core accounts hgt blockHash block.TxHashes acc).2 with
        | error e =>
          simp only
          rw [hr] at t2
          exact ⟨trivial, failFast_cons _ _ _ _ hok1 (failFast_cons _ _ _ _ hok2 t2)⟩
        | ok acc2 =>
          simp only
          rw [hr] at t2
          refine ⟨(ih acc2).1, ?_⟩
          exact failFast_cons _ _ _ _ hok1 (failFast_cons _ _ _ _ hok2
            (failFast_append _ _ _ _ (failFast_ok_all _ _ acc2 t2) (ih acc2).2))

theorem fetchRingBlocks_failFast (client : AbecRPCClient) (hs : List Int) :
    ∀ (req : List Int) (m : RingBlockMap), (∀ h ∈ req, blockBytesFailed client h = false) →
      FailFast (blockBytesFailed client) (fetchRingBlocks client hs req m).1
        (fetchRingBlocks client hs req m).2 := by
  induction hs with
  | nil =>
    intro req m hreq pre c post heq hf
    simp only [fetchRingBlocks] at heq
    have hc : c ∈ req := by
      rw [heq]
      simp
    rw [hreq c hc] at hf
    cases hf
  | cons h rest ih =>
    intro req m hreq
    unfold fetchRingBlocks
    cases hb : client.GetBlockBytesByHeight h with
    | error e =>
      simp only
      have hff : FailFast (blockBytesFailed client) ([] ++ [h])
          (.error e : Except Err RingBlockMap) := failFast_single _ _ e
      have := failFast_append (blockBytesFailed client) req [h]
        (.error e : Except Err RingBlockMap) hreq (failFast_single _ _ e)
      exact this
    | ok b =>
      simp only
      apply ih
      intro x hx
      rcases List.mem_append.mp hx with hx1 | hx2
      · exact hreq x hx1
      · rw [List.mem_singleton] at hx2
        subst hx2
        simp [blockBytesFailed, hb]

/-- C11: the coin scan and the ring-block collections are fail-fast. A ledger call
(`GetBlockHash`, `GetBlock`, `GetRawTx` during the scan, `GetBlockBytesByHeight` during a
ring-block collection) that fails is the last ledger call issued, so it is not retried and
nothing is fetched after it, and the scan or collection ends with an error instead of coins
or a ring-block map. A failed scan or a failed ring-block collection makes
`DemoSDKTrackCoins` end with the same error, and a failed ring-block collection of the
spending path leaves no descriptor and no unsigned transaction. -/
theorem fail_fast_on_fetch_failure (client : AbecRPCClient) (core : Core)
    (accounts : List DemoAccount) (sb se tb te : Int) (allCoins : List Coin)
    (ins : List TxInDesc) (receivers : List DemoAccount) :
    (scanCoinsTraced client core accounts sb se).2 = scanCoins client core accounts sb se ∧
    FailFast (LedgerCall.failed client) (scanCoinsTraced client core accounts sb se).1
      (scanCoins client core accounts sb se) ∧
    (∀ err, scanCoins client core accounts sb se = .error err →
      trackCoins client core accounts sb se tb te = .error err) ∧
    FailFast (blockBytesFailed client) (collectCoinRingBlocks client core allCoins).1
      (collectCoinRingBlocks client core allCoins).2 ∧
    (∀ accountCoins batch err, scanCoins client core accounts sb se = .ok accountCoins →
      prepareSerialBatch accounts accountCoins = .ok batch →
      (collectCoinRingBlocks client core batch.allCoins).2 = .error err →
      trackCoins client core accounts sb se tb te = .error err) ∧
    FailFast (blockBytesFailed client) (collectTxRingBlocks client core ins).1
      (collectTxRingBlocks client core ins).2 ∧
    (∀ err, receivers ≠ [] → (collectTxRingBlocks client core ins).2 = .error err →
      assembleTxDesc client core ins receivers = .error err ∧
      makeUnsignedRawTx client core ins receivers = .error err) := by
  obtain ⟨t1, t2⟩ := scanHeightsTraced_facts client core accounts (heightRange sb se)
    (List.replicate accounts.length [])
  refine ⟨t1, ?_, ?_, ?_, ?_, ?_, ?_⟩
  · have t3 := t2
    rw [t1] at t3
    exact t3
  · intro err herr
    unfold trackCoins
    rw [herr]
  · exact fetchRingBlocks_failFast client _ [] []
      (fun h hh => absurd hh (List.not_mem_nil h))
  · intro accountCoins batch err h1 h2 h3
    unfold trackCoins
    rw [h1]
    simp only
    rw [h2]
    simp only
    rw [h3]
  · exact fetchRingBlocks_failFast client _ [] []
      (fun h hh => absurd hh (List.not_mem_nil h))
  · intro err hr hfetch
    obtain ⟨outs, hok, _⟩ :=
      calcTxOutDescs_spec (totalCoinValue ins) client.GetEstimatedTxFee receivers hr
    have hasm : assembleTxDesc client core ins receivers = .error err := by
      simp only [assembleTxDesc, hok, hfetch]
    exact ⟨hasm, by simp only [makeUnsignedRawTx, hasm]⟩

/-- Instance of `fail_fast_on_fetch_failure`: the example ledger has no block at height 10.
The scan of heights 9 to 11 issues `GetBlockHash 9`, `GetBlock`, `GetRawTx` and
`GetBlockHash 10`, then stops with an error. -/
theorem fail_fast_on_fetch_failure_witness :
    (scanCoinsTraced exLedger exScanCore [exAccount 97 1] 9 11).1
      = [.getBlockHash 9, .getBlock "h", .getRawTx "t", .getBlockHash 10] ∧
    ∃ err, scanCoins exLedger exScanCore [exAccount 97 1] 9 11 = .error err :=
  ⟨by decide,
   ((fail_fast_on_fetch_failure exLedger exScanCore [exAccount 97 1] 9 11 0 0 [] [] []).2.1
      [.getBlockHash 9, .getBlock "h", .getRawTx "t"] (.getBlockHash 10) []
      (by decide) (by decide)).2⟩

/-! ## Spend tracking: auxiliary facts -/

theorem SpendState.add_nil (s : SpendState) : s.add [] = s := by
  cases s
  simp [SpendState.add]

theorem SpendState.add_add (s : SpendState) (l1 l2 : List (Coin × String)) :
    (s.add l1).add l2 = s.add (l1 ++ l2) := by
  simp [SpendState.add, Nat.add_assoc]

theorem spentPairs_append (core : Core) (allCoins : List Coin) (xs ys : List LedgerInput) :
    spentPairs core allCoins (xs ++ ys)
      = spentPairs core allCoins xs ++ spentPairs core allCoins ys := by
  simp [spentPairs, List.flatMap_append]

theorem spentPairs_nil (core : Core) (allCoins : List Coin) :
    spentPairs core allCoins [] = [] := rfl

theorem spentPairs_cons (core : Core) (allCoins : List Coin) (inp : LedgerInput)
    (rest : List LedgerInput) :
    spentPairs core allCoins (inp :: rest)
      = (allCoins.filter (fun coin => carries core inp coin)).map
          (fun coin => (coin, inp.txHash)) ++ spentPairs core allCoins rest := by
  simp [spentPairs, List.flatMap_cons]

theorem markSpent_eq (serialNumber : Bytes) (txHash : String) (coins : List Coin) :
    ∀ (s : SpendState), markSpent serialNumber txHash coins s
      = s.add ((coins.filter (fun coin => bytesEqual coin.SerialNumber serialNumber)).map
          (fun coin => (coin, txHash))) := by
  induction coins with
  | nil =>
    intro s
    simp [markSpent, SpendState.add_nil]
  | cons c rest ih =>
    intro s
    unfold markSpent
    by_cases hm : bytesEqual c.SerialNumber serialNumber = true
    · rw [if_pos hm, ih]
      have e : ({ totalSpentCoins := s.totalSpentCoins + 1,
                  reports := s.reports ++ [(c, txHash)] } : SpendState)
          = s.add [(c, txHash)] := rfl
      rw [e, SpendState.add_add]
      simp [List.filter_cons, hm]
    · rw [if_neg hm, ih]
      simp [List.filter_cons, hm]

theorem trackVins_eq (core : Core) (allCoins : List Coin) (height : Int) (txPos : Nat)
    (txHash : String) (vins : List TxVin) :
    ∀ (k : Nat) (s : SpendState), trackVins core allCoins txHash vins s
      = s.add (spentPairs core allCoins (vinInputs height txPos txHash k vins)) := by
  induction vins with
  | nil =>
    intro k s
    simp [trackVins, vinInputs, spentPairs_nil, SpendState.add_nil]
  | cons vin rest ih =>
    intro k s
    unfold trackVins
    rw [ih (k + 1), markSpent_eq, SpendState.add_add]
    simp only [vinInputs, spentPairs_cons]
    rfl

theorem trackTxs_of_served (client : AbecRPCClient) (core : Core) (allCoins : List Coin)
    (height : Int) (hashes : List String) :
    ∀ (p : Nat) (s : SpendState), (∀ t ∈ hashes, ∃ tx, client.GetRawTx t = .ok tx) →
      trackTxs client core allCoins hashes s
        = .ok (s.add (spentPairs core allCoins (txInputs client height p hashes))) := by
  induction hashes with
  | nil =>
    intro p s _
    simp [trackTxs, txInputs, spentPairs_nil, SpendState.add_nil]
  | cons t rest ih =>
    intro p s hserved
    obtain ⟨tx, htx⟩ := hserved t (List.mem_cons_self _ _)
    unfold trackTxs
    rw [htx]
    simp only
    rw [ih (p + 1) _ (fun t2 ht2 => hserved t2 (List.mem_cons_of_mem _ ht2)),
      trackVins_eq core allCoins height p t tx.Vin 0, SpendState.add_add]
    simp only [txInputs, htx, spentPairs_append]

theorem trackTxs_served (client : AbecRPCClient) (core : Core) (allCoins : List Coin)
    (hashes : List String) :
    ∀ (s s2 : SpendState), trackTxs client core allCoins hashes s = .ok s2 →
      ∀ t ∈ hashes, ∃ tx, client.GetRawTx t = .ok tx := by
  induction hashes with
  | nil =>
    intro s s2 _ t ht
    cases ht
  | cons t0 rest ih =>
    intro s s2 h t ht
    unfold trackTxs at h
    cases htx : client.GetRawTx t0 with
    | error e =>
      rw [htx] at h
      cases h
    | ok tx =>
      rw [htx] at h
      simp only at h
      rcases List.mem_cons.mp ht with rfl | ht2
      · exact ⟨tx, htx⟩
      · exact ih _ s2 h t ht2

theorem trackHeights_of_served (client : AbecRPCClient) (core : Core) (allCoins : List Coin)
    (heights : List Int) :
    ∀ (s : SpendState), RangeServed client heights →
      trackHeights client core allCoins heights s
        = .ok (s.add (spentPairs core allCoins (ledgerInputs client heights))) := by
  induction heights with
  | nil =>
    intro s _
    simp [trackHeights, ledgerInputs, spentPairs_nil, SpendState.add_nil]
  | cons hgt rest ih =>
    intro s hserved
    obtain ⟨blockHash, block, hbh, hb, htxs⟩ := hserved hgt (List.mem_cons_self _ _)
    unfold trackHeights
    rw [hbh]
    simp only
    rw [hb]
    simp only
    rw [trackTxs_of_served client core allCoins hgt block.TxHashes 0 s htxs]
    simp only
    rw [ih _ (fun x hx => hserved x (List.mem_cons_of_mem _ hx)), SpendState.add_add]
    simp only [ledgerInputs, blockInputs, hbh, hb, spentPairs_append]

theorem trackHeights_served (client : AbecRPCClient) (core : Core) (allCoins : List Coin)
    (heights : List Int) :
    ∀ (s s2 : SpendState), trackHeights client core allCoins heights s = .ok s2 →
      RangeServed client heights := by
  induction heights with
  | nil =>
    intro s s2 _ x hx
    cases hx
  | cons hgt rest ih =>
    intro s s2 h x hx
    unfold trackHeights at h
    cases hbh : client.GetBlockHash hgt with
    | error e =>
      rw [hbh] at h
      cases h
    | ok blockHash =>
      rw [hbh] at h
      simp only at h
      cases hb : client.GetBlock blockHash with
      | error e =>
        rw [hb] at h
        cases h
      | ok block =>
        rw [hb] at h
        simp only at h
        cases ht : trackTxs client core allCoins block.TxHashes s with
        | error e =>
          rw [ht] at h
          cases h
        | ok s1 =>
          rw [ht] at h
          simp only at h
          rcases List.mem_cons.mp hx with rfl | hx2
          · exact ⟨blockHash, block, hbh, hb,
              trackTxs_served client core allCoins block.TxHashes s s1 ht⟩
          · exact ih s1 s2 h x hx2

/-- Spend tracking succeeds exactly when the ledger serves the track range, and then it has
counted and reported the pairs of an input and a coin with equal serial numbers. -/
theorem trackSpentCoins_ok (client : AbecRPCClient) (core : Core) (allCoins : List Coin)
    (tb te : Int) (s : SpendState) (h : trackSpentCoins client core allCoins tb te = .ok s) :
    RangeServed client (heightRange tb te) ∧
    s.reports = spentPairs core allCoins (ledgerInputs client (heightRange tb te)) ∧
    s.totalSpentCoins = s.reports.length := by
  have hs := trackHeights_served client core allCoins _ _ _ h
  have he := trackHeights_of_served client core allCoins (heightRange tb te)
    { totalSpentCoins := 0, reports := [] } hs
  unfold trackSpentCoins at h
  rw [he] at h
  cases h
  exact ⟨hs, by simp [SpendState.add], by simp [SpendState.add]⟩

theorem mem_spentPairs (core : Core) (allCoins : List Coin) (inputs : List LedgerInput)
    (c : Coin) (txHash : String) :
    (c, txHash) ∈ spentPairs core allCoins inputs ↔
      ∃ inp ∈ inputs, c ∈ allCoins ∧ carries core inp c = true ∧ inp.txHash = txHash := by
  unfold spentPairs
  rw [List.mem_flatMap]
  constructor
  · rintro ⟨inp, hinp, hm⟩
    obtain ⟨c2, hc2, heq⟩ := List.mem_map.mp hm
    obtain ⟨m1, m2⟩ := List.mem_filter.mp hc2
    simp only [Prod.mk.injEq] at heq
    obtain ⟨rfl, rfl⟩ := heq
    exact ⟨inp, hinp, m1, m2, rfl⟩
  · rintro ⟨inp, hinp, hc, hcar, rfl⟩
    exact ⟨inp, hinp, List.mem_map.mpr ⟨c, List.mem_filter.mpr ⟨hc, hcar⟩, rfl⟩⟩

theorem carries_iff (core : Core) (inp : LedgerInput) (c : Coin) (S : Bytes)
    (hS : c.SerialNumber = some S) :
    carries core inp c = true ↔ inp.serialBytes core = S := by
  simp only [carries, bytesEqual, hS, Option.getD_some, decide_eq_true_eq]
  exact eq_comm

/-! ## C12: spend detection -/

/-- C12: when spend tracking succeeds, the ledger has served the whole track range, every
increment of the spent count comes with one report, and a tracked coin with resolved serial
number `S` is reported spent if and only if some input of some transaction in some block of
the range carries a serial number byte-for-byte equal to `S`; if no input of the range
carries `S`, no report and no increment of the count is due to the coin. -/
theorem spend_detection (client : AbecRPCClient) (core : Core) (allCoins : List Coin)
    (tb te : Int) (s : SpendState) (h : trackSpentCoins client core allCoins tb te = .ok s) :
    RangeServed client (heightRange tb te) ∧
    s.totalSpentCoins = s.reports.length ∧
    ∀ c ∈ allCoins, ∀ S, c.SerialNumber = some S →
      ((∃ txHash, (c, txHash) ∈ s.reports) ↔
        ∃ inp ∈ ledgerInputs client (heightRange tb te), inp.serialBytes core = S) ∧
      ((∀ inp ∈ ledgerInputs client (heightRange tb te), inp.serialBytes core ≠ S) →
        ∀ r ∈ s.reports, r.1 ≠ c) := by
  obtain ⟨hs, hr, ht⟩ := trackSpentCoins_ok client core allCoins tb te s h
  refine ⟨hs, ht, ?_⟩
  intro c hc S hS
  have hiff : (∃ txHash, (c, txHash) ∈ s.reports) ↔
      ∃ inp ∈ ledgerInputs client (heightRange tb te), inp.serialBytes core = S := by
    rw [hr]
    constructor
    · rintro ⟨txHash, hm⟩
      obtain ⟨inp, hinp, _, hcar, _⟩ := (mem_spentPairs core allCoins _ c txHash).mp hm
      exact ⟨inp, hinp, (carries_iff core inp c S hS).mp hcar⟩
    · rintro ⟨inp, hinp, hser⟩
      exact ⟨inp.txHash, (mem_spentPairs core allCoins _ c inp.txHash).mpr
        ⟨inp, hinp, hc, (carries_iff core inp c S hS).mpr hser, rfl⟩⟩
  refine ⟨hiff, ?_⟩
  intro hno r hr2 hrc
  obtain ⟨inp, hinp, hser⟩ := hiff.mp ⟨r.2, by rw [← hrc]; exact hr2⟩
  exact hno inp hinp hser

/-- Instance of `spend_detection`: the coin with serial number `[115]` is reported spent in
the range 3 to 3, whose transaction has an input with serial number `"s"`. -/
theorem spend_detection_witness :
    (∃ txHash, ((exSerialCoin [115], txHash) : Coin × String)
        ∈ [(exSerialCoin [115], "t")]) ↔
      ∃ inp ∈ ledgerInputs (exSpendLedger [] ["s", "x"]) (heightRange 3 3),
        inp.serialBytes exScanCore = [115] :=
  ((spend_detection (exSpendLedger [] ["s", "x"]) exScanCore
      [exSerialCoin [115], exSerialCoin [121]] 3 3
      { totalSpentCoins := 1, reports := [(exSerialCoin [115], "t")] } (by decide)).2.2
    (exSerialCoin [115]) (by decide) [115] rfl).1

/-! ## C13: spent count -/

theorem countP_or_of_exclusive (p q : Coin → Bool) (l : List Coin)
    (h : ∀ c ∈ l, ¬ (p c = true ∧ q c = true)) :
    List.countP (fun c => p c || q c) l = List.countP p l + List.countP q l := by
  induction l with
  | nil => simp
  | cons c rest ih =>
    have hrest := ih (fun d hd => h d (List.mem_cons_of_mem _ hd))
    have hc := h c (List.mem_cons_self _ _)
    simp only [List.countP_cons, hrest]
    cases hp : p c <;> cases hq : q c
    · simp
    · simp
      omega
    · simp
      omega
    · exact absurd ⟨hp, hq⟩ hc

theorem length_spentPairs_of_nodup (core : Core) (allCoins : List Coin)
    (inputs : List LedgerInput)
    (hn : (inputs.map (fun inp => inp.serialBytes core)).Nodup) :
    (spentPairs core allCoins inputs).length
      = (allCoins.filter (fun c => inputs.any (fun inp => carries core inp c))).length := by
  induction inputs with
  | nil => simp [spentPairs_nil]
  | cons inp rest ih =>
    obtain ⟨hnot, hrest⟩ := List.nodup_cons.mp hn
    rw [spentPairs_cons, List.length_append, List.length_map, ih hrest,
      ← List.countP_eq_length_filter, ← List.countP_eq_length_filter,
      ← List.countP_eq_length_filter]
    have e : (fun c => (inp :: rest).any (fun i => carries core i c))
        = (fun c => carries core inp c || rest.any (fun i => carries core i c)) := by
      funext c
      simp [List.any_cons]
    rw [e]
    symm
    apply countP_or_of_exclusive
    intro c _ hboth
    obtain ⟨h1, h2⟩ := hboth
    obtain ⟨inp2, hinp2, h3⟩ := List.any_eq_true.mp h2
    apply hnot
    simp only [carries, bytesEqual, decide_eq_true_eq] at h1 h3
    exact List.mem_map.mpr ⟨inp2, hinp2, h3.symm.trans h1⟩

/-- C13 (as stated, refuted): one tracked coin with serial number `[115]` and a track range
3 to 4 in which two inputs carry that serial number. Spend tracking returns the total 2,
while one coin was observed spent. -/
theorem spent_count_counts_inputs :
    ¬ ∀ (client : AbecRPCClient) (core : Core) (allCoins : List Coin) (tb te : Int)
        (s : SpendState), trackSpentCoins client core allCoins tb te = .ok s →
        s.totalSpentCoins = (allCoins.filter (fun c =>
          (ledgerInputs client (heightRange tb te)).any
            (fun inp => carries core inp c))).length := by
  intro h
  have h1 := h (exSpendLedger [] ["s"]) exScanCore [exSerialCoin [115]] 3 4
    { totalSpentCoins := 2,
      reports := [(exSerialCoin [115], "t"), (exSerialCoin [115], "t")] } (by decide)
  revert h1
  decide

/-- C13 (amended): the total returned by spend tracking is the number of pairs of an input
of the track range and a tracked coin with equal serial numbers (the sum over the inputs of
the number of tracked coins carrying the input's serial number). It equals the number of
tracked coins whose serial number occurs in at least one input of the range when no serial
number is carried by two inputs of the range. -/
theorem spent_count (client : AbecRPCClient) (core : Core) (allCoins : List Coin)
    (tb te : Int) (s : SpendState) (h : trackSpentCoins client core allCoins tb te = .ok s) :
    s.totalSpentCoins
      = (spentPairs core allCoins (ledgerInputs client (heightRange tb te))).length ∧
    (((ledgerInputs client (heightRange tb te)).map
        (fun inp => inp.serialBytes core)).Nodup →
      s.totalSpentCoins = (allCoins.filter (fun c =>
        (ledgerInputs client (heightRange tb te)).any
          (fun inp => carries core inp c))).length) := by
  obtain ⟨_, hr, ht⟩ := trackSpentCoins_ok client core allCoins tb te s h
  rw [hr] at ht
  refine ⟨ht, ?_⟩
  intro hn
  rw [ht]
  exact length_spentPairs_of_nodup core allCoins _ hn

/-- Instance of `spent_count`: two tracked coins and a range whose inputs carry the serial
numbers `"s"` and `"x"`; one coin is observed spent and the total is 1. -/
theorem spent_count_witness :
    (1 : Nat) = ([exSerialCoin [115], exSerialCoin [121]].filter (fun c =>
      (ledgerInputs (exSpendLedger [] ["s", "x"]) (heightRange 3 3)).any
        (fun inp => carries exScanCore inp c))).length :=
  (spent_count (exSpendLedger [] ["s", "x"]) exScanCore
      [exSerialCoin [115], exSerialCoin [121]] 3 3
      { totalSpentCoins := 1, reports := [(exSerialCoin [115], "t")] } (by decide)).2
    (by decide)

/-! ## C14: repeated spend matches -/

/-- C14 (as stated, refuted): the transaction at height 3 has two inputs carrying the serial
number of the tracked coin. Spend tracking does not fail: it counts the coin twice and
reports it twice. -/
theorem duplicate_spend_counted_twice :
    trackSpentCoins (exSpendLedger [] ["s", "s"]) exScanCore [exSerialCoin [115]] 3 3
      = .ok { totalSpentCoins := 2,
              reports := [(exSerialCoin [115], "t"), (exSerialCoin [115], "t")] } := by
  decide

/-- C14 (amended): spend tracking keeps no spent flag and reports no anomaly. Whenever the
ledger serves the track range it succeeds, every increment of the count comes with one
report, and a tracked coin whose serial number is carried by `k` inputs of the range is
reported, and counted, at least `k` times. -/
theorem duplicate_spend_not_rejected (client : AbecRPCClient) (core : Core)
    (allCoins : List Coin) (tb te : Int) (hserved : RangeServed client (heightRange tb te)) :
    ∃ s, trackSpentCoins client core allCoins tb te = .ok s ∧
      s.totalSpentCoins = s.reports.length ∧
      ∀ c ∈ allCoins,
        ((ledgerInputs client (heightRange tb te)).filter
          (fun inp => carries core inp c)).length
          ≤ (s.reports.filter (fun r => decide (r.1 = c))).length := by
  have he := trackHeights_of_served client core allCoins (heightRange tb te)
    { totalSpentCoins := 0, reports := [] } hserved
  refine ⟨_, he, by simp [SpendState.add], ?_⟩
  intro c hc
  have hrep : (SpendState.add { totalSpentCoins := 0, reports := [] }
      (spentPairs core allCoins (ledgerInputs client (heightRange tb te)))).reports
      = spentPairs core allCoins (ledgerInputs client (heightRange tb te)) := by
    simp [SpendState.add]
  rw [hrep]
  generalize ledgerInputs client (heightRange tb te) = inputs
  induction inputs with
  | nil => simp
  | cons inp rest ih =>
    rw [spentPairs_cons, List.filter_append, List.length_append, List.filter_cons]
    by_cases hcar : carries core inp c = true
    · rw [if_pos hcar, List.length_cons]
      have hpos : 0 < (List.filter (fun r => decide (r.1 = c))
          (List.map (fun coin => (coin, inp.txHash))
            (List.filter (fun coin => carries core inp coin) allCoins))).length := by
        rw [← List.countP_eq_length_filter, List.countP_pos_iff]
        exact ⟨(c, inp.txHash),
          List.mem_map.mpr ⟨c, List.mem_filter.mpr ⟨hc, hcar⟩, rfl⟩, by simp⟩
      omega
    · rw [if_neg hcar]
      omega

/-- Instance of `duplicate_spend_not_rejected`: the range 3 to 3 of the ledger whose
transaction has two inputs with serial number `"s"`. -/
theorem duplicate_spend_not_rejected_witness :
    ∃ s, trackSpentCoins (exSpendLedger [] ["s", "s"]) exScanCore [exSerialCoin [115]] 3 3
        = .ok s ∧
      s.totalSpentCoins = s.reports.length ∧
      ∀ c ∈ [exSerialCoin [115]],
        ((ledgerInputs (exSpendLedger [] ["s", "s"]) (heightRange 3 3)).filter
          (fun inp => carries exScanCore inp c)).length
          ≤ (s.reports.filter (fun r => decide (r.1 = c))).length :=
  duplicate_spend_not_rejected (exSpendLedger [] ["s", "s"]) exScanCore
    [exSerialCoin [115]] 3 3 (by
      intro x hx
      have hx3 : x = 3 := by
        have : heightRange 3 3 = [3] := by decide
        rw [this] at hx
        simpa using hx
      subst hx3
      exact ⟨"h", { TxHashes := ["t"] }, by decide, by decide, by
        intro t ht
        have ht2 : t = "t" := by simpa using ht
        subst ht2
        exact ⟨_, rfl⟩⟩)

/-! ## Serial numbers: auxiliary facts -/

theorem appendAccountCoins_some (trackedAccounts : List DemoAccount) (i : Nat)
    (a : DemoAccount) (ha : trackedAccounts[i]? = some a) (coins : List Coin) :
    ∀ (batch : SerialBatch), appendAccountCoins trackedAccounts i coins batch
      = .ok { allCoins := batch.allCoins ++ coins,
              coinIDs := batch.coinIDs ++ coins.map (fun c => c.ID),
              serialNoSecretKeys :=
                batch.serialNoSecretKeys ++ coins.map (fun _ => a.SerialNoSecretKey) } := by
  induction coins with
  | nil =>
    intro batch
    cases batch
    simp [appendAccountCoins]
  | cons c rest ih =>
    intro batch
    unfold appendAccountCoins
    rw [ha]
    simp only
    rw [ih]
    simp

theorem appendAccountCoins_none (trackedAccounts : List DemoAccount) (i : Nat)
    (ha : trackedAccounts[i]? = none) (coins : List Coin) (batch batch2 : SerialBatch)
    (h : appendAccountCoins trackedAccounts i coins batch = .ok batch2) :
    coins = [] ∧ batch2 = batch := by
  cases coins with
  | nil =>
    simp only [appendAccountCoins] at h
    cases h
    exact ⟨rfl, rfl⟩
  | cons c rest =>
    unfold appendAccountCoins at h
    rw [ha] at h
    cases h

theorem ownedCoins_nil_accounts (accountCoins : List (List Coin)) :
    ownedCoins [] accountCoins = [] := by
  simp [ownedCoins]

theorem ownedCoins_cons (a : DemoAccount) (accounts : List DemoAccount) (coins : List Coin)
    (rest : List (List Coin)) :
    ownedCoins (a :: accounts) (coins :: rest)
      = coins.map (fun c => (c, a)) ++ ownedCoins accounts rest := by
  simp [ownedCoins, List.flatMap_cons]

theorem prepareSerialBatchFrom_ok (trackedAccounts : List DemoAccount)
    (accountCoins : List (List Coin)) :
    ∀ (i : Nat) (batch batch2 : SerialBatch),
      prepareSerialBatchFrom trackedAccounts i accountCoins batch = .ok batch2 →
      batch2 =
        { allCoins := batch.allCoins ++
            (ownedCoins (trackedAccounts.drop i) accountCoins).map (fun p => p.1),
          coinIDs := batch.coinIDs ++
            (ownedCoins (trackedAccounts.drop i) accountCoins).map (fun p => p.1.ID),
          serialNoSecretKeys := batch.serialNoSecretKeys ++
            (ownedCoins (trackedAccounts.drop i) accountCoins).map
              (fun p => p.2.SerialNoSecretKey) } ∧
      (ownedCoins (trackedAccounts.drop i) accountCoins).map (fun p => p.1)
        = accountCoins.flatten := by
  induction accountCoins with
  | nil =>
    intro i batch batch2 h
    simp only [prepareSerialBatchFrom] at h
    cases h
    cases batch
    simp [ownedCoins]
  | cons coins rest ih =>
    intro i batch batch2 h
    unfold prepareSerialBatchFrom at h
    cases ha : trackedAccounts[i]? with
    | none =>
      cases h1 : appendAccountCoins trackedAccounts i coins batch with
      | error e =>
        rw [h1] at h
        cases h
      | ok batch1 =>
        rw [h1] at h
        simp only at h
        obtain ⟨hc, hb⟩ := appendAccountCoins_none trackedAccounts i ha coins batch batch1 h1
        subst hc
        subst hb
        have hle : trackedAccounts.length ≤ i := by
          by_contra hlt
          rw [List.getElem?_eq_getElem (by omega)] at ha
          cases ha
        have hd : trackedAccounts.drop i = [] := List.drop_eq_nil_of_le hle
        have hd1 : trackedAccounts.drop (i + 1) = [] := List.drop_eq_nil_of_le (by omega)
        obtain ⟨r1, r2⟩ := ih (i + 1) batch1 batch2 h
        rw [hd1, ownedCoins_nil_accounts] at r1 r2
        rw [hd, ownedCoins_nil_accounts]
        refine ⟨r1, ?_⟩
        simp only [List.map_nil] at r2 ⊢
        simp [← r2]
    | some a =>
      rw [appendAccountCoins_some trackedAccounts i a ha coins batch] at h
      simp only at h
      obtain ⟨hlt, hget⟩ := List.getElem?_eq_some.mp ha
      have hd : trackedAccounts.drop i = a :: trackedAccounts.drop (i + 1) := by
        rw [List.drop_eq_getElem_cons hlt, hget]
      obtain ⟨r1, r2⟩ := ih (i + 1) _ batch2 h
      rw [hd, ownedCoins_cons]
      refine ⟨?_, ?_⟩
      · rw [r1]
        simp [Function.comp_def]
      · simp [r2, Function.comp_def]

theorem prepareSerialBatchFrom_succeeds (trackedAccounts : List DemoAccount)
    (accountCoins : List (List Coin)) :
    ∀ (i : Nat) (batch : SerialBatch), i + accountCoins.length ≤ trackedAccounts.length →
      ∃ batch2, prepareSerialBatchFrom trackedAccounts i accountCoins batch = .ok batch2 := by
  induction accountCoins with
  | nil =>
    intro i batch _
    exact ⟨batch, rfl⟩
  | cons coins rest ih =>
    intro i batch hlen
    simp only [List.length_cons] at hlen
    have hlt : i < trackedAccounts.length := by omega
    unfold prepareSerialBatchFrom
    rw [appendAccountCoins_some trackedAccounts i _ (List.getElem?_eq_getElem hlt) coins batch]
    exact ih (i + 1) _ (by omega)

theorem assignSerialNumbers_ok (serials : List Bytes) (coins : List Coin) :
    ∀ (i : Nat) (resolved : List Coin), assignSerialNumbers serials i coins = .ok resolved →
      resolved.length = coins.length ∧
      ∀ (k : Nat) (c : Coin), coins[k]? = some c →
        ∃ sn, serials[i + k]? = some sn ∧
          resolved[k]? = some { c with SerialNumber := some sn } := by
  induction coins with
  | nil =>
    intro i resolved h
    simp only [assignSerialNumbers] at h
    cases h
    refine ⟨rfl, ?_⟩
    intro k c hk
    simp at hk
  | cons c0 rest ih =>
    intro i resolved h
    unfold assignSerialNumbers at h
    cases hs : serials[i]? with
    | none =>
      rw [hs] at h
      cases h
    | some sn =>
      rw [hs] at h
      simp only at h
      cases hr : assignSerialNumbers serials (i + 1) rest with
      | error e =>
        rw [hr] at h
        cases h
      | ok rest2 =>
        rw [hr] at h
        simp only at h
        cases h
        obtain ⟨r1, r2⟩ := ih (i + 1) rest2 hr
        refine ⟨by simp [r1], ?_⟩
        intro k c hk
        cases k with
        | zero =>
          simp only [List.getElem?_cons_zero, Option.some.injEq] at hk
          subst hk
          exact ⟨sn, hs, by simp⟩
        | succ k =>
          simp only [List.getElem?_cons_succ] at hk ⊢
          obtain ⟨sn2, h1, h2⟩ := r2 k c hk
          refine ⟨sn2, ?_, h2⟩
          rw [← h1]
          congr 1
          omega

/-! ## C15: alignment of the serial-number batch -/

/-- C15: the batch for `core.DecodeCoinSerialNumbers` is built whenever there are no more
coin lists than tracked accounts, and whenever it is built, `allCoins` is the concatenation
of the per-account coin lists, the three arrays `allCoins`, `coinIDs` and
`serialNoSecretKeys` have equal length (the total number of coins found), `coinIDs[k]` is the
ID of `allCoins[k]`, and `serialNoSecretKeys[k]` is the serial-number secret key of the
tracked account in whose list `allCoins[k]` stands. After a successful resolution the coin
at index `k` is `allCoins[k]` with the `k`-th returned serial number as its serial
number. -/
theorem serial_batch_alignment (trackedAccounts : List DemoAccount)
    (accountCoins : List (List Coin)) :
    (accountCoins.length ≤ trackedAccounts.length →
      ∃ batch, prepareSerialBatch trackedAccounts accountCoins = .ok batch) ∧
    ∀ batch, prepareSerialBatch trackedAccounts accountCoins = .ok batch →
      batch.allCoins = accountCoins.flatten ∧
      batch.allCoins.length = (accountCoins.map List.length).sum ∧
      batch.coinIDs.length = batch.allCoins.length ∧
      batch.serialNoSecretKeys.length = batch.allCoins.length ∧
      batch.coinIDs = batch.allCoins.map (fun c => c.ID) ∧
      batch.allCoins.zip batch.serialNoSecretKeys
        = (ownedCoins trackedAccounts accountCoins).map
            (fun p => (p.1, p.2.SerialNoSecretKey)) ∧
      ∀ (serials : List Bytes) (resolved : List Coin),
        assignSerialNumbers serials 0 batch.allCoins = .ok resolved →
        resolved.length = batch.allCoins.length ∧
        ∀ (k : Nat) (c : Coin), batch.allCoins[k]? = some c →
          ∃ sn, serials[k]? = some sn ∧
            resolved[k]? = some { c with SerialNumber := some sn } := by
  refine ⟨?_, ?_⟩
  · intro hlen
    exact prepareSerialBatchFrom_succeeds trackedAccounts accountCoins 0 _ (by omega)
  · intro batch h
    obtain ⟨r1, r2⟩ := prepareSerialBatchFrom_ok trackedAccounts accountCoins 0 _ batch h
    rw [List.drop_zero] at r1 r2
    simp only [List.nil_append] at r1
    have hall : batch.allCoins = accountCoins.flatten := by rw [r1]; exact r2
    refine ⟨hall, ?_, ?_, ?_, ?_, ?_, ?_⟩
    · rw [hall, List.length_flatten]
    · rw [r1]
      simp
    · rw [r1]
      simp
    · rw [r1]
      simp [Function.comp_def]
    · rw [r1]
      simp only
      rw [List.zip_map']
    · intro serials resolved hres
      obtain ⟨a1, a2⟩ := assignSerialNumbers_ok serials batch.allCoins 0 resolved hres
      refine ⟨a1, ?_⟩
      intro k c hk
      obtain ⟨sn, h1, h2⟩ := a2 k c hk
      rw [Nat.zero_add] at h1
      exact ⟨sn, h1, h2⟩

/-- Instance of `serial_batch_alignment`: two tracked accounts with two coins and one
coin. -/
theorem serial_batch_alignment_witness :
    ∃ batch, prepareSerialBatch [exAccount 97 1, exAccount 98 2]
        [[exCoin 3, exCoin 4], [exCoin 5]] = .ok batch ∧
      batch.allCoins = [exCoin 3, exCoin 4, exCoin 5] ∧
      batch.allCoins.zip batch.serialNoSecretKeys
        = (ownedCoins [exAccount 97 1, exAccount 98 2]
            [[exCoin 3, exCoin 4], [exCoin 5]]).map (fun p => (p.1, p.2.SerialNoSecretKey)) := by
  obtain ⟨batch, hb⟩ := (serial_batch_alignment [exAccount 97 1, exAccount 98 2]
    [[exCoin 3, exCoin 4], [exCoin 5]]).1 (by decide)
  obtain ⟨h1, _, _, _, _, h6, _⟩ := (serial_batch_alignment [exAccount 97 1, exAccount 98 2]
    [[exCoin 3, exCoin 4], [exCoin 5]]).2 batch hb
  exact ⟨batch, hb, h1, h6⟩

/-! ## C16: missing ring context -/

/-- The ring-block map of an assembled descriptor. `DemoSDKMakeUnsignedRawTx` does not check
the map: it builds it, so whenever a descriptor is assembled its map has an entry for every
height of `RingHeightsFor(input.Height)` of every input and the unsigned transaction is
whatever `core.GenerateUnsignedRawTx` returns for that descriptor; when the assembly fails
(no receiver, or a ring block is not fetched) no unsigned transaction is produced. -/
theorem ring_context_left_to_serializer (client : AbecRPCClient) (core : Core)
    (ins : List TxInDesc) (receivers : List DemoAccount) :
    (∀ desc, assembleTxDesc client core ins receivers = .ok desc →
      desc.TxInDescs = ins ∧
      (∀ d ∈ ins, ∀ g ∈ core.GetRingBlockHeights d.Height,
        HasRingBlock client desc.TxRingBlockDescs g) ∧
      makeUnsignedRawTx client core ins receivers
        = generateUnsignedRawTx core desc.TxInDescs desc.TxOutDescs desc.TxFee
            desc.TxRingBlockDescs) ∧
    (∀ err, assembleTxDesc client core ins receivers = .error err →
      makeUnsignedRawTx client core ins receivers = .error err) := by
  refine ⟨?_, ?_⟩
  · intro desc hdesc
    have hmk : makeUnsignedRawTx client core ins receivers
        = generateUnsignedRawTx core desc.TxInDescs desc.TxOutDescs desc.TxFee
            desc.TxRingBlockDescs := by
      simp only [makeUnsignedRawTx, hdesc, generateUnsignedRawTx]
    unfold assembleTxDesc at hdesc
    simp only at hdesc
    cases hc : calcTxOutDescs (totalCoinValue ins) client.GetEstimatedTxFee receivers with
    | error e =>
      rw [hc] at hdesc
      cases hdesc
    | ok outs =>
      rw [hc] at hdesc
      simp only at hdesc
      cases hf : (collectTxRingBlocks client core ins).2 with
      | error e =>
        rw [hf] at hdesc
        cases hdesc
      | ok blocks =>
        rw [hf] at hdesc
        simp only at hdesc
        cases hdesc
        obtain ⟨_, hall, _⟩ := fetchRingBlocks_ok client _ [] [] blocks hf
        refine ⟨rfl, ?_, hmk⟩
        intro d hd g hg
        apply hall
        unfold txRingBlockHeights
        rw [mem_txRingFold]
        exact Or.inr ⟨d, hd, hg⟩
  · intro err herr
    simp only [makeUnsignedRawTx, herr]

/-- Instance of `ring_context_left_to_serializer`: one input of value 5 at height 7 and a
fee of 2; the assembled descriptor has the ring block of height 6. -/
theorem ring_context_left_to_serializer_witness :
    HasRingBlock (exFeeClient 2) (exBlocks [8, 7, 6]) 6 :=
  ((ring_context_left_to_serializer (exFeeClient 2) (exRingCore exGroupRing) [exTxIn 5 7]
      [exReceiver 1]).1
    { TxInDescs := [exTxIn 5 7], TxOutDescs := [{ AbelAddress := [1], CoinValue := 3 }],
      TxFee := 2, TxRingBlockDescs := exBlocks [8, 7, 6] } (by decide)).2.1
    (exTxIn 5 7) (by decide) 6 (by decide)

theorem specGenerateUnsignedRawTx_error (ring : Int → List Int) (serialize : TxDesc → Bytes)
    (desc : TxDesc)
    (h : ∃ d ∈ desc.TxInDescs, ∃ g ∈ requiredRingHeights ring d,
      desc.TxRingBlockDescs.get? g = none) :
    specGenerateUnsignedRawTx ring serialize desc = .error "RangeError" := by
  obtain ⟨d, hd, g, hg, hnone⟩ := h
  unfold specGenerateUnsignedRawTx
  rw [if_neg]
  intro hall
  rw [List.all_eq_true] at hall
  have h1 := hall d hd
  rw [List.all_eq_true] at h1
  have h2 := h1 g hg
  rw [hnone] at h2
  cases h2

/-- With an entry for every required height the builder of the specification hands the
descriptor to the serializer. -/
theorem specGenerateUnsignedRawTx_ok (ring : Int → List Int) (serialize : TxDesc → Bytes)
    (desc : TxDesc)
    (h : ∀ d ∈ desc.TxInDescs, ∀ g ∈ requiredRingHeights ring d,
      ∃ b, desc.TxRingBlockDescs.get? g = some b) :
    specGenerateUnsignedRawTx ring serialize desc = .ok (serialize desc) := by
  unfold specGenerateUnsignedRawTx
  rw [if_pos]
  rw [List.all_eq_true]
  intro d hd
  rw [List.all_eq_true]
  intro g hg
  obtain ⟨b, hb⟩ := h d hd g hg
  rw [hb]
  rfl

theorem assembleTxDesc_specCore (client : AbecRPCClient) (core : Core)
    (serialize : TxDesc → Bytes) (ins : List TxInDesc) (receivers : List DemoAccount) :
    assembleTxDesc client (specCore core serialize) ins receivers
      = assembleTxDesc client core ins receivers := rfl

/-- On the path of `DemoSDKMakeUnsignedRawTx` the check of the specification's builder never
fires when every height is one of its own ring heights (as for a selection by fixed groups
of heights): an assembled descriptor is serialized. -/
theorem makeUnsignedRawTx_specCore (client : AbecRPCClient) (core : Core)
    (serialize : TxDesc → Bytes) (ins : List TxInDesc) (receivers : List DemoAccount)
    (hown : ∀ h, h ∈ core.GetRingBlockHeights h) (desc : TxDesc)
    (hdesc : assembleTxDesc client core ins receivers = .ok desc) :
    makeUnsignedRawTx client (specCore core serialize) ins receivers
      = .ok (serialize desc) := by
  obtain ⟨hins, hall, _⟩ :=
    (ring_context_left_to_serializer client core ins receivers).1 desc hdesc
  have hok : specGenerateUnsignedRawTx core.GetRingBlockHeights serialize desc
      = .ok (serialize desc) := by
    apply specGenerateUnsignedRawTx_ok
    intro d hd g hg
    rw [hins] at hd
    have hg2 : g ∈ core.GetRingBlockHeights d.Height := by
      unfold requiredRingHeights at hg
      rcases List.mem_cons.mp hg with h1 | h1
      · rw [h1]
        exact hown d.Height
      · exact h1
    obtain ⟨b, _, hb⟩ := hall d hd g hg2
    exact ⟨_, hb⟩
  unfold makeUnsignedRawTx
  rw [assembleTxDesc_specCore, hdesc]
  exact hok

/-- C16 (against the builder as the specification describes it; the code of
`core.GenerateUnsignedRawTx` is not among the sources): for every inputs/ring-block map pair
in which some input's required ring-context height (its own height or a height of
`RingHeightsFor(input.Height)`) has no entry in the map, building the unsigned transaction
at lines 481-485 fails with `RangeError`, whatever the serializer, and the output file is
left as it was: no unsigned transaction is produced or written. -/
theorem missing_ring_context_rejects_build (core : Core) (serialize : TxDesc → Bytes)
    (writeFile : Bytes → Option Bytes → Option Err × Option Bytes)
    (ins : List TxInDesc) (outs : List TxOutDesc) (fee : Int) (m : RingBlockMap)
    (file : Option Bytes)
    (h : ∃ d ∈ ins, ∃ g ∈ requiredRingHeights core.GetRingBlockHeights d, m.get? g = none) :
    generateUnsignedRawTx (specCore core serialize) ins outs fee m = .error "RangeError" ∧
    writeUnsignedRawTx (specCore core serialize) writeFile ins outs fee m file
      = (.error "RangeError", file) := by
  have hgen : generateUnsignedRawTx (specCore core serialize) ins outs fee m
      = .error "RangeError" := by
    unfold generateUnsignedRawTx specCore
    exact specGenerateUnsignedRawTx_error core.GetRingBlockHeights serialize _ h
  refine ⟨hgen, ?_⟩
  unfold writeUnsignedRawTx
  rw [hgen]

/-- Instance of `missing_ring_context_rejects_build`: one input at height 7 (ring heights
6, 7, 8) and a map with the blocks of heights 8 and 7 only; nothing is written. -/
theorem missing_ring_context_rejects_build_witness :
    generateUnsignedRawTx (specCore (exRingCore exGroupRing) exSerialize) [exTxIn 5 7]
        [{ AbelAddress := [1], CoinValue := 3 }] 2 (exBlocks [8, 7]) = .error "RangeError" ∧
    writeUnsignedRawTx (specCore (exRingCore exGroupRing) exSerialize) exWriteFile [exTxIn 5 7]
        [{ AbelAddress := [1], CoinValue := 3 }] 2 (exBlocks [8, 7]) none
      = (.error "RangeError", none) :=
  missing_ring_context_rejects_build (exRingCore exGroupRing) exSerialize exWriteFile
    [exTxIn 5 7] [{ AbelAddress := [1], CoinValue := 3 }] 2 (exBlocks [8, 7]) none
    ⟨exTxIn 5 7, by decide, 6, by decide, by decide⟩

/-! ## C17: invalid height ranges -/

theorem heightRange_eq_nil {b e : Int} (h : e < b) : heightRange b e = [] := by
  unfold heightRange
  have h0 : (e + 1 - b).toNat = 0 := by omega
  rw [h0]
  rfl

/-- C17 (code): the coin scan of `DemoSDKTrackCoins` has no range check. For a range with
`begin > end` it fetches nothing and returns an empty coin list for every tracked account
instead of an error, while the coin search of `DemoSDKMakeUnsignedRawTx` rejects every range
with `begin > end` or `begin < 0` before its loop. -/
theorem invalid_range_tracking_returns_empty (client : AbecRPCClient) (core : Core)
    (accounts : List DemoAccount) (b e : Int) :
    (e < b → scanCoins client core accounts b e = .ok (List.replicate accounts.length [])) ∧
    (b > e ∨ b < 0 → searchTxInDescs client core accounts b e = .error "invalid block range") := by
  refine ⟨?_, ?_⟩
  · intro h
    unfold scanCoins
    rw [heightRange_eq_nil h]
    rfl
  · intro h
    unfold searchTxInDescs
    rw [if_pos h]

/-- Instance of `invalid_range_tracking_returns_empty`: the range from 5 to 3 with two
tracked accounts. -/
theorem invalid_range_tracking_returns_empty_witness :
    scanCoins exLedger exScanCore [exAccount 97 1, exAccount 98 2] 5 3 = .ok [[], []] ∧
    searchTxInDescs exLedger exScanCore [exAccount 97 1, exAccount 98 2] 5 3
      = .error "invalid block range" :=
  ⟨(invalid_range_tracking_returns_empty exLedger exScanCore
      [exAccount 97 1, exAccount 98 2] 5 3).1 (by decide),
   (invalid_range_tracking_returns_empty exLedger exScanCore
      [exAccount 97 1, exAccount 98 2] 5 3).2 (Or.inl (by decide))⟩

/-! ## C18: remainder policy examples -/

/-- C18: with inputs summing to 103 units and fee 3 the value distribution yields the
outputs 50 and 50 for two receivers and 33, 33 and 34 for three receivers. -/
theorem remainder_policy_examples (ins : List TxInDesc) (r1 r2 r3 : DemoAccount)
    (h : sumIn ins = 103) :
    calcTxOutDescs (totalCoinValue ins) 3 [r1, r2]
      = .ok [{ AbelAddress := r1.AbelAddress, CoinValue := 50 },
             { AbelAddress := r2.AbelAddress, CoinValue := 50 }] ∧
    calcTxOutDescs (totalCoinValue ins) 3 [r1, r2, r3]
      = .ok [{ AbelAddress := r1.AbelAddress, CoinValue := 33 },
             { AbelAddress := r2.AbelAddress, CoinValue := 33 },
             { AbelAddress := r3.AbelAddress, CoinValue := 34 }] := by
  have e0 : wrap64 103 = 103 := by decide
  have e1 : sub64 103 3 = 100 := by decide
  have q2 : div64 100 ((2 : Nat) : Int) = 50 := by decide
  have m2 : add64 50 (rem64 100 ((2 : Nat) : Int)) = 50 := by decide
  have q3 : div64 100 ((3 : Nat) : Int) = 33 := by decide
  have m3 : add64 33 (rem64 100 ((3 : Nat) : Int)) = 34 := by decide
  rw [totalCoinValue_eq, h, e0]
  constructor
  · simp only [calcTxOutDescs, fillTxOutDescs, e1, List.length_cons, List.length_nil,
      q2, m2]
    simp
  · simp only [calcTxOutDescs, fillTxOutDescs, e1, List.length_cons, List.length_nil,
      q3, m3]
    simp

/-- Instance of `remainder_policy_examples`: the inputs 60 and 43. -/
theorem remainder_policy_examples_witness :
    calcTxOutDescs (totalCoinValue [exTxIn 60 1, exTxIn 43 2]) 3 [exReceiver 1, exReceiver 2]
      = .ok [{ AbelAddress := [1], CoinValue := 50 }, { AbelAddress := [2], CoinValue := 50 }] :=
  (remainder_policy_examples [exTxIn 60 1, exTxIn 43 2] (exReceiver 1) (exReceiver 2)
    (exReceiver 3) (by decide)).1

/-! ## C19: scan order -/

theorem pairwise_voutOutputs (height : Int) (blockHash : String) (txPos : Nat)
    (txHash : String) (vouts : List TxVout) :
    ∀ (k : Nat), (voutOutputs height blockHash txPos txHash k vouts).Pairwise
      LedgerOutput.before := by
  induction vouts with
  | nil =>
    intro k
    simp [voutOutputs]
  | cons v rest ih =>
    intro k
    simp only [voutOutputs, List.pairwise_cons]
    refine ⟨?_, ih (k + 1)⟩
    intro o ho
    obtain ⟨h1, h2, h3⟩ := mem_voutOutputs height blockHash txPos txHash rest (k + 1) o ho
    exact Or.inr ⟨h1.symm, Or.inr ⟨h2.symm, by simp only; omega⟩⟩

theorem pairwise_txOutputs (client : AbecRPCClient) (height : Int) (blockHash : String)
    (hashes : List String) :
    ∀ (p : Nat), (txOutputs client height blockHash p hashes).Pairwise
      LedgerOutput.before := by
  induction hashes with
  | nil =>
    intro p
    simp [txOutputs]
  | cons t rest ih =>
    intro p
    simp only [txOutputs]
    rw [List.pairwise_append]
    refine ⟨?_, ih (p + 1), ?_⟩
    · cases htx : client.GetRawTx t with
      | error e => simp
      | ok tx => exact pairwise_voutOutputs height blockHash p t tx.Vout 0
    · intro o1 ho1 o2 ho2
      obtain ⟨g1, g2⟩ := mem_txOutputs client height blockHash rest (p + 1) o2 ho2
      have f : o1.height = height ∧ o1.txPos = p := by
        cases htx : client.GetRawTx t with
        | error e =>
          rw [htx] at ho1
          simp at ho1
        | ok tx =>
          rw [htx] at ho1
          obtain ⟨f1, f2, _⟩ := mem_voutOutputs height blockHash p t tx.Vout 0 o1 ho1
          exact ⟨f1, f2⟩
      exact Or.inr ⟨f.1.trans g1.symm, Or.inl (by omega)⟩

theorem pairwise_blockOutputs (client : AbecRPCClient) (hgt : Int) :
    (blockOutputs client hgt).Pairwise LedgerOutput.before := by
  unfold blockOutputs
  cases hbh : client.GetBlockHash hgt with
  | error e => simp
  | ok blockHash =>
    simp only
    cases hb : client.GetBlock blockHash with
    | error e => simp
    | ok block =>
      simp only
      exact pairwise_txOutputs client hgt blockHash block.TxHashes 0

theorem pairwise_ledgerOutputs (client : AbecRPCClient) (heights : List Int)
    (hs : heights.Pairwise (fun x y => x < y)) :
    (ledgerOutputs client heights).Pairwise LedgerOutput.before := by
  induction heights with
  | nil => simp [ledgerOutputs]
  | cons hgt rest ih =>
    obtain ⟨hlt, hrest⟩ := List.pairwise_cons.mp hs
    simp only [ledgerOutputs]
    rw [List.pairwise_append]
    refine ⟨pairwise_blockOutputs client hgt, ih hrest, ?_⟩
    intro o1 ho1 o2 ho2
    have f1 := (blockOutputs_facts client hgt).1 o1 ho1
    have f2 := mem_ledgerOutputs client rest o2 ho2
    exact Or.inl (by rw [f1]; exact hlt _ f2)

theorem pairwise_heightRange (b e : Int) : (heightRange b e).Pairwise (fun x y => x < y) := by
  unfold heightRange
  rw [List.pairwise_map]
  apply List.Pairwise.imp _ (List.pairwise_lt_range _)
  intro x y hxy
  omega

/-- C19: in a successful scan the outputs of the height range are enumerated in strictly
ascending processing order (block height, then position of the transaction in the block,
then output index), the coin list of every tracked account is the list of coins of a
subsequence of that enumeration, and the block heights along each coin list are
non-decreasing. -/
theorem scan_order (client : AbecRPCClient) (core : Core) (accounts : List DemoAccount)
    (b e : Int) (accountCoins : List (List Coin))
    (h : scanCoins client core accounts b e = .ok accountCoins) :
    (ledgerOutputs client (heightRange b e)).Pairwise LedgerOutput.before ∧
    ∀ (i : Nat) (a : DemoAccount), accounts[i]? = some a →
      ∃ (sub : List LedgerOutput) (coins : List Coin),
        sub.Sublist (ledgerOutputs client (heightRange b e)) ∧
        accountCoins[i]? = some coins ∧ coins = sub.map (coinFor core a) ∧
        (coins.map (fun c => c.BlockHeight)).Pairwise (fun x y => x ≤ y) := by
  obtain ⟨r1, _⟩ := scanCoins_ok client core accounts b e accountCoins h
  have hp := pairwise_ledgerOutputs client _ (pairwise_heightRange b e)
  refine ⟨hp, ?_⟩
  intro i a hia
  refine ⟨(ledgerOutputs client (heightRange b e)).filter
      (fun o => fingerprintMatches core a o), _, List.filter_sublist _, ?_, rfl, ?_⟩
  · rw [r1, List.getElem?_map, hia]
    rfl
  · rw [List.map_map, List.pairwise_map]
    apply List.Pairwise.imp _ (List.Pairwise.sublist (List.filter_sublist _) hp)
    intro o1 o2 hb
    show o1.height ≤ o2.height
    rcases hb with hlt | ⟨heq, _⟩
    · exact le_of_lt hlt
    · exact le_of_eq heq

/-- Instance of `scan_order`: the scan of heights 3 to 4 of the example ledger; the coins of
the account with fingerprint 98 come from heights 3 and 4, in this order. -/
theorem scan_order_witness :
    ∃ (sub : List LedgerOutput) (coins : List Coin),
      sub.Sublist (ledgerOutputs exLedger (heightRange 3 4)) ∧
      ([[coinFor exScanCore (exAccount 97 1) (exOutput 3 0 "a"),
         coinFor exScanCore (exAccount 97 1) (exOutput 4 0 "a")],
        [coinFor exScanCore (exAccount 98 2) (exOutput 3 1 "b"),
         coinFor exScanCore (exAccount 98 2) (exOutput 4 1 "b")]] : List (List Coin))[1]?
        = some coins ∧
      coins = sub.map (coinFor exScanCore (exAccount 98 2)) ∧
      (coins.map (fun c => c.BlockHeight)).Pairwise (fun x y => x ≤ y) :=
  (scan_order exLedger exScanCore [exAccount 97 1, exAccount 98 2] 3 4
    [[coinFor exScanCore (exAccount 97 1) (exOutput 3 0 "a"),
      coinFor exScanCore (exAccount 97 1) (exOutput 4 0 "a")],
     [coinFor exScanCore (exAccount 98 2) (exOutput 3 1 "b"),
      coinFor exScanCore (exAccount 98 2) (exOutput 4 1 "b")]] (by decide)).2 1
    (exAccount 98 2) (by decide)

/-! ## C20: the serial number is the only field that changes -/

/-- C20: when `DemoSDKTrackCoins` ends normally, every coin created by the scan has an
absent serial number, and the coins held after serial-number resolution and spend tracking
are, index by index, the scanned coins with the serial number replaced by the returned
serial number of the same index: ID, owner addresses, value, output payload, block hash and
block height are unchanged, and spend tracking has changed no coin. -/
theorem serial_number_only_change (client : AbecRPCClient) (core : Core)
    (trackedAccounts : List DemoAccount) (sb se tb te : Int) (res : TrackResult)
    (h : trackCoins client core trackedAccounts sb se tb te = .ok res) :
    scanCoins client core trackedAccounts sb se = .ok res.accountCoins ∧
    (∀ coins ∈ res.accountCoins, ∀ c ∈ coins, c.SerialNumber = none) ∧
    res.allCoins.length = res.accountCoins.flatten.length ∧
    (∀ (k : Nat) (c : Coin), res.accountCoins.flatten[k]? = some c →
      ∃ sn, res.coinSerialNumbers[k]? = some sn ∧
        res.allCoins[k]? = some { c with SerialNumber := some sn }) ∧
    ∀ r ∈ res.reports, r.1 ∈ res.allCoins := by
  unfold trackCoins at h
  cases h1 : scanCoins client core trackedAccounts sb se with
  | error e =>
    rw [h1] at h
    cases h
  | ok accountCoins =>
    rw [h1] at h
    simp only at h
    cases h2 : prepareSerialBatch trackedAccounts accountCoins with
    | error e =>
      rw [h2] at h
      cases h
    | ok batch =>
      rw [h2] at h
      simp only at h
      cases h3 : (collectCoinRingBlocks client core batch.allCoins).2 with
      | error e =>
        rw [h3] at h
        cases h
      | ok allRingBlocks =>
        rw [h3] at h
        simp only at h
        cases h4 : core.DecodeCoinSerialNumbers batch.coinIDs batch.serialNoSecretKeys
            allRingBlocks with
        | error e =>
          rw [h4] at h
          cases h
        | ok coinSerialNumbers =>
          rw [h4] at h
          simp only at h
          cases h5 : assignSerialNumbers coinSerialNumbers 0 batch.allCoins with
          | error e =>
            rw [h5] at h
            cases h
          | ok allCoins =>
            rw [h5] at h
            simp only at h
            cases h6 : trackSpentCoins client core allCoins tb te with
            | error e =>
              rw [h6] at h
              cases h
            | ok s =>
              rw [h6] at h
              simp only at h
              cases h
              obtain ⟨p1, _⟩ := prepareSerialBatchFrom_ok trackedAccounts accountCoins 0 _
                batch h2
              obtain ⟨_, p2⟩ := prepareSerialBatchFrom_ok trackedAccounts accountCoins 0 _
                batch h2
              have hall : batch.allCoins = accountCoins.flatten := by
                rw [p1]
                simpa using p2
              obtain ⟨a1, a2⟩ := assignSerialNumbers_ok coinSerialNumbers batch.allCoins 0
                allCoins h5
              obtain ⟨s1, _⟩ := scanCoins_ok client core trackedAccounts sb se accountCoins h1
              obtain ⟨_, t2, _⟩ := trackSpentCoins_ok client core allCoins tb te s h6
              refine ⟨rfl, ?_, ?_, ?_, ?_⟩
              · intro coins hcoins c hc
                simp only at hcoins
                rw [s1] at hcoins
                obtain ⟨a, _, rfl⟩ := List.mem_map.mp hcoins
                unfold expectedCoins at hc
                obtain ⟨o, _, rfl⟩ := List.mem_map.mp hc
                rfl
              · simp only
                rw [a1, hall]
              · intro k c hk
                simp only at hk ⊢
                rw [← hall] at hk
                obtain ⟨sn, e1, e2⟩ := a2 k c hk
                rw [Nat.zero_add] at e1
                exact ⟨sn, e1, e2⟩
              · intro r hr
                simp only at hr ⊢
                rw [t2] at hr
                obtain ⟨c, tx⟩ := r
                exact ((mem_spentPairs core allCoins _ c tx).mp hr).choose_spec.2.1

/-- Instance of `serial_number_only_change`: the tracking of the example ledger over the scan
range 3 to 3 and the track range 3 to 4 for the accounts with fingerprints 97 and 98. -/
theorem serial_number_only_change_witness :
    ∃ res, trackCoins (exSpendLedger ["a", "b"] ["t"]) exScanCore
        [exAccount 97 1, exAccount 98 2] 3 3 3 4 = .ok res ∧
      res.allCoins.length = res.accountCoins.flatten.length ∧
      ∀ coins ∈ res.accountCoins, ∀ c ∈ coins, c.SerialNumber = none := by
  have hb : (match trackCoins (exSpendLedger ["a", "b"] ["t"]) exScanCore
      [exAccount 97 1, exAccount 98 2] 3 3 3 4 with
      | .ok _ => true
      | .error _ => false) = true := by decide
  cases hres : trackCoins (exSpendLedger ["a", "b"] ["t"]) exScanCore
      [exAccount 97 1, exAccount 98 2] 3 3 3 4 with
  | error e =>
    rw [hres] at hb
    cases hb
  | ok res =>
    obtain ⟨_, h2, h3, _, _⟩ := serial_number_only_change (exSpendLedger ["a", "b"] ["t"])
      exScanCore [exAccount 97 1, exAccount 98 2] 3 3 3 4 res hres
    exact ⟨res, rfl, h3, h2⟩

/-! ## C21: the two scans agree -/

theorem appendTxInDesc_map (coin : Coin) (acc : List (List Coin)) :
    ∀ (i : Nat), appendTxInDesc (acc.map (List.map coinToTxInDesc)) i (coinToTxInDesc coin)
      = (appendCoin acc i coin).map (List.map coinToTxInDesc) := by
  induction acc with
  | nil =>
    intro i
    rfl
  | cons coins rest ih =>
    intro i
    cases i with
    | zero => simp [appendTxInDesc, appendCoin]
    | succ i =>
      simp only [List.map_cons, appendTxInDesc, appendCoin]
      rw [ih i]

theorem searchAccounts_map (core : Core) (height : Int) (blockHash txHash : String)
    (txIndex : Nat) (voutData fp : Bytes) (rest : List DemoAccount) :
    ∀ (i : Nat) (acc : List (List Coin)),
      searchAccounts core height txHash txIndex voutData fp i rest
          (acc.map (List.map coinToTxInDesc))
        = (scanAccounts core height blockHash txHash txIndex voutData fp i rest acc).map
            (fun r => r.map (List.map coinToTxInDesc)) := by
  induction rest with
  | nil =>
    intro i acc
    rfl
  | cons a more ih =>
    intro i acc
    unfold searchAccounts scanAccounts
    by_cases hfp : fp = a.Fingerprint
    · rw [if_pos hfp, if_pos hfp]
      cases hd : core.DecodeValueFromTxOutData voutData a.ViewSecretKey with
      | error e => rfl
      | ok v =>
        simp only
        have hcoin : mkTxInDesc core a txHash txIndex v voutData height
            = coinToTxInDesc (mkCoin core a txHash txIndex v voutData blockHash height) := rfl
        rw [hcoin, appendTxInDesc_map, ih]
    · rw [if_neg hfp, if_neg hfp, ih]

theorem searchVouts_map (core : Core) (accounts : List DemoAccount) (height : Int)
    (blockHash txHash : String) (vouts : List TxVout) :
    ∀ (k : Nat) (acc : List (List Coin)),
      searchVouts core accounts height txHash k vouts (acc.map (List.map coinToTxInDesc))
        = (scanVouts core accounts height blockHash txHash k vouts acc).map
            (fun r => r.map (List.map coinToTxInDesc)) := by
  induction vouts with
  | nil =>
    intro k acc
    rfl
  | cons vout rest ih =>
    intro k acc
    unfold searchVouts scanVouts
    cases hdec : core.DecodeCoinAddressFromTxOutData (core.MakeBytesFromHexString vout.Script)
      with
    | error e => rfl
    | ok coinAddress =>
      simp only
      rw [searchAccounts_map core height blockHash txHash k _ _ accounts 0 acc]
      cases hacc : scanAccounts core height blockHash txHash k
          (core.MakeBytesFromHexString vout.Script) (core.Fingerprint coinAddress)
          0 accounts acc with
      | error e => rfl
      | ok acc1 =>
        simp only [Except.map]
        exact ih (k + 1) acc1

theorem searchTxs_map (client : AbecRPCClient) (core : Core) (accounts : List DemoAccount)
    (height : Int) (blockHash : String) (hashes : List String) :
    ∀ (acc : List (List Coin)),
      searchTxs client core accounts height hashes (acc.map (List.map coinToTxInDesc))
        = (scanTxs client core accounts height blockHash hashes acc).map
            (fun r => r.map (List.map coinToTxInDesc)) := by
  induction hashes with
  | nil =>
    intro acc
    rfl
  | cons t rest ih =>
    intro acc
    unfold searchTxs scanTxs
    cases htx : client.GetRawTx t with
    | error e => rfl
    | ok tx =>
      simp only
      rw [searchVouts_map core accounts height blockHash t tx.Vout 0 acc]
      cases hv : scanVouts core accounts height blockHash t 0 tx.Vout acc with
      | error e => rfl
      | ok acc1 =>
        simp only [Except.map]
        exact ih acc1

theorem searchHeights_map (client : AbecRPCClient) (core : Core)
    (accounts : List DemoAccount) (heights : List Int) :
    ∀ (acc : List (List Coin)),
      searchHeights client core accounts heights (acc.map (List.map coinToTxInDesc))
        = (scanHeights client core accounts heights acc).map
            (fun r => r.map (List.map coinToTxInDesc)) := by
  induction heights with
  | nil =>
    intro acc
    rfl
  | cons hgt rest ih =>
    intro acc
    unfold searchHeights scanHeights
    cases hbh : client.GetBlockHash hgt with
    | error e => rfl
    | ok blockHash =>
      simp only
      cases hb : client.GetBlock blockHash with
      | error e => rfl
      | ok block =>
        simp only
        rw [searchTxs_map client core accounts hgt blockHash block.TxHashes acc]
        cases ht : scanTxs client core accounts hgt blockHash block.TxHashes acc with
        | error e => rfl
        | ok acc1 =>
          simp only [Except.map]
          exact ih acc1

/-- The coin search of the spending path, on a range that passes its range check, returns
the image of the result of the tracking-path scan. -/
theorem searchTxInDescs_eq (client : AbecRPCClient) (core : Core)
    (accounts : List DemoAccount) (b e : Int) (hb : 0 ≤ b) (hbe : b ≤ e) :
    searchTxInDescs client core accounts b e
      = (scanCoins client core accounts b e).map
          (fun accountCoins => accountCoins.map (List.map coinToTxInDesc)) := by
  unfold searchTxInDescs scanCoins
  have hguard : ¬ (b > e ∨ b < 0) := by omega
  rw [if_neg hguard]
  have hinit : (List.replicate accounts.length ([] : List TxInDesc))
      = (List.replicate accounts.length ([] : List Coin)).map (List.map coinToTxInDesc) := by
    simp
  rw [hinit]
  exact searchHeights_map client core accounts _ _

/-- C21: for the same ledger, the same height range with `0 <= begin <= end` and the same
account list, the coin search of the spending path fails exactly when the coin scan of the
tracking path fails, and otherwise yields, for each account, the list obtained from the
coin list of that account by turning every coin, in order, into the `TxInDesc` with the same
output payload, value, block height, transaction hash and output index (and the short
address of the owner). -/
theorem scans_agree (client : AbecRPCClient) (core : Core) (accounts : List DemoAccount)
    (b e : Int) (hb : 0 ≤ b) (hbe : b ≤ e) :
    searchTxInDescs client core accounts b e
      = (scanCoins client core accounts b e).map
          (fun accountCoins => accountCoins.map (List.map coinToTxInDesc)) ∧
    (∀ accountCoins, scanCoins client core accounts b e = .ok accountCoins →
      ∃ senderTxInDescs, searchTxInDescs client core accounts b e = .ok senderTxInDescs ∧
        senderTxInDescs.length = accountCoins.length ∧
        ∀ (i : Nat) (coins : List Coin), accountCoins[i]? = some coins →
          ∃ descs, senderTxInDescs[i]? = some descs ∧ descs.length = coins.length ∧
            ∀ (k : Nat) (c : Coin), coins[k]? = some c →
              ∃ d, descs[k]? = some d ∧ d.TxOutData = c.TxVoutData ∧ d.CoinValue = c.Value ∧
                d.Height = c.BlockHeight ∧ d.TxHash = c.ID.TxHash ∧
                d.TxOutIndex = c.ID.Index ∧ d.Owner = c.OwnerShortAddress) := by
  have heq := searchTxInDescs_eq client core accounts b e hb hbe
  refine ⟨heq, ?_⟩
  intro accountCoins hscan
  rw [hscan] at heq
  refine ⟨_, heq, by simp, ?_⟩
  intro i coins hi
  refine ⟨coins.map coinToTxInDesc, by simp [hi], by simp, ?_⟩
  intro k c hk
  exact ⟨coinToTxInDesc c, by simp [hk], rfl, rfl, rfl, rfl, rfl, rfl⟩

/-- Instance of `scans_agree`: heights 3 to 4 of the example ledger and the accounts with
fingerprints 97 and 98. -/
theorem scans_agree_witness :
    searchTxInDescs exLedger exScanCore [exAccount 97 1, exAccount 98 2] 3 4
      = (scanCoins exLedger exScanCore [exAccount 97 1, exAccount 98 2] 3 4).map
          (fun accountCoins => accountCoins.map (List.map coinToTxInDesc)) :=
  (scans_agree exLedger exScanCore [exAccount 97 1, exAccount 98 2] 3 4
    (by decide) (by decide)).1

/-! ## C22: the view-key check -/

theorem trimLast32_eq (key : Bytes) :
    trimLast32 key
      = if 32 ≤ key.length then .ok (key.take (key.length - 32))
        else .error "slice bounds out of range" := by
  unfold trimLast32
  by_cases h : 32 ≤ key.length
  · have h2 : ¬ ((key.length : Int) - 32 < 0) := by omega
    rw [if_neg h2, if_pos h]
  · have h2 : (key.length : Int) - 32 < 0 := by omega
    rw [if_pos h2, if_neg h]

theorem checkViewSecretKey_iff (regenerated resource : Bytes) :
    checkViewSecretKey regenerated resource = .ok () ↔
      32 ≤ regenerated.length ∧ 32 ≤ resource.length ∧
      regenerated.take (regenerated.length - 32) = resource.take (resource.length - 32) := by
  unfold checkViewSecretKey
  rw [trimLast32_eq, trimLast32_eq]
  by_cases h1 : 32 ≤ regenerated.length
  · by_cases h2 : 32 ≤ resource.length
    · rw [if_pos h1, if_pos h2]
      simp only
      by_cases h3 : regenerated.take (regenerated.length - 32)
          = resource.take (resource.length - 32)
      · rw [if_pos h3]
        exact ⟨fun _ => ⟨h1, h2, h3⟩, fun _ => rfl⟩
      · rw [if_neg h3]
        constructor
        · intro h
          cases h
        · intro h
          exact absurd h.2.2 h3
    · rw [if_pos h1, if_neg h2]
      simp only
      constructor
      · intro h
        cases h
      · intro h
        exact absurd h.2.1 h2
  · rw [if_neg h1]
    simp only
    constructor
    · intro h
      cases h
    · intro h
      exact absurd h.1 h1

/-- C22: when an account is loaded, the view-secret-key check passes if and only if both
view keys have at least 32 bytes and the regenerated key with its final 32 bytes removed is
byte-equal to the resource key with its final 32 bytes removed; hence two keys that differ
only within their final 32 bytes are accepted as matching. The whole check of an account
passes if and only if the spend keys, the serial-number keys and the crypto addresses are
equal in full and the view-key check passes. -/
theorem view_key_check_ignores_last_32_bytes (regenerated resource : Bytes)
    (ckaa res : CryptoKeysAndAddress) :
    (checkViewSecretKey regenerated resource = .ok () ↔
      32 ≤ regenerated.length ∧ 32 ≤ resource.length ∧
      regenerated.take (regenerated.length - 32)
        = resource.take (resource.length - 32)) ∧
    (∀ (common tail1 tail2 : Bytes), tail1.length = 32 → tail2.length = 32 →
      checkViewSecretKey (common ++ tail1) (common ++ tail2) = .ok ()) ∧
    (checkDemoAccount ckaa res = .ok () ↔
      ckaa.SpendSecretKey = res.SpendSecretKey ∧
      ckaa.SerialNoSecretKey = res.SerialNoSecretKey ∧
      checkViewSecretKey ckaa.ViewSecretKey res.ViewSecretKey = .ok () ∧
      ckaa.CryptoAddress = res.CryptoAddress) := by
  refine ⟨checkViewSecretKey_iff regenerated resource, ?_, ?_⟩
  · intro common tail1 tail2 h1 h2
    rw [checkViewSecretKey_iff]
    refine ⟨by simp [h1], by simp [h2], ?_⟩
    have e1 : (common ++ tail1).length - 32 = common.length := by simp [h1]
    have e2 : (common ++ tail2).length - 32 = common.length := by simp [h2]
    rw [e1, e2, List.take_left, List.take_left]
  · unfold checkDemoAccount
    by_cases h1 : ckaa.SpendSecretKey = res.SpendSecretKey
    · by_cases h2 : ckaa.SerialNoSecretKey = res.SerialNoSecretKey
      · rw [if_neg (not_not.mpr h1), if_neg (not_not.mpr h2)]
        cases hv : checkViewSecretKey ckaa.ViewSecretKey res.ViewSecretKey with
        | error e =>
          simp only
          constructor
          · intro h
            cases h
          · intro h
            cases h.2.2.1
        | ok u =>
          simp only
          by_cases h4 : ckaa.CryptoAddress = res.CryptoAddress
          · rw [if_neg (not_not.mpr h4)]
            exact ⟨fun _ => ⟨h1, h2, trivial, h4⟩, fun _ => rfl⟩
          · rw [if_pos h4]
            constructor
            · intro h
              cases h
            · intro h
              exact absurd h.2.2.2 h4
      · rw [if_neg (not_not.mpr h1), if_pos h2]
        constructor
        · intro h
          cases h
        · intro h
          exact absurd h.2.1 h2
    · rw [if_pos h1]
      constructor
      · intro h
        cases h
      · intro h
        exact absurd h.1 h1

/-- Instance of `view_key_check_ignores_last_32_bytes`: two view keys with the common part
`[1, 2]` followed by 32 bytes 0 and by 32 bytes 9. -/
theorem view_key_check_ignores_last_32_bytes_witness :
    checkViewSecretKey ([1, 2] ++ List.replicate 32 0) ([1, 2] ++ List.replicate 32 9)
      = .ok () :=
  (view_key_check_ignores_last_32_bytes [] []
    { SpendSecretKey := [], SerialNoSecretKey := [], ViewSecretKey := [], CryptoAddress := [] }
    { SpendSecretKey := [], SerialNoSecretKey := [], ViewSecretKey := [],
      CryptoAddress := [] }).2.1
    [1, 2] (List.replicate 32 0) (List.replicate 32 9) (by decide) (by decide)

/-! ## C23: output values are non-negative and nearly equal -/

/-- C23: for every input total `V` (the `int64` total of the input values), every fee `F`
with `0 <= F <= V` and `N >= 1` receivers, the value distribution succeeds, every output
value is `>= 0`, the value of the last receiver is `>=` every output value, and it exceeds
each output value by less than `N`. -/
theorem output_values_nearly_equal (ins : List TxInDesc) (fee : Int)
    (receivers : List DemoAccount) (hr : receivers ≠ []) (h0 : 0 ≤ fee)
    (hle : fee ≤ totalCoinValue ins) :
    ∃ outs last, calcTxOutDescs (totalCoinValue ins) fee receivers = .ok outs ∧
      outs[receivers.length - 1]? = some last ∧
      ∀ d ∈ outs, 0 ≤ d.CoinValue ∧ d.CoinValue ≤ last.CoinValue ∧
        last.CoinValue - d.CoinValue < receivers.length := by
  obtain ⟨outs, hok, hlen, _, hget⟩ :=
    calcTxOutDescs_spec (totalCoinValue ins) fee receivers hr
  have hV : IsInt64 (totalCoinValue ins) := by
    rw [totalCoinValue_eq]
    exact isInt64_wrap64 _
  have hR : sub64 (totalCoinValue ins) fee = totalCoinValue ins - fee := by
    apply wrap64_of_isInt64
    unfold IsInt64 at hV ⊢
    omega
  rw [hR] at hget
  have hn : 0 < receivers.length := List.length_pos.mpr hr
  have hpos : (0 : Int) < (receivers.length : Int) := by exact_mod_cast hn
  have hR0 : 0 ≤ totalCoinValue ins - fee := by omega
  obtain ⟨hq, hm, _⟩ := (tdiv_tmod_bounds (totalCoinValue ins - fee) receivers.length hpos).1 hR0
  have hmlt := Int.tmod_lt_of_pos (totalCoinValue ins - fee) hpos
  have hlast := hget (receivers.length - 1)
  rw [List.getElem?_eq_getElem (show receivers.length - 1 < receivers.length by omega)]
    at hlast
  simp only [Option.map_some', if_true] at hlast
  refine ⟨outs, _, hok, hlast, ?_⟩
  intro d hd
  obtain ⟨k, hk⟩ := List.mem_iff_getElem?.mp hd
  rw [hget k] at hk
  cases hrk : receivers[k]? with
  | none =>
    rw [hrk] at hk
    cases hk
  | some a =>
    rw [hrk] at hk
    simp only [Option.map_some', Option.some.injEq] at hk
    subst hk
    by_cases hkl : k = receivers.length - 1
    · simp only [hkl, if_true]
      omega
    · simp only [hkl, if_false]
      omega

/-- Instance of `output_values_nearly_equal`: inputs 60 and 43, fee 3, three receivers. -/
theorem output_values_nearly_equal_witness :
    ∃ outs last, calcTxOutDescs (totalCoinValue [exTxIn 60 1, exTxIn 43 2]) 3
        [exReceiver 1, exReceiver 2, exReceiver 3] = .ok outs ∧
      outs[[exReceiver 1, exReceiver 2, exReceiver 3].length - 1]? = some last ∧
      ∀ d ∈ outs, 0 ≤ d.CoinValue ∧ d.CoinValue ≤ last.CoinValue ∧
        last.CoinValue - d.CoinValue
          < ([exReceiver 1, exReceiver 2, exReceiver 3].length : Int) :=
  output_values_nearly_equal [exTxIn 60 1, exTxIn 43 2] 3
    [exReceiver 1, exReceiver 2, exReceiver 3] (by decide) (by decide) (by decide)

/-! ## C24: the output index is stored in eight bits -/

theorem voutOutputs_getElem? (height : Int) (blockHash : String) (txPos : Nat)
    (txHash : String) (vouts : List TxVout) :
    ∀ (k p : Nat), (voutOutputs height blockHash txPos txHash k vouts)[p]?
      = (vouts[p]?).map (fun v =>
          ({ height := height, blockHash := blockHash, txPos := txPos, txHash := txHash,
             txIndex := k + p, script := v.Script } : LedgerOutput)) := by
  induction vouts with
  | nil =>
    intro k p
    simp [voutOutputs]
  | cons v rest ih =>
    intro k p
    cases p with
    | zero => simp [voutOutputs]
    | succ p =>
      simp only [voutOutputs, List.getElem?_cons_succ]
      rw [ih (k + 1) p]
      have e : k + 1 + p = k + (p + 1) := by omega
      rw [e]

theorem mem_expectedCoins (core : Core) (a : DemoAccount) (outs : List LedgerOutput)
    (c : Coin) (hc : c ∈ expectedCoins core a outs) :
    ∃ o ∈ outs, fingerprintMatches core a o = true ∧ c = coinFor core a o := by
  unfold expectedCoins at hc
  obtain ⟨o, ho, rfl⟩ := List.mem_map.mp hc
  obtain ⟨m1, m2⟩ := List.mem_filter.mp ho
  exact ⟨o, m1, m2, rfl⟩

/-- C24: the output at position `p` of the output list of a transaction is enumerated with
index `p`, and the `CoinID` index (tracking path) and the `TxOutIndex` (spending path)
recorded for an output with index `p` equal `p mod 256`; they equal `p` exactly when
`p < 256`. -/
theorem output_index_mod_256 (client : AbecRPCClient) (core : Core)
    (accounts : List DemoAccount) (b e : Int) :
    (∀ (height : Int) (blockHash : String) (txPos : Nat) (txHash : String)
        (vouts : List TxVout) (p : Nat),
      (voutOutputs height blockHash txPos txHash 0 vouts)[p]?
        = (vouts[p]?).map (fun v =>
            ({ height := height, blockHash := blockHash, txPos := txPos, txHash := txHash,
               txIndex := p, script := v.Script } : LedgerOutput))) ∧
    (∀ accountCoins, scanCoins client core accounts b e = .ok accountCoins →
      ∀ (i : Nat) (a : DemoAccount) (coins : List Coin), accounts[i]? = some a →
        accountCoins[i]? = some coins → ∀ c ∈ coins,
          ∃ o ∈ ledgerOutputs client (heightRange b e), c = coinFor core a o ∧
            c.ID.Index = o.txIndex % 256 ∧ (c.ID.Index = o.txIndex ↔ o.txIndex < 256)) ∧
    (∀ senderTxInDescs, searchTxInDescs client core accounts b e = .ok senderTxInDescs →
      ∀ (i : Nat) (a : DemoAccount) (descs : List TxInDesc), accounts[i]? = some a →
        senderTxInDescs[i]? = some descs → ∀ d ∈ descs,
          ∃ o ∈ ledgerOutputs client (heightRange b e),
            d = coinToTxInDesc (coinFor core a o) ∧
            d.TxOutIndex = o.txIndex % 256 ∧ (d.TxOutIndex = o.txIndex ↔ o.txIndex < 256)) := by
  have hscan : ∀ accountCoins, scanCoins client core accounts b e = .ok accountCoins →
      ∀ (i : Nat) (a : DemoAccount) (coins : List Coin), accounts[i]? = some a →
        accountCoins[i]? = some coins → ∀ c ∈ coins,
          ∃ o ∈ ledgerOutputs client (heightRange b e), c = coinFor core a o ∧
            c.ID.Index = o.txIndex % 256 ∧ (c.ID.Index = o.txIndex ↔ o.txIndex < 256) := by
    intro accountCoins h i a coins hia hic c hc
    obtain ⟨r1, _⟩ := scanCoins_ok client core accounts b e accountCoins h
    rw [r1, List.getElem?_map, hia] at hic
    simp only [Option.map_some', Option.some.injEq] at hic
    subst hic
    obtain ⟨o, ho, _, rfl⟩ := mem_expectedCoins core a _ c hc
    refine ⟨o, ho, rfl, rfl, ?_⟩
    show o.txIndex % 256 = o.txIndex ↔ o.txIndex < 256
    omega
  refine ⟨?_, hscan, ?_⟩
  · intro height blockHash txPos txHash vouts p
    have h := voutOutputs_getElem? height blockHash txPos txHash vouts 0 p
    rw [Nat.zero_add] at h
    exact h
  · intro senderTxInDescs hsearch i a descs hia hid d hd
    by_cases hguard : b > e ∨ b < 0
    · unfold searchTxInDescs at hsearch
      rw [if_pos hguard] at hsearch
      cases hsearch
    · have heq := searchTxInDescs_eq client core accounts b e (by omega) (by omega)
      rw [hsearch] at heq
      cases hs : scanCoins client core accounts b e with
      | error err =>
        rw [hs] at heq
        cases heq
      | ok accountCoins =>
        rw [hs] at heq
        simp only [Except.map, Except.ok.injEq] at heq
        subst heq
        rw [List.getElem?_map] at hid
        cases hic : accountCoins[i]? with
        | none =>
          rw [hic] at hid
          cases hid
        | some coins =>
          rw [hic] at hid
          simp only [Option.map_some', Option.some.injEq] at hid
          subst hid
          obtain ⟨c, hc, rfl⟩ := List.mem_map.mp hd
          obtain ⟨o, ho, hco, h1, h2⟩ := hscan accountCoins hs i a coins hia hic c hc
          refine ⟨o, ho, by rw [hco], ?_, ?_⟩
          · exact h1
          · exact h2

/-- Instance of `output_index_mod_256`: the coin of the account with fingerprint 98 in the
scan of height 3 of the example ledger stands for the output with index 1. -/
theorem output_index_mod_256_witness :
    ∃ o ∈ ledgerOutputs exLedger (heightRange 3 3),
      coinFor exScanCore (exAccount 98 2) (exOutput 3 1 "b")
        = coinFor exScanCore (exAccount 98 2) o ∧
      (coinFor exScanCore (exAccount 98 2) (exOutput 3 1 "b")).ID.Index = o.txIndex % 256 ∧
      ((coinFor exScanCore (exAccount 98 2) (exOutput 3 1 "b")).ID.Index = o.txIndex ↔
        o.txIndex < 256) :=
  (output_index_mod_256 exLedger exScanCore [exAccount 97 1, exAccount 98 2] 3 3).2.1
    [[coinFor exScanCore (exAccount 97 1) (exOutput 3 0 "a")],
     [coinFor exScanCore (exAccount 98 2) (exOutput 3 1 "b")]] (by decide)
    1 (exAccount 98 2) [coinFor exScanCore (exAccount 98 2) (exOutput 3 1 "b")]
    (by decide) (by decide) _ (by decide)

/-- The index kept for the output at position 256 is 0. -/
theorem output_index_wraps_at_256 (core : Core) (a : DemoAccount) (height : Int)
    (blockHash txHash script : String) (txPos : Nat) :
    (coinFor core a
      (⟨height, blockHash, txPos, txHash, 256, script⟩ : LedgerOutput)).ID.Index = 0 := by
  simp [coinFor, mkCoin]

/-! ## C25: input selection -/

theorem pickTxInDescs_spec (randomValues : Nat → Nat) (lists : List (List TxInDesc)) :
    ∀ (k : Nat) (acc : List TxInDesc),
      ∃ picks, pickTxInDescs randomValues k lists acc = .ok (acc ++ picks) ∧
        List.Forall₂ (fun d l => d ∈ l) picks
          (lists.filter (fun l => decide (l ≠ []))) := by
  induction lists with
  | nil =>
    intro k acc
    exact ⟨[], by simp [pickTxInDescs], List.Forall₂.nil⟩
  | cons l rest ih =>
    intro k acc
    unfold pickTxInDescs
    by_cases hl : l.length = 0
    · have hnil : l = [] := List.length_eq_zero.mp hl
      rw [if_pos hl]
      obtain ⟨picks, h1, h2⟩ := ih k acc
      refine ⟨picks, h1, ?_⟩
      subst hnil
      simpa [List.filter_cons] using h2
    · rw [if_neg hl]
      have hpos : 0 < l.length := Nat.pos_of_ne_zero hl
      have hlt : randomValues k % l.length < l.length := Nat.mod_lt _ hpos
      rw [List.getElem?_eq_getElem hlt]
      simp only
      obtain ⟨picks, h1, h2⟩ := ih (k + 1) (acc ++ [l[randomValues k % l.length]])
      refine ⟨l[randomValues k % l.length] :: picks, ?_, ?_⟩
      · rw [h1]
        simp
      · have hne : l ≠ [] := fun h => hl (by rw [h]; rfl)
        have hd : decide (l ≠ []) = true := decide_eq_true hne
        rw [List.filter_cons, hd]
        simp only [if_true]
        exact List.Forall₂.cons (List.getElem_mem hlt) h2

/-- C25: for every per-sender coin lists and every choice of the random indices, the picked
inputs are in one-to-one, order-preserving correspondence with the senders whose coin list
is non-empty, each picked input being a member of the coin list of its sender (so there is
exactly one input per sender with coins and none for a sender without). The selection fails
with an error if and only if every coin list is empty, and otherwise returns the picked
inputs. -/
theorem input_selection (randomValues : Nat → Nat) (senderTxInDescs : List (List TxInDesc)) :
    (∃ picks, pickTxInDescs randomValues 0 senderTxInDescs [] = .ok picks ∧
      List.Forall₂ (fun d l => d ∈ l) picks
        (senderTxInDescs.filter (fun l => decide (l ≠ []))) ∧
      picks.length = (senderTxInDescs.filter (fun l => decide (l ≠ []))).length ∧
      selectTxInDescs randomValues senderTxInDescs
        = if picks.length = 0 then .error "failed to find any coin to spend"
          else .ok picks) ∧
    ((∃ err, selectTxInDescs randomValues senderTxInDescs = .error err) ↔
      ∀ l ∈ senderTxInDescs, l = []) := by
  obtain ⟨picks, h1, h2⟩ := pickTxInDescs_spec randomValues senderTxInDescs 0 []
  rw [List.nil_append] at h1
  have hlen := h2.length_eq
  have hsel : selectTxInDescs randomValues senderTxInDescs
      = if picks.length = 0 then .error "failed to find any coin to spend"
        else .ok picks := by
    simp only [selectTxInDescs, h1]
  refine ⟨⟨picks, h1, h2, hlen, hsel⟩, ?_⟩
  rw [hsel]
  have hall : (senderTxInDescs.filter (fun l => decide (l ≠ []))).length = 0 ↔
      ∀ l ∈ senderTxInDescs, l = [] := by
    rw [List.length_eq_zero, List.filter_eq_nil_iff]
    constructor
    · intro h l hl
      have := h l hl
      simpa using this
    · intro h l hl
      simp [h l hl]
  by_cases hp : picks.length = 0
  · rw [if_pos hp]
    constructor
    · intro _
      exact hall.mp (by rw [← hlen]; exact hp)
    · intro _
      exact ⟨_, rfl⟩
  · rw [if_neg hp]
    constructor
    · rintro ⟨err, herr⟩
      cases herr
    · intro h
      exact absurd (by rw [hlen]; exact hall.mpr h) hp

/-- Instance of `input_selection`: three senders, the second without coins, and the random
values 7, 7, ...; the first sender has two coins and index `7 mod 2 = 1` is picked, the
third has one coin. -/
theorem input_selection_witness :
    selectTxInDescs (fun _ => 7) [[exTxIn 1 1, exTxIn 2 2], [], [exTxIn 3 3]]
      = .ok [exTxIn 2 2, exTxIn 3 3] ∧
    ¬ (∃ err, selectTxInDescs (fun _ => 7) [[exTxIn 1 1, exTxIn 2 2], [], [exTxIn 3 3]]
      = .error err) :=
  ⟨by decide,
   fun h => absurd
     ((input_selection (fun _ => 7) [[exTxIn 1 1, exTxIn 2 2], [], [exTxIn 3 3]]).2.mp h
       [exTxIn 3 3] (by decide))
     (by decide)⟩

/-! ## C26: packToOutData -/

/-- C26 (code): the size check of `packToOutData` compares `len(data)` with `len(outData)`
and leaves out the 4-byte length prefix. For non-empty `data` and an `outData` of more than
4 bytes with `len(data) <= len(outData) < 4 + len(data)` the function returns `nil` after
writing `4 + len(data)` bytes, which is past the end of `outData`. -/
theorem packToOutData_writes_past_buffer (data outData : Bytes) (hd : data ≠ [])
    (ho : 4 < outData.length) (hle : data.length ≤ outData.length)
    (hov : outData.length < 4 + data.length) :
    packToOutData data outData = .done (4 + data.length) ∧
    ¬ (4 + data.length ≤ outData.length) := by
  have h1 : ¬ (data.length > outData.length) := by omega
  have h2 : ¬ (outData.length = 0) := by omega
  have h3 : ¬ (outData.length ≤ 4) := by omega
  have h4 : ¬ (data.length = 0) := fun h => hd (List.length_eq_zero.mp h)
  refine ⟨?_, by omega⟩
  unfold packToOutData
  rw [if_neg h1, if_neg h2, if_neg h3, if_neg h4]

/-- Instance of `packToOutData_writes_past_buffer`: 8 bytes of data and an output buffer of
8 bytes; 12 bytes are written. -/
theorem packToOutData_writes_past_buffer_witness :
    packToOutData (List.replicate 8 0) (List.replicate 8 0) = .done 12 :=
  (packToOutData_writes_past_buffer (List.replicate 8 0) (List.replicate 8 0)
    (by decide) (by decide) (by decide) (by decide)).1


end AbelDemo
